import Mathlib

/-!
# whyparser: record engine, query-log codec and aggregator

A shallow embedding of the C++ sources (`records.hpp`, `yrequest.cpp`,
`yprocessing.cpp`, `refstringmap.hpp`, and `read_tune` of `mappedfile.cpp`) and the
properties established about it.

Conventions of the embedding:

* the mapped region `data`/`size` is a `List UInt8`, `size` being its length; the empty
  list is the region of a file of 0 bytes, which `mmap` refuses to map;
* `size_t` offsets are natural numbers (a mapped region is far smaller than `2^63`
  bytes, so `(left + right) / 2` and the counters never wrap);
* `time_t` is a 64-bit signed integer: values are integers and every arithmetic
  result is reduced by `wrap_time`;
* `unsigned` hit counts are natural numbers reduced modulo `2^32` on increment;
* every `for`/`while` loop is a function recursing on the number of bytes (or
  steps) left, which is exactly the number of iterations the loop can still run.
-/

namespace WhyParser

/-! ## Machine integers -/

/-- Two's complement reduction of an integer to the 64-bit signed range of `time_t`. -/
def wrap_time (x : Int) : Int := (x + 9223372036854775808) % 18446744073709551616 - 9223372036854775808

/-- Reduction of a natural number to the 32-bit range of `unsigned`. -/
def wrap_unsigned (x : Nat) : Nat := x % 4294967296

/-! ## yrequest.cpp: the query-log record -/

/-- Is the given character a space character (SP or TAB)? -/
def is_space (c : UInt8) : Bool := c == 32 || c == 9

/-- The fields of a `WhyRequest`: `query` is the offset of the raw query in the mapped
region (the C++ pointer `&data[offset]`), `query_size` its length. -/
structure WhyRequest where
  valid : Bool
  timestamp : Int
  query : Nat
  query_size : Nat
deriving DecidableEq, Repr

/-- The constructor `WhyRequest(time_t start)`, an object suitable for comparisons. -/
def WhyRequest.of_time (start : Int) : WhyRequest :=
  { valid := false, timestamp := start, query := 0, query_size := 0 }

/-- The timestamp loop of `get_record`:
`for(timestamp = 0; offset < size && data[offset] >= '0' && data[offset] <= '9'; offset++)`. -/
def scan_timestamp (data : List UInt8) : Nat → Nat → Int → Nat × Int
  | 0, offset, timestamp => (offset, timestamp)
  | fuel + 1, offset, timestamp =>
    if offset < data.length ∧ data.getD offset 0 ≥ 48 ∧ data.getD offset 0 ≤ 57 then
      scan_timestamp data fuel (offset + 1)
        (wrap_time (wrap_time (timestamp * 10) + (((data.getD offset 0).toNat : Int) - 48)))
    else (offset, timestamp)

/-- The loops `for(; offset < size && p(data[offset]); offset++) ;` of `get_record`. -/
def scan_while (p : UInt8 → Bool) (data : List UInt8) : Nat → Nat → Nat
  | 0, offset => offset
  | fuel + 1, offset =>
    if offset < data.length ∧ p (data.getD offset 0) = true then
      scan_while p data fuel (offset + 1)
    else offset

/-- The loop condition of the query loop: `data[offset] != '\n'`. -/
def not_newline (c : UInt8) : Bool := c != 10

/-- The method `WhyRequest::get_record(data, size, offset)`: the returned boolean, the record that
was filled, and the new value of `offset`. -/
def get_record (data : List UInt8) (offset : Nat) : Bool × WhyRequest × Nat :=
  let size := data.length
  let empty : Bool := decide (offset = size) || data.getD offset 0 == 10
  let ts := scan_timestamp data (size - offset) offset 0
  let o2 := scan_while is_space data (size - ts.1) ts.1
  let o3 := scan_while not_newline data (size - o2) o2
  let o4 := if o3 < size then o3 + 1 else o3
  let valid : Bool := ts.2 != 0 && (o3 - o2) != 0
  (decide (o4 < size) || !empty,
   { valid := valid, timestamp := ts.2, query := o2, query_size := o3 - o2 },
   o4)

/-- The record decoded at `offset`. -/
def record_at (data : List UInt8) (offset : Nat) : WhyRequest := (get_record data offset).2.1

/-- The offset of the record following the one decoded at `offset`. -/
def next_offset (data : List UInt8) (offset : Nat) : Nat := (get_record data offset).2.2

/-- The function `WhyRequest::begin(data, size, offset)`:
`for(; offset != 0 && data[offset - 1] != '\n'; offset--) ;`. -/
def WhyRequest.begin (data : List UInt8) : Nat → Nat
  | 0 => 0
  | offset + 1 => if data.getD offset 0 != 10 then WhyRequest.begin data offset else offset + 1

/-- The comparison `WhyRequest::operator >`. -/
def WhyRequest.gt (a b : WhyRequest) : Bool := decide (a.timestamp > b.timestamp)

/-- The comparison `WhyRequest::operator <`. -/
def WhyRequest.lt (a b : WhyRequest) : Bool := decide (a.timestamp < b.timestamp)

/-! ## refstringmap.hpp: reference strings and the frequency table -/

/-- A `RefString`: `str` holds the `len` bytes the C++ pointer refers to. -/
structure RefString where
  str : List UInt8
deriving DecidableEq, Repr

/-- The field `len` of a `RefString`. -/
def RefString.len (s : RefString) : Nat := s.str.length

/-- The C library `strncmp(a, b, n)`: compares at most `n` characters and stops after a
NUL character (both arguments hold at least `n` bytes when `operator==` calls it). -/
def strncmp : List UInt8 → List UInt8 → Nat → Int
  | a :: as, b :: bs, n + 1 =>
    if a ≠ b then (if a < b then -1 else 1)
    else if a = 0 then 0
    else strncmp as bs n
  | _, _, _ => 0

/-- The equality `RefString::operator==`: `len == other.len && strncmp(str, other.str, len) == 0`. -/
def RefString.eq (a b : RefString) : Bool :=
  a.len == b.len && strncmp a.str b.str a.len == 0

/-- The byte-wise FNV-1a hash (the function the source defines first under the name
`fnv1a_hash`), on 64-bit unsigned integers. -/
def fnv1a_hash (str : List UInt8) : Nat :=
  str.foldl (fun hash c => ((hash ^^^ c.toNat) * 1099511628211) % 18446744073709551616)
    14695981039346656037

/-- The 64-bit word read at `longs[i]` on a little-endian machine (x86, which the source
names as its target), from the eight bytes it covers. -/
def load_uint64 (bytes : List UInt8) : Nat :=
  bytes.foldr (fun c acc => c.toNat + 256 * acc) 0

/-- The word loop of `fnv1a_hash_fast`: `size64` words left to read from `str`. -/
def fnv1a_hash_fast_words : Nat → List UInt8 → Nat → Nat
  | 0, _, hash => hash
  | size64 + 1, str, hash =>
    fnv1a_hash_fast_words size64 (str.drop 8)
      (((hash ^^^ load_uint64 (str.take 8)) * 1099511628211) % 18446744073709551616)

/-- The function `fnv1a_hash_fast(str, size)`. -/
def fnv1a_hash_fast (str : List UInt8) : Nat :=
  let size64 := str.length / 8
  let hash := fnv1a_hash_fast_words size64 str 14695981039346656037
  let remain := str.length - size64 * 8
  if remain ≠ 0 then
    ((hash ^^^ fnv1a_hash (str.drop (size64 * 8))) * 1099511628211) % 18446744073709551616
  else hash

/-- The method `RefString::hash()`, where `fnv1a_hash` is by then the macro for `fnv1a_hash_fast`. -/
def RefString.hash (s : RefString) : Nat := fnv1a_hash_fast s.str

/-- The method `WhyRequest::get_raw_query()`: the reference string `RefString(query, query_size)`. -/
def WhyRequest.get_raw_query (data : List UInt8) (record : WhyRequest) : RefString :=
  { str := (data.drop record.query).take record.query_size }

/-- The type `RefStringUnorderedHashMap<unsigned>`: the entries of the table, in the order of
first insertion. Two keys are the same key of the table when `RefString::operator==`
says so: `std::unordered_map` applies its key equality to the keys of one bucket, so to
any two keys with the same hash. This is the table of the program whenever keys that
compare equal have equal hashes, as keys without NUL byte do; for keys that compare
equal with different hashes the container may keep two entries or one, depending on its
bucket count, and the properties that depend on which keys share an entry are stated
here for keys without NUL byte or with equal hashes only. -/
abbrev WordMap := List (RefString × Nat)

/-- The statement `wordMap[query]++`: the entry of an equal key is incremented, a missing
key is inserted with the value-initialised count `0` and incremented. -/
def WordMap.increment : WordMap → RefString → WordMap
  | [], query => [(query, wrap_unsigned (0 + 1))]
  | (key, count) :: rest, query =>
    if RefString.eq key query then (key, wrap_unsigned (count + 1)) :: rest
    else (key, count) :: WordMap.increment rest query

/-! ## records.hpp: the generic record engine -/

/-- What stops the C++ code short of returning a value. -/
inductive Fault where
  /-- An `assert` failed. -/
  | assertion
  /-- A loop was still running when its iteration budget was used up. -/
  | fuel
  /-- The value of `top()` was read on an empty priority queue. -/
  | empty_top
deriving DecidableEq, Repr

deriving instance DecidableEq for Except

/-- The method `ReadOnlyMemoryMap::read_tune(offset, random)` of mappedfile.cpp:
`assert(offset <= size)`, then `madvise` over the pages from `offset` to the end of the
region and `assert(ret == 0)`. For a file of 0 bytes `mmap` fails in `map`, which leaves
`data` at `MAP_FAILED` with `size` 0 (`is_valid()` holds of it), and `madvise` fails on
that address; on a mapped region `madvise` returns 0. -/
def ReadOnlyMemoryMap.read_tune (data : List UInt8) (offset : Nat) (_random : Bool) :
    Except Fault Unit :=
  if ¬ (offset ≤ data.length) then .error Fault.assertion
  else if data.length = 0 then .error Fault.assertion
  else .ok ()

/-- The method `MappedRecords::begin(offset)`: `assert(offset <= size)`, then `T::begin`. -/
def MappedRecords.begin (data : List UInt8) (offset : Nat) : Except Fault Nat :=
  if offset ≤ data.length then .ok (WhyRequest.begin data offset) else .error Fault.assertion

/-- The loop of `MappedRecords::locate(compare, record, left, right)`; the first argument
bounds the number of times the loop test is evaluated. -/
def MappedRecords.locate_loop (data : List UInt8) (compare : WhyRequest → Int) :
    Nat → Nat → Nat → Except Fault Nat
  | 0, _, _ => .error Fault.fuel
  | fuel + 1, left, right =>
    if left = right then .ok left
    else if ¬ (left < data.length) then .error Fault.assertion
    else if ¬ (right ≤ data.length) then .error Fault.assertion
    else if ¬ (left < right) then .error Fault.assertion
    else
      match MappedRecords.begin data ((left + right) / 2) with
      | .error e => .error e
      | .ok middle =>
        if ¬ (middle ≥ left ∧ middle ≤ right) then .error Fault.assertion
        else
          let position := next_offset data middle
          let cmp := compare (record_at data middle)
          if cmp > 0 then
            if ¬ (right > middle) then .error Fault.assertion
            else MappedRecords.locate_loop data compare fuel left middle
          else if cmp < 0 then
            if ¬ (left < middle + 1) then .error Fault.assertion
            else MappedRecords.locate_loop data compare fuel position right
          else .ok middle

/-- The method `MappedRecords::locate(compare)`: `read_tune(0, true)`, then the search over
`[0, size)`. Every pass through the loop that does not return shrinks `right - left`, so
`size + 1` loop tests are the most the search can need. -/
def MappedRecords.locate (data : List UInt8) (compare : WhyRequest → Int) : Except Fault Nat :=
  match ReadOnlyMemoryMap.read_tune data 0 true with
  | .error e => .error e
  | .ok _ => MappedRecords.locate_loop data compare (data.length + 1) 0 data.length

/-- The comparison function that `MappedRecords::locate(const T &reference)` builds from
`operator >` and `operator <`. -/
def reference_compare (reference : WhyRequest) (record : WhyRequest) : Int :=
  if record.gt reference then 1
  else if record.lt reference then -1
  else 0

/-- The method `MappedRecords::locate(const T &reference)`. -/
def MappedRecords.locate_reference (data : List UInt8) (reference : WhyRequest) :
    Except Fault Nat :=
  MappedRecords.locate data (reference_compare reference)

/-- The states `(current, record)` a `RecordIterator` goes through from `current` until it
compares equal to the end iterator (`current == size`); the first argument is the number
of steps left. The constructor calls `read_tune(offset, false)` only when
`offset != size`, so on a mapped region, where it succeeds. -/
def RecordIterator.run (data : List UInt8) : Nat → Nat → List (Nat × WhyRequest)
  | 0, _ => []
  | fuel + 1, current =>
    if current = data.length then []
    else (current, record_at data current) :: RecordIterator.run data fuel (next_offset data current)

/-- The range `for (record : RecordLocation(map, offset))`: the records visited from the
cursor `offset` to the end of the region, each with the offset it starts at. A record
takes at least one byte, so `size - offset` steps suffice. -/
def RecordLocation.records (data : List UInt8) (offset : Nat) : List (Nat × WhyRequest) :=
  RecordIterator.run data (data.length - offset) offset

/-! ## yprocessing.cpp: the aggregator -/

/-- The members of a `YParser`: the mapped region, the frequency table and the
configuration. -/
structure YParser where
  data : List UInt8
  wordMap : WordMap
  from_ : Int
  to_ : Int
  fast_seek : Bool
  jitter : Int
deriving DecidableEq, Repr

/-- The constructor `YParser(filename)` over a file holding `data`. -/
def YParser.open_file (data : List UInt8) : YParser :=
  { data := data, wordMap := [], from_ := 0, to_ := 9223372036854775807,
    fast_seek := true, jitter := 900 }

/-- The setters `set_fast_seek`, `set_start` and `set_end` applied to a new parser. -/
def YParser.configure (data : List UInt8) (from_ to_ : Int) (fast_seek : Bool) (jitter : Int) :
    YParser :=
  { YParser.open_file data with from_ := from_, to_ := to_, fast_seek := fast_seek, jitter := jitter }

/-- The local variables of `parse_records` that the scan loop updates, with the table. -/
structure ScanState where
  wordMap : WordMap
  read : Nat
  skipped : Nat
  invalid : Nat
  max_stamp : Int
  max_jitter : Int
deriving DecidableEq, Repr

/-- The loop `for(const auto record : position)` of `parse_records` over the records the
iteration yields; `break` returns the state as it is. -/
def YParser.scan (p : YParser) : List (Nat × WhyRequest) → ScanState → ScanState
  | [], s => s
  | (_, record) :: rest, s =>
    let stamp := record.timestamp
    if ¬ record.valid then
      YParser.scan p rest { s with invalid := s.invalid + 1 }
    else if stamp ≥ p.from_ ∧ stamp ≤ p.to_ then
      let max_stamp := if stamp > s.max_stamp then stamp else s.max_stamp
      let max_jitter :=
        if stamp < max_stamp ∧ wrap_time (max_stamp - stamp) > s.max_jitter then
          wrap_time (max_stamp - stamp)
        else s.max_jitter
      YParser.scan p rest
        { s with wordMap := s.wordMap.increment (record.get_raw_query p.data),
                 read := s.read + 1, max_stamp := max_stamp, max_jitter := max_jitter }
    else if p.fast_seek = true ∧ stamp > p.to_ ∧ wrap_time (stamp - p.to_) > p.jitter then
      s
    else
      YParser.scan p rest { s with skipped := s.skipped + 1 }

/-- The seek of `parse_records`: `begin()` unless `fast_seek && from > jitter`, else
`locate(WhyRequest(from - jitter))`, which fails in `read_tune` on the empty region. -/
def YParser.position (p : YParser) : Except Fault Nat :=
  if p.fast_seek = true ∧ p.from_ > p.jitter then
    MappedRecords.locate_reference p.data (WhyRequest.of_time (wrap_time (p.from_ - p.jitter)))
  else .ok 0

/-- The method `YParser::parse_records()`: the state of the scan when it ends, the table included. -/
def YParser.parse_records (p : YParser) : Except Fault ScanState :=
  match p.position with
  | .error e => .error e
  | .ok position =>
    .ok (p.scan (RecordLocation.records p.data position)
      { wordMap := p.wordMap, read := 0, skipped := 0, invalid := 0,
        max_stamp := 0, max_jitter := 0 })

/-- The parser after `parse_records()`: only the table changes. -/
def YParser.after_parse (p : YParser) : Except Fault YParser :=
  match p.parse_records with
  | .error e => .error e
  | .ok s => .ok { p with wordMap := s.wordMap }

/-- The method `YParser::get_distinct_queries()`: `wordMap.size()`. -/
def YParser.get_distinct_queries (p : YParser) : Nat := p.wordMap.length

/-! ## yprocessing.cpp: the top-K selector -/

/-- A pair of `RefString` and the number of hits. -/
abbrev RefStringPriorityPair := RefString × Nat

/-- The comparison `RefStringPriorityPairCompare`: `lhs.second > rhs.second`. -/
def RefStringPriorityPairCompare (lhs rhs : RefStringPriorityPair) : Bool :=
  decide (lhs.2 > rhs.2)

/-- The type `RefStringPriorityQueue`, a `std::priority_queue` under `RefStringPriorityPairCompare`:
its elements, kept so that none compares greater than a later one; `top()` is the first
element (one of least count), and which of several elements of equal count comes first
is a choice of this model that the library leaves open. -/
abbrev RefStringPriorityQueue := List RefStringPriorityPair

/-- The call `min_heap.push(element)`. -/
def RefStringPriorityQueue.push : RefStringPriorityQueue → RefStringPriorityPair →
    RefStringPriorityQueue
  | [], element => [element]
  | first :: rest, element =>
    if RefStringPriorityPairCompare element first then
      first :: RefStringPriorityQueue.push rest element
    else element :: first :: rest

/-- The call `min_heap.top()`, which has no value on an empty queue. -/
def RefStringPriorityQueue.top (q : RefStringPriorityQueue) : Option RefStringPriorityPair :=
  q.head?

/-- The call `min_heap.pop()`; on an empty queue the queue stays empty (the caller counts it). -/
def RefStringPriorityQueue.pop (q : RefStringPriorityQueue) : RefStringPriorityQueue :=
  q.tail

/-- The selection loop `for (const auto element : wordMap)` of `get_top_queries`. -/
def select_loop (top_queries : Nat) : List (RefString × Nat) → RefStringPriorityQueue →
    Except Fault RefStringPriorityQueue
  | [], min_heap => .ok min_heap
  | element :: rest, min_heap =>
    if min_heap.length < top_queries then
      select_loop top_queries rest (min_heap.push element)
    else
      match min_heap.top with
      | none => .error Fault.empty_top
      | some least =>
        if element.2 ≥ least.2 then
          select_loop top_queries rest (min_heap.pop.push element)
        else select_loop top_queries rest min_heap

/-- The loop `while(!min_heap.empty()) { list.push_back(min_heap.top()); min_heap.pop(); }`:
`first` is the value of `top()` and `rest` the queue that `pop()` leaves. -/
def drain_loop : RefStringPriorityQueue → List RefStringPriorityPair →
    List RefStringPriorityPair
  | [], list => list
  | first :: rest, list => drain_loop rest (list ++ [first])

/-- What `get_top_queries` returns, with the number of `pop()` calls it made on an empty
queue. -/
structure TopQueries where
  ordered_list : List RefStringPriorityPair
  empty_pops : Nat
deriving DecidableEq, Repr

/-- The loop `for(auto it = list.rbegin(); it != list.rend(); ++it)` of `get_top_queries`,
over the reversed list: each pass appends the element and calls `min_heap.pop()`. -/
def emit_loop : List RefStringPriorityPair → RefStringPriorityQueue → TopQueries → TopQueries
  | [], _, out => out
  | element :: rest, min_heap, out =>
    emit_loop rest min_heap.pop
      { ordered_list := out.ordered_list ++ [element],
        empty_pops := if min_heap.isEmpty then out.empty_pops + 1 else out.empty_pops }

/-- The method `YParser::get_top_queries(top_queries)` on the table `wordMap`; the drain
loop leaves `min_heap` empty, and so the emit loop starts from the empty queue. -/
def get_top_queries (wordMap : WordMap) (top_queries : Nat) : Except Fault TopQueries :=
  match select_loop top_queries wordMap [] with
  | .error e => .error e
  | .ok min_heap =>
    .ok (emit_loop (drain_loop min_heap []).reverse [] { ordered_list := [], empty_pops := 0 })

/-! ## yrequest.cpp: the decoded query and the end of a record -/

/-- Return the value of an hexadecimal character, or -1 upon error. -/
def hex_value (c : UInt8) : Int :=
  if c ≥ 48 ∧ c ≤ 57 then (c.toNat : Int) - 48
  else if c ≥ 65 ∧ c ≤ 70 then (c.toNat : Int) - 65 + 10
  else if c ≥ 97 ∧ c ≤ 102 then (c.toNat : Int) - 97 + 10
  else -1

/-- The local variables `esc` and `hex` of `get_query`, with the string it appends to. -/
structure DecodeState where
  esc : Nat
  hex : Int
  str : List UInt8
deriving DecidableEq, Repr

/-- One pass of the loop of `get_query`, on the character `c`: the `switch` with its cases
`'+'`, `'%'` and `default`; `(char) hex` is the byte `hex` modulo 256. -/
def get_query_step (s : DecodeState) (c : UInt8) : DecodeState :=
  if c = 43 then { s with str := s.str ++ [32] }
  else if c = 37 then { s with esc := 2, hex := 0 }
  else if s.esc = 0 then { s with str := s.str ++ [c] }
  else
    let value := hex_value c
    let hex := if value ≠ -1 ∧ s.hex ≠ -1 then s.hex * 16 + value else -1
    let esc := s.esc - 1
    { esc := esc, hex := hex,
      str := if esc = 0 ∧ hex > 0 then s.str ++ [UInt8.ofNat hex.toNat] else s.str }

/-- The loop `for(i = 0; i < query_size; i++)` of `get_query` over the bytes of the query. -/
def get_query_loop : List UInt8 → DecodeState → DecodeState
  | [], s => s
  | c :: rest, s => get_query_loop rest (get_query_step s c)

/-- The method `WhyRequest::get_query(str)`: the string `str` after the call. -/
def WhyRequest.get_query (data : List UInt8) (record : WhyRequest) (str : List UInt8) :
    List UInt8 :=
  (get_query_loop (record.get_raw_query data).str { esc := 0, hex := 0, str := str }).str

/-- The decoded form of a raw query: what `get_query` appends to the empty string for a
record whose raw query is `query`. -/
def decode_query (query : List UInt8) : List UInt8 :=
  (get_query_loop query { esc := 0, hex := 0, str := [] }).str

/-- The loop `for(; offset < size && (offset == 0 || data[offset - 1] != '\n'); offset++) ;`
of `WhyRequest::end`. -/
def end_scan (data : List UInt8) : Nat → Nat → Nat
  | 0, offset => offset
  | fuel + 1, offset =>
    if offset < data.length ∧ (offset = 0 ∨ data.getD (offset - 1) 0 ≠ 10) then
      end_scan data fuel (offset + 1)
    else offset

/-- The function `WhyRequest::end(data, size, offset)`: the loop, then
`if (offset < size) offset++`. -/
def WhyRequest.end_ (data : List UInt8) (offset : Nat) : Nat :=
  let o := end_scan data (data.length - offset) offset
  if o < data.length then o + 1 else o

/-- The values of `left`, `right`, `middle` and `position` in one pass through the body of
the loop of `MappedRecords::locate(compare, record, left, right)`. -/
structure LocatePass where
  left : Nat
  right : Nat
  middle : Nat
  position : Nat
deriving DecidableEq, Repr

/-- The passes through the body of the loop of
`MappedRecords::locate(compare, record, left, right)`, in order, each with the values
its assertions are evaluated on; the assertions themselves are left out here, and
`MappedRecords.locate_loop` has them. The first argument bounds the number of times the
loop test is evaluated. -/
def MappedRecords.locate_passes (data : List UInt8) (compare : WhyRequest → Int) :
    Nat → Nat → Nat → List LocatePass
  | 0, _, _ => []
  | fuel + 1, left, right =>
    if left = right then []
    else
      let middle := WhyRequest.begin data ((left + right) / 2)
      let position := next_offset data middle
      let cmp := compare (record_at data middle)
      { left := left, right := right, middle := middle, position := position } ::
        (if cmp > 0 then MappedRecords.locate_passes data compare fuel left middle
         else if cmp < 0 then MappedRecords.locate_passes data compare fuel position right
         else [])

/-! ## Notions the properties are stated with -/

/-- A record can start at `p`: `p` is 0 or the byte before it is a line terminator. -/
def starts_record (data : List UInt8) (p : Nat) : Prop := p = 0 ∨ data.getD (p - 1) 0 = 10

instance (data : List UInt8) (p : Nat) : Decidable (starts_record data p) := by
  unfold starts_record; infer_instance

/-- A record frontier: 0, the buffer length, or an offset just after a line terminator. -/
def is_frontier (data : List UInt8) (p : Nat) : Prop :=
  p = 0 ∨ p = data.length ∨ data.getD (p - 1) 0 = 10

instance (data : List UInt8) (p : Nat) : Decidable (is_frontier data p) := by
  unfold is_frontier; infer_instance

/-- The record is valid and its timestamp lies in `[from, to]`: the test under which the
scan loop counts it. -/
def in_range (from_ to_ : Int) (record : WhyRequest) : Bool :=
  record.valid && decide (record.timestamp ≥ from_) && decide (record.timestamp ≤ to_)

/-- The table after `wordMap[query]++` for the raw query of each listed record in turn. -/
def tally (data : List UInt8) (wordMap : WordMap) (records : List (Nat × WhyRequest)) : WordMap :=
  records.foldl (fun m x => m.increment (x.2.get_raw_query data)) wordMap

/-- The scan loop leaves at this record: it is valid, fast seek is enabled and the
timestamp is past `to` by more than the jitter. -/
def stops_scan (p : YParser) (record : WhyRequest) : Prop :=
  p.fast_seek = true ∧ record.valid = true ∧ record.timestamp > p.to_ ∧
    wrap_time (record.timestamp - p.to_) > p.jitter

instance (p : YParser) (record : WhyRequest) : Decidable (stops_scan p record) := by
  unfold stops_scan; infer_instance

/-- The raw query spans of the records of the region whose timestamp lies in
`[from, to]`, in file order. -/
def spans_in_range (data : List UInt8) (from_ to_ : Int) : List RefString :=
  ((RecordLocation.records data 0).filter
    (fun x => decide (from_ ≤ x.2.timestamp ∧ x.2.timestamp ≤ to_))).map
    (fun x => x.2.get_raw_query data)

/-- The raw query spans of the valid records of the region whose timestamp lies in
`[from, to]`, in file order. -/
def valid_spans_in_range (data : List UInt8) (from_ to_ : Int) : List RefString :=
  ((RecordLocation.records data 0).filter (fun x => in_range from_ to_ x.2)).map
    (fun x => x.2.get_raw_query data)

/-- A raw query of 16 bytes that starts with a NUL byte. -/
def nul_query_a : List UInt8 :=
  [0, 97, 97, 97, 97, 97, 97, 97, 97, 97, 97, 97, 97, 97, 97, 97]

/-- Another raw query of 16 bytes that starts with a NUL byte; `RefString::hash` gives it
the hash of `nul_query_a`. -/
def nul_query_b : List UInt8 :=
  [0, 98, 98, 98, 98, 98, 98, 98, 97, 180, 6, 207, 220, 42, 121, 28]

/-- The file of two records `1 <nul_query_a>` and `1 <nul_query_b>`, one per line. -/
def nul_buffer : List UInt8 :=
  [49, 32] ++ nul_query_a ++ [10] ++ [49, 32] ++ nul_query_b ++ [10]

/-- The count `wordMap.find(query)` leads to, 0 when the table has no entry for the key. -/
def WordMap.count_of (m : WordMap) (query : RefString) : Nat :=
  match m.find? (fun e => RefString.eq e.1 query) with
  | some e => e.2
  | none => 0

/-- The test of the timestamp loop: an ASCII digit. -/
def is_digit (c : UInt8) : Bool := decide (c ≥ 48 ∧ c ≤ 57)

/-- The decimal value of a run of ASCII digits. -/
def decimal_value (digits : List UInt8) : Nat :=
  digits.foldl (fun value c => value * 10 + (c.toNat - 48)) 0

/-- The maximal run of bytes satisfying `p` that starts at `offset`. -/
def run_at (p : UInt8 → Bool) (data : List UInt8) (offset : Nat) : List UInt8 :=
  (data.drop offset).takeWhile p

/-- An ASCII hexadecimal digit, upper or lower case. -/
def is_hex_digit (c : UInt8) : Bool :=
  decide ((c ≥ 48 ∧ c ≤ 57) ∨ (c ≥ 65 ∧ c ≤ 70) ∨ (c ≥ 97 ∧ c ≤ 102))

/-- The numeric value of an ASCII hexadecimal digit: the place of the character in
`0123456789ABCDEF`, or in `0123456789abcdef` for a lower-case letter (16 for a character
that is in neither). -/
def hex_digit_value (c : UInt8) : Nat :=
  min (([48, 49, 50, 51, 52, 53, 54, 55, 56, 57, 65, 66, 67, 68, 69, 70] : List UInt8).indexOf c)
    (([48, 49, 50, 51, 52, 53, 54, 55, 56, 57, 97, 98, 99, 100, 101, 102] : List UInt8).indexOf c)

/-- The records the scan loop counts, in order: the valid records in range that it meets
before it leaves. -/
def counted (from_ to_ : Int) (fast_seek : Bool) (jitter : Int) :
    List (Nat × WhyRequest) → List (Nat × WhyRequest)
  | [] => []
  | x :: rest =>
    if ¬ x.2.valid then counted from_ to_ fast_seek jitter rest
    else if x.2.timestamp ≥ from_ ∧ x.2.timestamp ≤ to_ then
      x :: counted from_ to_ fast_seek jitter rest
    else if fast_seek = true ∧ x.2.timestamp > to_ ∧ wrap_time (x.2.timestamp - to_) > jitter then
      []
    else counted from_ to_ fast_seek jitter rest

/-- The records of the region are out of order by at most `bound`: no record has a
timestamp that exceeds the timestamp of a later record by more than `bound`. With
`bound = 0` the timestamps are in non-decreasing order. -/
def disorder_within (data : List UInt8) (bound : Int) : Prop :=
  (RecordLocation.records data 0).Pairwise
    (fun a b => a.2.timestamp - b.2.timestamp ≤ bound)

instance (data : List UInt8) (bound : Int) : Decidable (disorder_within data bound) := by
  unfold disorder_within; infer_instance

/-- The conditions of the assertions of `MappedRecords::locate` and of
`MappedRecords::begin` at one pass through the loop body, with what the loop keeps
besides: the bounds are record frontiers, and so are the candidate and the frontier
after it, which lies past `left` and not past `right`. -/
def LocatePass.asserted (data : List UInt8) (pass : LocatePass) : Prop :=
  is_frontier data pass.left ∧ is_frontier data pass.right ∧
  pass.left ≤ pass.right ∧ pass.right ≤ data.length ∧
  pass.left < data.length ∧ pass.left < pass.right ∧
  (pass.left + pass.right) / 2 ≤ data.length ∧
  pass.left ≤ pass.middle ∧ pass.middle ≤ pass.right ∧ pass.middle < pass.right ∧
  pass.left < pass.middle + 1 ∧
  is_frontier data pass.middle ∧ is_frontier data pass.position ∧
  pass.left < pass.position ∧ pass.position ≤ pass.right

instance (data : List UInt8) (pass : LocatePass) : Decidable (pass.asserted data) := by
  unfold LocatePass.asserted; infer_instance

/-- The sum of the counts of a table. -/
def WordMap.total (m : WordMap) : Nat := (m.map Prod.snd).sum

/-- The records the scan loop classifies, in order: those it meets before the record at
which it leaves, if there is one. -/
def classified (p : YParser) (records : List (Nat × WhyRequest)) : List (Nat × WhyRequest) :=
  records.takeWhile (fun x => decide (¬ stops_scan p x.2))

/-- The file of `n` lines `1 a`. -/
def repeated_lines : Nat → List UInt8
  | 0 => []
  | n + 1 => [49, 32, 97, 10] ++ repeated_lines n

/-! ## Framing: what `get_record` and `WhyRequest::begin` do to offsets -/

theorem scan_while_ge (p : UInt8 → Bool) (data : List UInt8) :
    ∀ fuel offset, offset ≤ scan_while p data fuel offset := by
  intro fuel
  induction fuel with
  | zero => intro offset; simp [scan_while]
  | succ n ih =>
    intro offset
    unfold scan_while
    split
    · exact Nat.le_trans (Nat.le_succ offset) (ih (offset + 1))
    · exact Nat.le_refl offset

theorem scan_while_le (p : UInt8 → Bool) (data : List UInt8) :
    ∀ fuel offset, offset ≤ data.length → scan_while p data fuel offset ≤ data.length := by
  intro fuel
  induction fuel with
  | zero => intro offset h; simpa [scan_while] using h
  | succ n ih =>
    intro offset h
    unfold scan_while
    split
    · next hc => exact ih (offset + 1) hc.1
    · exact h

theorem scan_while_inside (p : UInt8 → Bool) (data : List UInt8) :
    ∀ fuel offset i, offset ≤ i → i < scan_while p data fuel offset →
      p (data.getD i 0) = true := by
  intro fuel
  induction fuel with
  | zero => intro offset i h1 h2; simp [scan_while] at h2; omega
  | succ n ih =>
    intro offset i h1 h2
    unfold scan_while at h2
    split at h2
    · next hc =>
      rcases Nat.eq_or_lt_of_le h1 with h | h
      · subst h; exact hc.2
      · exact ih (offset + 1) i h h2
    · omega

theorem scan_while_stop (p : UInt8 → Bool) (data : List UInt8) :
    ∀ fuel offset, data.length - offset ≤ fuel →
      scan_while p data fuel offset < data.length →
      p (data.getD (scan_while p data fuel offset) 0) = false := by
  intro fuel
  induction fuel with
  | zero => intro offset h1 h2; simp [scan_while] at h2; omega
  | succ n ih =>
    intro offset h1 h2
    unfold scan_while at h2 ⊢
    split
    · next hc =>
      rw [if_pos hc] at h2
      exact ih (offset + 1) (by omega) h2
    · next hc =>
      rw [if_neg hc] at h2
      simp only [not_and, Bool.not_eq_true] at hc
      exact hc h2

theorem scan_timestamp_ge (data : List UInt8) :
    ∀ fuel offset ts, offset ≤ (scan_timestamp data fuel offset ts).1 := by
  intro fuel
  induction fuel with
  | zero => intro offset ts; simp [scan_timestamp]
  | succ n ih =>
    intro offset ts
    unfold scan_timestamp
    split
    · exact Nat.le_trans (Nat.le_succ offset) (ih (offset + 1) _)
    · exact Nat.le_refl offset

theorem scan_timestamp_le (data : List UInt8) :
    ∀ fuel offset ts, offset ≤ data.length →
      (scan_timestamp data fuel offset ts).1 ≤ data.length := by
  intro fuel
  induction fuel with
  | zero => intro offset ts h; simpa [scan_timestamp] using h
  | succ n ih =>
    intro offset ts h
    unfold scan_timestamp
    split
    · next hc => exact ih (offset + 1) _ hc.1
    · exact h

theorem scan_timestamp_inside (data : List UInt8) :
    ∀ fuel offset ts i, offset ≤ i → i < (scan_timestamp data fuel offset ts).1 →
      data.getD i 0 ≠ 10 := by
  intro fuel
  induction fuel with
  | zero => intro offset ts i h1 h2; simp [scan_timestamp] at h2; omega
  | succ n ih =>
    intro offset ts i h1 h2
    unfold scan_timestamp at h2
    split at h2
    · next hc =>
      rcases Nat.eq_or_lt_of_le h1 with h | h
      · subst h
        intro h10
        rw [h10] at hc
        exact absurd hc.2.1 (by decide)
      · exact ih (offset + 1) _ i h h2
    · omega

theorem not_newline_false {c : UInt8} (h : not_newline c = false) : c = 10 := by
  simpa [not_newline] using h

theorem not_newline_true {c : UInt8} (h : not_newline c = true) : c ≠ 10 := by
  simpa [not_newline] using h

theorem is_space_ne_newline {c : UInt8} (h : is_space c = true) : c ≠ 10 := by
  intro h10
  rw [h10] at h
  exact absurd h (by decide)

/-- Where `get_record` leaves the offset: past the first line terminator at or after
`offset`, or at the end of the region when there is none. -/
theorem next_offset_spec (data : List UInt8) (offset : Nat) (h : offset ≤ data.length) :
    offset ≤ next_offset data offset ∧ next_offset data offset ≤ data.length ∧
    (offset < data.length → offset < next_offset data offset) ∧
    (∀ i, offset ≤ i → i + 1 < next_offset data offset → data.getD i 0 ≠ 10) ∧
    ((offset < next_offset data offset ∧ data.getD (next_offset data offset - 1) 0 = 10) ∨
      (next_offset data offset = data.length ∧
        ∀ i, offset ≤ i → i < data.length → data.getD i 0 ≠ 10)) := by
  have h1 := scan_timestamp_ge data (data.length - offset) offset 0
  have h1' := scan_timestamp_le data (data.length - offset) offset 0 h
  have h1i := scan_timestamp_inside data (data.length - offset) offset 0
  unfold next_offset get_record
  simp only []
  generalize (scan_timestamp data (data.length - offset) offset 0).1 = o1 at h1 h1' h1i
  have h2 := scan_while_ge is_space data (data.length - o1) o1
  have h2' := scan_while_le is_space data (data.length - o1) o1 h1'
  have h2i := scan_while_inside is_space data (data.length - o1) o1
  generalize scan_while is_space data (data.length - o1) o1 = o2 at h2 h2' h2i
  have h3 := scan_while_ge not_newline data (data.length - o2) o2
  have h3' := scan_while_le not_newline data (data.length - o2) o2 h2'
  have h3i := scan_while_inside not_newline data (data.length - o2) o2
  have h3s := scan_while_stop not_newline data (data.length - o2) o2 (Nat.le_refl _)
  generalize scan_while not_newline data (data.length - o2) o2 = o3 at h3 h3' h3i h3s
  have inside : ∀ i, offset ≤ i → i < o3 → data.getD i 0 ≠ 10 := by
    intro i hi1 hi2
    by_cases c1 : i < o1
    · exact h1i i hi1 c1
    · by_cases c2 : i < o2
      · exact is_space_ne_newline (h2i i (by omega) c2)
      · exact not_newline_true (h3i i (by omega) hi2)
  by_cases c : o3 < data.length
  · simp only [if_pos c]
    refine ⟨by omega, by omega, fun _ => by omega, ?_, ?_⟩
    · intro i hi1 hi2
      exact inside i hi1 (by omega)
    · left
      refine ⟨by omega, ?_⟩
      simpa using not_newline_false (h3s c)
  · simp only [if_neg c]
    have e : o3 = data.length := by omega
    refine ⟨by omega, by omega, fun _ => by omega, ?_, ?_⟩
    · intro i hi1 hi2
      exact inside i hi1 (by omega)
    · right
      refine ⟨e, ?_⟩
      intro i hi1 hi2
      exact inside i hi1 (by omega)

theorem begin_le (data : List UInt8) : ∀ offset, WhyRequest.begin data offset ≤ offset := by
  intro offset
  induction offset with
  | zero => simp [WhyRequest.begin]
  | succ n ih =>
    unfold WhyRequest.begin
    split
    · exact Nat.le_succ_of_le ih
    · exact Nat.le_refl _

theorem begin_starts (data : List UInt8) :
    ∀ offset, starts_record data (WhyRequest.begin data offset) := by
  intro offset
  induction offset with
  | zero => left; simp [WhyRequest.begin]
  | succ n ih =>
    unfold WhyRequest.begin
    split
    · exact ih
    · next hc =>
      right
      simpa using hc

theorem begin_inside (data : List UInt8) :
    ∀ offset i, WhyRequest.begin data offset ≤ i → i < offset → data.getD i 0 ≠ 10 := by
  intro offset
  induction offset with
  | zero => intro i _ h; omega
  | succ n ih =>
    intro i h1 h2
    unfold WhyRequest.begin at h1
    split at h1
    · next hc =>
      rcases Nat.eq_or_lt_of_le (Nat.le_of_lt_succ h2) with e | l
      · subst e; simpa using hc
      · exact ih i h1 l
    · omega

theorem begin_ge_of_starts (data : List UInt8) (f offset : Nat)
    (hf : starts_record data f) (h : f ≤ offset) : f ≤ WhyRequest.begin data offset := by
  by_contra hlt
  have hlt' : WhyRequest.begin data offset < f := Nat.lt_of_not_le hlt
  rcases hf with h0 | h10
  · omega
  · exact begin_inside data offset (f - 1) (by omega) (by omega) h10

theorem begin_of_starts (data : List UInt8) (offset : Nat) (h : starts_record data offset) :
    WhyRequest.begin data offset = offset :=
  Nat.le_antisymm (begin_le data offset) (begin_ge_of_starts data offset offset h (Nat.le_refl _))

/-! ## Iteration: the records visited from a cursor -/

theorem run_fuel_irrelevant (data : List UInt8) :
    ∀ fuel1 fuel2 cur, cur ≤ data.length → data.length - cur ≤ fuel1 →
      data.length - cur ≤ fuel2 →
      RecordIterator.run data fuel1 cur = RecordIterator.run data fuel2 cur := by
  intro fuel1
  induction fuel1 with
  | zero =>
    intro fuel2 cur hc h1 _
    have e : cur = data.length := by omega
    cases fuel2 with
    | zero => rfl
    | succ k => simp [RecordIterator.run, e]
  | succ n ih =>
    intro fuel2 cur hc h1 h2
    cases fuel2 with
    | zero =>
      have e : cur = data.length := by omega
      simp [RecordIterator.run, e]
    | succ k =>
      unfold RecordIterator.run
      by_cases e : cur = data.length
      · simp [e]
      · have hs := next_offset_spec data cur hc
        have hlt : cur < data.length := Nat.lt_of_le_of_ne hc e
        have hgt := hs.2.2.1 hlt
        simp only [if_neg e]
        rw [ih k (next_offset data cur) hs.2.1 (by omega) (by omega)]

theorem records_end (data : List UInt8) : RecordLocation.records data data.length = [] := by
  simp [RecordLocation.records, RecordIterator.run]

theorem records_unfold (data : List UInt8) (cur : Nat) (h : cur < data.length) :
    RecordLocation.records data cur =
      (cur, record_at data cur) :: RecordLocation.records data (next_offset data cur) := by
  have hs := next_offset_spec data cur (Nat.le_of_lt h)
  have hgt := hs.2.2.1 h
  unfold RecordLocation.records
  obtain ⟨k, hk⟩ : ∃ k, data.length - cur = k + 1 := ⟨data.length - cur - 1, by omega⟩
  rw [hk]
  show (if cur = data.length then [] else _) = _
  rw [if_neg (Nat.ne_of_lt h)]
  rw [run_fuel_irrelevant data k (data.length - next_offset data cur) (next_offset data cur)
    hs.2.1 (by omega) (Nat.le_refl _)]

/-- The next record starts no later than any frontier past the current offset. -/
theorem next_offset_le_frontier (data : List UInt8) (cur p : Nat) (hlt : cur < p)
    (hp : p ≤ data.length) (hpf : is_frontier data p) : next_offset data cur ≤ p := by
  have hs := next_offset_spec data cur (by omega)
  rcases hpf with h0 | hsz | h10
  · omega
  · rw [hsz]; exact hs.2.1
  · by_contra hc
    exact hs.2.2.2.1 (p - 1) (by omega) (by omega) h10

theorem records_mem (data : List UInt8) :
    ∀ n cur, data.length - cur ≤ n → cur ≤ data.length →
      ∀ x ∈ RecordLocation.records data cur,
        cur ≤ x.1 ∧ x.1 < data.length ∧ x.2 = record_at data x.1 := by
  intro n
  induction n with
  | zero =>
    intro cur h1 h2 x hx
    have e : cur = data.length := by omega
    rw [e, records_end] at hx
    cases hx
  | succ n ih =>
    intro cur h1 h2 x hx
    by_cases e : cur = data.length
    · rw [e, records_end] at hx
      cases hx
    · have hlt : cur < data.length := Nat.lt_of_le_of_ne h2 e
      have hs := next_offset_spec data cur h2
      have hgt := hs.2.2.1 hlt
      rw [records_unfold data cur hlt] at hx
      rcases List.mem_cons.1 hx with hx | hx
      · subst hx
        exact ⟨Nat.le_refl _, hlt, rfl⟩
      · have := ih (next_offset data cur) (by omega) hs.2.1 x hx
        exact ⟨by omega, this.2.1, this.2.2⟩

/-- The records visited from `cur` are those before the frontier `p`, then those visited
from `p`. -/
theorem records_append (data : List UInt8) (p : Nat) (hp : p ≤ data.length)
    (hpf : is_frontier data p) :
    ∀ n cur, p - cur ≤ n → cur ≤ p →
      ∃ pre, RecordLocation.records data cur = pre ++ RecordLocation.records data p ∧
        ∀ x ∈ pre, cur ≤ x.1 ∧ x.1 < p ∧ x.2 = record_at data x.1 := by
  intro n
  induction n with
  | zero =>
    intro cur h1 h2
    have e : cur = p := by omega
    exact ⟨[], by simp [e], by simp⟩
  | succ n ih =>
    intro cur h1 h2
    by_cases e : cur = p
    · exact ⟨[], by simp [e], by simp⟩
    · have hlt : cur < p := Nat.lt_of_le_of_ne h2 e
      have hs := next_offset_spec data cur (by omega)
      have hgt := hs.2.2.1 (by omega)
      have hle := next_offset_le_frontier data cur p hlt hp hpf
      obtain ⟨pre, hpre, hmem⟩ := ih (next_offset data cur) (by omega) hle
      refine ⟨(cur, record_at data cur) :: pre, ?_, ?_⟩
      · rw [records_unfold data cur (by omega), hpre]
        rfl
      · intro x hx
        rcases List.mem_cons.1 hx with hx | hx
        · subst hx
          exact ⟨Nat.le_refl _, hlt, rfl⟩
        · have := hmem x hx
          exact ⟨by omega, this.2.1, this.2.2⟩

theorem starts_is_frontier (data : List UInt8) (p : Nat) (h : starts_record data p) :
    is_frontier data p := by
  rcases h with h | h
  · exact Or.inl h
  · exact Or.inr (Or.inr h)

/-- A relation that holds between each record and every later one in the iteration from
offset 0 holds between the records at any two record starts, taken in order. -/
theorem pairwise_at_starts (data : List UInt8) (R : WhyRequest → WhyRequest → Prop)
    (hs : (RecordLocation.records data 0).Pairwise (fun a b => R a.2 b.2))
    (o1 o2 : Nat) (h1 : starts_record data o1) (h2 : starts_record data o2)
    (h12 : o1 < o2) (hlt : o2 < data.length) :
    R (record_at data o1) (record_at data o2) := by
  obtain ⟨pre, hpre, _⟩ := records_append data o1 (by omega) (starts_is_frontier data o1 h1)
    o1 0 (by omega) (Nat.zero_le _)
  have hle := next_offset_le_frontier data o1 o2 h12 (by omega) (starts_is_frontier data o2 h2)
  obtain ⟨mid, hmid, _⟩ := records_append data o2 (by omega) (starts_is_frontier data o2 h2)
    o2 (next_offset data o1) (by omega) hle
  rw [hpre, records_unfold data o1 (by omega), hmid, records_unfold data o2 hlt] at hs
  have hs2 := (List.pairwise_append.1 hs).2.1
  have hs3 := (List.pairwise_cons.1 hs2).1
  exact hs3 (o2, record_at data o2) (by simp)

/-! ## The binary search -/

theorem next_offset_frontier (data : List UInt8) (m : Nat) (h : m ≤ data.length) :
    is_frontier data (next_offset data m) := by
  rcases (next_offset_spec data m h).2.2.2.2 with h1 | h1
  · exact Or.inr (Or.inr h1.2)
  · exact Or.inr (Or.inl h1.1)

/-- No record starts strictly inside the record decoded at `m`. -/
theorem starts_le_of_lt_next (data : List UInt8) (m o : Nat) (hm : m ≤ data.length)
    (ho : starts_record data o) (h : o < next_offset data m) : o ≤ m := by
  by_contra hc
  rcases ho with h0 | h10
  · omega
  · exact (next_offset_spec data m hm).2.2.2.1 (o - 1) (by omega) (by omega) h10

/-- The loop of `locate` returns, whatever the comparison function: a loop invariant
`Inv` that the two updates preserve gives the postcondition `Post` at the offset
returned, and that offset is a frontier between the bounds. -/
theorem locate_loop_inv (data : List UInt8) (compare : WhyRequest → Int)
    (Inv : Nat → Nat → Prop) (Post : Nat → Prop)
    (hexit : ∀ l, l ≤ data.length → Inv l l → Post l)
    (hgt : ∀ l r m, l ≤ m → m < r → r ≤ data.length → starts_record data m → Inv l r →
      compare (record_at data m) > 0 → Inv l m)
    (hlt : ∀ l r m, l ≤ m → m < r → r ≤ data.length → starts_record data m → Inv l r →
      compare (record_at data m) < 0 → Inv (next_offset data m) r)
    (heq : ∀ l r m, l ≤ m → m < r → r ≤ data.length → starts_record data m → Inv l r →
      compare (record_at data m) = 0 → Post m) :
    ∀ fuel left right, right - left < fuel → left ≤ right → right ≤ data.length →
      is_frontier data left → is_frontier data right → Inv left right →
      ∃ p, MappedRecords.locate_loop data compare fuel left right = .ok p ∧
        left ≤ p ∧ p ≤ right ∧ is_frontier data p ∧ Post p := by
  intro fuel
  induction fuel with
  | zero => intro left right h; omega
  | succ n ih =>
    intro left right hfuel hlr hr hfl hfr hinv
    unfold MappedRecords.locate_loop
    by_cases e : left = right
    · subst e
      exact ⟨left, by simp, Nat.le_refl _, Nat.le_refl _, hfl, hexit left hr hinv⟩
    · have hlt' : left < right := Nat.lt_of_le_of_ne hlr e
      have hls : left < data.length := by omega
      have hmid1 : left ≤ (left + right) / 2 := by omega
      have hmid2 : (left + right) / 2 < right := by omega
      have hstl : starts_record data left := by
        rcases hfl with h | h | h
        · exact Or.inl h
        · omega
        · exact Or.inr h
      have hbeg : MappedRecords.begin data ((left + right) / 2) =
          .ok (WhyRequest.begin data ((left + right) / 2)) := by
        unfold MappedRecords.begin
        rw [if_pos (by omega)]
      have hm1 := begin_ge_of_starts data left ((left + right) / 2) hstl hmid1
      have hm2 := begin_le data ((left + right) / 2)
      have hm3 := begin_starts data ((left + right) / 2)
      generalize WhyRequest.begin data ((left + right) / 2) = middle at hbeg hm1 hm2 hm3
      have hmr : middle < right := by omega
      have hsp := next_offset_spec data middle (by omega)
      have hpos1 := hsp.2.2.1 (by omega)
      have hpos2 := next_offset_le_frontier data middle right hmr hr hfr
      have hposf := next_offset_frontier data middle (by omega)
      rw [if_neg e, if_neg (by omega), if_neg (by omega), if_neg (by omega), hbeg]
      simp only []
      rw [if_neg (by omega)]
      by_cases c1 : compare (record_at data middle) > 0
      · rw [if_pos c1, if_neg (by omega)]
        obtain ⟨p, hp, h1, h2, h3, h4⟩ := ih left middle (by omega) hm1 (by omega) hfl
          (starts_is_frontier data middle hm3) (hgt left right middle hm1 hmr hr hm3 hinv c1)
        exact ⟨p, hp, h1, by omega, h3, h4⟩
      · rw [if_neg c1]
        by_cases c2 : compare (record_at data middle) < 0
        · rw [if_pos c2, if_neg (by omega)]
          obtain ⟨p, hp, h1, h2, h3, h4⟩ := ih (next_offset data middle) right (by omega) hpos2
            hr hposf hfr (hlt left right middle hm1 hmr hr hm3 hinv c2)
          exact ⟨p, hp, by omega, h2, h3, h4⟩
        · rw [if_neg c2]
          have c3 : compare (record_at data middle) = 0 := by omega
          exact ⟨middle, rfl, hm1, by omega, starts_is_frontier data middle hm3,
            heq left right middle hm1 hmr hr hm3 hinv c3⟩

theorem is_frontier_zero (data : List UInt8) : is_frontier data 0 := Or.inl rfl

theorem is_frontier_length (data : List UInt8) : is_frontier data data.length :=
  Or.inr (Or.inl rfl)

theorem records_starts (data : List UInt8) :
    ∀ n cur, data.length - cur ≤ n → cur ≤ data.length → starts_record data cur →
      ∀ x ∈ RecordLocation.records data cur, starts_record data x.1 := by
  intro n
  induction n with
  | zero =>
    intro cur h1 h2 _ x hx
    have e : cur = data.length := by omega
    rw [e, records_end] at hx
    cases hx
  | succ n ih =>
    intro cur h1 h2 hst x hx
    by_cases e : cur = data.length
    · rw [e, records_end] at hx
      cases hx
    · have hlt : cur < data.length := Nat.lt_of_le_of_ne h2 e
      have hs := next_offset_spec data cur h2
      have hgt := hs.2.2.1 hlt
      rw [records_unfold data cur hlt] at hx
      rcases List.mem_cons.1 hx with hx | hx
      · subst hx
        exact hst
      · rcases hs.2.2.2.2 with h10 | hend
        · exact ih (next_offset data cur) (by omega) hs.2.1 (Or.inr h10.2) x hx
        · rw [hend.1, records_end] at hx
          cases hx

/-- On a mapped region `read_tune` passes both its assertions. -/
theorem read_tune_mapped (data : List UInt8) (offset : Nat) (random : Bool)
    (h : offset ≤ data.length) (hne : data ≠ []) :
    ReadOnlyMemoryMap.read_tune data offset random = .ok () := by
  have hpos : data.length ≠ 0 := fun e => hne (List.length_eq_zero.1 e)
  unfold ReadOnlyMemoryMap.read_tune
  rw [if_neg (by omega), if_neg hpos]

/-- On a mapped region `locate(compare)` is the search loop over `[0, size)`. -/
theorem locate_of_mapped (data : List UInt8) (compare : WhyRequest → Int) (hne : data ≠ []) :
    MappedRecords.locate data compare =
      MappedRecords.locate_loop data compare (data.length + 1) 0 data.length := by
  unfold MappedRecords.locate
  rw [read_tune_mapped data 0 true (Nat.zero_le _) hne]

/-- On the empty region `locate(compare)` fails the assertion of `read_tune`. -/
theorem locate_of_empty (compare : WhyRequest → Int) :
    MappedRecords.locate [] compare = .error Fault.assertion := rfl

/-- The search loop over the whole region returns a frontier, whatever the region and
the comparison function. -/
theorem locate_loop_frontier (data : List UInt8) (compare : WhyRequest → Int) :
    ∃ p, MappedRecords.locate_loop data compare (data.length + 1) 0 data.length = .ok p ∧
      p ≤ data.length ∧ is_frontier data p := by
  obtain ⟨p, hp, _, h2, h3, _⟩ := locate_loop_inv data compare (fun _ _ => True)
    (fun _ => True) (fun _ _ _ => trivial) (fun _ _ _ _ _ _ _ _ _ => trivial)
    (fun _ _ _ _ _ _ _ _ _ => trivial) (fun _ _ _ _ _ _ _ _ _ => trivial)
    (data.length + 1) 0 data.length (by omega) (Nat.zero_le _) (Nat.le_refl _)
    (is_frontier_zero data) (is_frontier_length data) trivial
  exact ⟨p, hp, h2, h3⟩

/-- On every non-empty region and for every comparison function, `locate` returns an
offset `p <= size` that is a record frontier. -/
theorem locate_frontier (data : List UInt8) (compare : WhyRequest → Int) (hne : data ≠ []) :
    ∃ p, MappedRecords.locate data compare = .ok p ∧ p ≤ data.length ∧ is_frontier data p := by
  rw [locate_of_mapped data compare hne]
  exact locate_loop_frontier data compare

/-- C5 on the empty region, for every comparison function: `map` has left the mapping of
the file of 0 bytes failed, `read_tune(0, true)` fails its assertion `ret == 0`, and
`locate(compare)` returns no offset. -/
theorem locate_fails_on_empty_region (compare : WhyRequest → Int) :
    ReadOnlyMemoryMap.read_tune [] 0 true = .error Fault.assertion ∧
    MappedRecords.locate [] compare = .error Fault.assertion ∧
    ¬ ∃ p, MappedRecords.locate [] compare = .ok p :=
  ⟨rfl, rfl, fun ⟨_, h⟩ => by rw [locate_of_empty] at h; cases h⟩

theorem reference_compare_pos (t : Int) (r : WhyRequest) :
    reference_compare (WhyRequest.of_time t) r > 0 ↔ t < r.timestamp := by
  unfold reference_compare WhyRequest.gt WhyRequest.lt WhyRequest.of_time
  simp only [gt_iff_lt, decide_eq_true_eq]
  split
  · simp [*]
  · split <;> simp [*]

theorem reference_compare_neg (t : Int) (r : WhyRequest) :
    reference_compare (WhyRequest.of_time t) r < 0 ↔ r.timestamp < t := by
  unfold reference_compare WhyRequest.gt WhyRequest.lt WhyRequest.of_time
  simp only [gt_iff_lt, decide_eq_true_eq]
  split
  · next h => simp; omega
  · split <;> simp [*]

/-- The search loop for a reference timestamp `t` over a region out of order by at most
`bound >= -1`: every record that starts before the offset returned has a timestamp of at
most `t + bound`, and, when `bound >= 0`, every record that starts at or after it has a
timestamp of at least `t - bound`. -/
theorem locate_loop_disorder (data : List UInt8) (t bound : Int) (hb : -1 ≤ bound)
    (hd : disorder_within data bound) :
    ∃ p, MappedRecords.locate_loop data (reference_compare (WhyRequest.of_time t))
        (data.length + 1) 0 data.length = .ok p ∧
      p ≤ data.length ∧ is_frontier data p ∧
      ∀ o, starts_record data o → o < data.length →
        (o < p → (record_at data o).timestamp ≤ t + bound) ∧
        (0 ≤ bound → p ≤ o → t - bound ≤ (record_at data o).timestamp) := by
  have near : ∀ o1 o2, starts_record data o1 → starts_record data o2 → o1 < o2 →
      o2 < data.length →
      (record_at data o1).timestamp - (record_at data o2).timestamp ≤ bound := by
    intro o1 o2 h1 h2 h12 h2s
    exact pairwise_at_starts data (fun a b => a.timestamp - b.timestamp ≤ bound) hd o1 o2 h1 h2
      h12 h2s
  obtain ⟨p, hp, _, h2, h3, h4⟩ := locate_loop_inv data
    (reference_compare (WhyRequest.of_time t))
    (fun l r => ∀ o, starts_record data o → o < data.length →
      (o < l → (record_at data o).timestamp ≤ t + bound) ∧
      (0 ≤ bound → r ≤ o → t - bound ≤ (record_at data o).timestamp))
    (fun p => ∀ o, starts_record data o → o < data.length →
      (o < p → (record_at data o).timestamp ≤ t + bound) ∧
      (0 ≤ bound → p ≤ o → t - bound ≤ (record_at data o).timestamp))
    (fun l _ hinv => hinv)
    (by
      intro l r m _ hmr hr hm hinv hc o ho hos
      rw [reference_compare_pos] at hc
      refine ⟨(hinv o ho hos).1, fun h0 h => ?_⟩
      rcases Nat.eq_or_lt_of_le h with e | hlt
      · rw [← e]; omega
      · have := near m o hm ho hlt hos
        omega)
    (by
      intro l r m _ hmr hr hm hinv hc o ho hos
      rw [reference_compare_neg] at hc
      refine ⟨fun h => ?_, (hinv o ho hos).2⟩
      have hom := starts_le_of_lt_next data m o (by omega) ho h
      rcases Nat.eq_or_lt_of_le hom with e | hlt
      · rw [e]; omega
      · have := near o m ho hm hlt (by omega)
        omega)
    (by
      intro l r m _ hmr hr hm hinv hc o ho hos
      have h1 : ¬ t < (record_at data m).timestamp := by
        rw [← reference_compare_pos]; omega
      have h2 : ¬ (record_at data m).timestamp < t := by
        rw [← reference_compare_neg]; omega
      have e : (record_at data m).timestamp = t := by omega
      refine ⟨fun h => ?_, fun h0 h => ?_⟩
      · have := near o m ho hm h (by omega)
        omega
      · rcases Nat.eq_or_lt_of_le h with e' | hlt
        · rw [← e']; omega
        · have := near m o hm ho hlt hos
          omega)
    (data.length + 1) 0 data.length (by omega) (Nat.zero_le _) (Nat.le_refl _)
    (is_frontier_zero data) (is_frontier_length data)
    (by
      intro o _ hos
      exact ⟨fun h => by omega, fun _ h => by omega⟩)
  exact ⟨p, hp, h2, h3, h4⟩

/-- A region whose records have non-decreasing timestamps is out of order by at most 0. -/
theorem disorder_within_of_sorted (data : List UInt8)
    (hs : (RecordLocation.records data 0).Pairwise
      (fun a b => a.2.timestamp ≤ b.2.timestamp)) : disorder_within data 0 := by
  unfold disorder_within
  exact List.Pairwise.imp (fun h => by omega) hs

theorem disorder_within_mono (data : List UInt8) (b1 b2 : Int) (h : b1 ≤ b2)
    (hd : disorder_within data b1) : disorder_within data b2 := by
  unfold disorder_within at hd ⊢
  exact List.Pairwise.imp (fun h' => by omega) hd

/-- The search for a reference timestamp in a non-empty buffer sorted by timestamp: the
offset returned separates the record starts with timestamps at most `t` from those with
timestamps at least `t`. -/
theorem locate_reference_sorted (data : List UInt8) (t : Int) (hne : data ≠ [])
    (hs : (RecordLocation.records data 0).Pairwise
      (fun a b => a.2.timestamp ≤ b.2.timestamp)) :
    ∃ p, MappedRecords.locate_reference data (WhyRequest.of_time t) = .ok p ∧
      p ≤ data.length ∧ is_frontier data p ∧
      ∀ o, starts_record data o → o < data.length →
        (o < p → (record_at data o).timestamp ≤ t) ∧
        (p ≤ o → t ≤ (record_at data o).timestamp) := by
  obtain ⟨p, hp, h1, h2, h3⟩ := locate_loop_disorder data t 0 (by omega)
    (disorder_within_of_sorted data hs)
  refine ⟨p, ?_, h1, h2, ?_⟩
  · unfold MappedRecords.locate_reference
    rw [locate_of_mapped data _ hne]
    exact hp
  · intro o ho hos
    obtain ⟨a, b⟩ := h3 o ho hos
    exact ⟨fun h => by have := a h; omega, fun h => by have := b (Int.le_refl _) h; omega⟩

/-- On every non-empty buffer whose records have non-decreasing decoded timestamps in
file order and for every reference timestamp `t`, `locate(WhyRequest(t))` returns an
offset `p` such that every record starting before `p` has timestamp `<= t` and every
record starting at or after `p` has timestamp `>= t`. -/
theorem locate_reference_partitions (data : List UInt8) (t : Int) (hne : data ≠ [])
    (hs : (RecordLocation.records data 0).Pairwise
      (fun a b => a.2.timestamp ≤ b.2.timestamp)) :
    ∃ p, MappedRecords.locate_reference data (WhyRequest.of_time t) = .ok p ∧
      ∀ x ∈ RecordLocation.records data 0,
        (x.1 < p → x.2.timestamp ≤ t) ∧ (p ≤ x.1 → t ≤ x.2.timestamp) := by
  obtain ⟨p, hp, _, _, h⟩ := locate_reference_sorted data t hne hs
  refine ⟨p, hp, ?_⟩
  intro x hx
  have hm := records_mem data data.length 0 (by omega) (Nat.zero_le _) x hx
  have hst := records_starts data data.length 0 (by omega) (Nat.zero_le _) (Or.inl rfl) x hx
  rw [hm.2.2]
  exact h x.1 hst hm.2.1

/-- C6 on the empty region, whose records are vacuously in non-decreasing order, for the
reference timestamp 100: `locate(WhyRequest(100))` fails the assertion of `read_tune` and
returns no offset. -/
theorem locate_reference_fails_on_empty_region :
    (RecordLocation.records [] 0).Pairwise (fun a b => a.2.timestamp ≤ b.2.timestamp) ∧
    MappedRecords.locate_reference [] (WhyRequest.of_time 100) = .error Fault.assertion := by
  decide

/-! ## The scan loop of `parse_records` -/

theorem wrap_time_le (x : Int) (h : -9223372036854775808 ≤ x) : wrap_time x ≤ x := by
  unfold wrap_time
  omega

theorem tally_nil (data : List UInt8) (m : WordMap) : tally data m [] = m := rfl

theorem tally_cons (data : List UInt8) (m : WordMap) (x : Nat × WhyRequest)
    (l : List (Nat × WhyRequest)) :
    tally data m (x :: l) = tally data (m.increment (x.2.get_raw_query data)) l := rfl

/-- The table the scan loop builds is the tally of the valid records in range, provided
no such record follows a record at which the loop leaves. -/
theorem scan_wordMap (p : YParser) :
    ∀ (l : List (Nat × WhyRequest)) (s : ScanState),
      l.Pairwise (fun a b => stops_scan p a.2 → in_range p.from_ p.to_ b.2 = false) →
      (p.scan l s).wordMap =
        tally p.data s.wordMap (l.filter (fun x => in_range p.from_ p.to_ x.2)) := by
  intro l
  induction l with
  | nil => intro s _; rfl
  | cons x rest ih =>
    intro s hp
    obtain ⟨hhead, htail⟩ := List.pairwise_cons.1 hp
    obtain ⟨o, record⟩ := x
    unfold YParser.scan
    simp only []
    by_cases hv : record.valid = true
    · rw [if_neg (by simp [hv])]
      by_cases hr : record.timestamp ≥ p.from_ ∧ record.timestamp ≤ p.to_
      · rw [if_pos hr]
        have hin : in_range p.from_ p.to_ record = true := by
          simp [in_range, hv, hr.1, hr.2]
        rw [List.filter_cons_of_pos (by simpa using hin), tally_cons]
        exact ih _ htail
      · rw [if_neg hr]
        have hin : in_range p.from_ p.to_ record = false := by
          simp only [in_range, hv, Bool.true_and, Bool.and_eq_false_iff, decide_eq_false_iff_not]
          by_cases h1 : record.timestamp ≥ p.from_
          · right; exact fun h2 => hr ⟨h1, h2⟩
          · left; exact h1
        rw [List.filter_cons_of_neg (by simp [hin])]
        by_cases hb : p.fast_seek = true ∧ record.timestamp > p.to_ ∧
            wrap_time (record.timestamp - p.to_) > p.jitter
        · rw [if_pos hb]
          have hall : ∀ y ∈ rest, in_range p.from_ p.to_ y.2 = false :=
            fun y hy => hhead y hy ⟨hb.1, hv, hb.2.1, hb.2.2⟩
          have hnil : rest.filter (fun x => in_range p.from_ p.to_ x.2) = [] := by
            rw [List.filter_eq_nil_iff]
            intro y hy
            simp [hall y hy]
          rw [hnil, tally_nil]
        · rw [if_neg hb]
          exact ih _ htail
    · rw [if_pos (by simp [hv])]
      have hin : in_range p.from_ p.to_ record = false := by
        simp [in_range, hv]
      rw [List.filter_cons_of_neg (by simp [hin])]
      exact ih _ htail

/-- Without fast seek the scan loop never leaves early. -/
theorem scan_wordMap_slow (p : YParser) (h : p.fast_seek = false)
    (l : List (Nat × WhyRequest)) (s : ScanState) :
    (p.scan l s).wordMap =
      tally p.data s.wordMap (l.filter (fun x => in_range p.from_ p.to_ x.2)) := by
  apply scan_wordMap
  apply List.pairwise_of_forall
  intro a b hst
  rw [stops_scan, h] at hst
  exact absurd hst.1 (by simp)

/-- The state in which `parse_records` enters its scan loop. -/
theorem parse_records_of_position (p : YParser) (q : Nat) (h : p.position = .ok q) :
    p.parse_records = .ok (p.scan (RecordLocation.records p.data q)
      { wordMap := p.wordMap, read := 0, skipped := 0, invalid := 0,
        max_stamp := 0, max_jitter := 0 }) := by
  unfold YParser.parse_records
  rw [h]

theorem position_slow (p : YParser) (h : ¬ (p.fast_seek = true ∧ p.from_ > p.jitter)) :
    p.position = .ok 0 := by
  unfold YParser.position
  rw [if_neg h]

/-- The seek of `parse_records` returns, at a frontier of the region, when the region is
not empty or no search is done. -/
theorem position_ok (p : YParser)
    (h : p.data ≠ [] ∨ ¬ (p.fast_seek = true ∧ p.from_ > p.jitter)) :
    ∃ q, p.position = .ok q ∧ q ≤ p.data.length ∧ is_frontier p.data q := by
  by_cases hfind : p.fast_seek = true ∧ p.from_ > p.jitter
  · unfold YParser.position
    rw [if_pos hfind]
    exact locate_frontier p.data _ (h.resolve_right (fun hn => hn hfind))
  · exact ⟨0, position_slow p hfind, Nat.zero_le _, is_frontier_zero p.data⟩

/-- The seek of `parse_records` on the empty region, when a search is done: `locate` fails
the assertion of `read_tune`, and so does `parse_records`. -/
theorem position_of_empty (p : YParser) (hd : p.data = [])
    (h : p.fast_seek = true ∧ p.from_ > p.jitter) :
    p.position = .error Fault.assertion ∧ p.parse_records = .error Fault.assertion := by
  have e : p.position = .error Fault.assertion := by
    unfold YParser.position
    rw [if_pos h, hd]
    rfl
  refine ⟨e, ?_⟩
  unfold YParser.parse_records
  rw [e]

/-- The table `parse_records` builds without fast seek: the tally of the valid records
in range, over the whole region. -/
theorem parse_records_slow (p : YParser) (h : p.fast_seek = false) :
    ∃ t, p.parse_records = .ok t ∧
      t.wordMap = tally p.data p.wordMap
        ((RecordLocation.records p.data 0).filter (fun x => in_range p.from_ p.to_ x.2)) := by
  refine ⟨_, parse_records_of_position p 0 (position_slow p (by simp [h])), ?_⟩
  exact scan_wordMap_slow p h _ _

/-- C9: for every buffer in which no valid record's timestamp is lower than an earlier
valid record's timestamp by more than the jitter, and every `from <= jitter` (the scan
starts at offset 0), `parse_records` with fast seek enabled builds the same frequency
table as with fast seek disabled, the tally of all valid records in `[from, to]`: the
early stop drops none of them. -/
theorem early_stop_same_table (p : YParser)
    (hd : (RecordLocation.records p.data 0).Pairwise
      (fun a b => a.2.valid = true → b.2.valid = true →
        a.2.timestamp - b.2.timestamp ≤ p.jitter))
    (hf : p.from_ ≤ p.jitter) :
    ∃ s t, YParser.parse_records { p with fast_seek := true } = .ok s ∧
      YParser.parse_records { p with fast_seek := false } = .ok t ∧
      s.wordMap = t.wordMap ∧
      s.wordMap = tally p.data p.wordMap
        ((RecordLocation.records p.data 0).filter (fun x => in_range p.from_ p.to_ x.2)) := by
  obtain ⟨t, ht, htw⟩ := parse_records_slow { p with fast_seek := false } rfl
  have hpos : YParser.position { p with fast_seek := true } = .ok 0 := by
    apply position_slow
    simp only [gt_iff_lt, true_and, not_lt]
    exact hf
  have hscan := scan_wordMap { p with fast_seek := true } (RecordLocation.records p.data 0)
    { wordMap := p.wordMap, read := 0, skipped := 0, invalid := 0,
      max_stamp := 0, max_jitter := 0 }
    (by
      refine List.Pairwise.imp ?_ hd
      intro a b hab hst
      obtain ⟨_, hva, hgt, hw⟩ := hst
      simp only at hgt hw
      by_contra hin
      have hin' : in_range p.from_ p.to_ b.2 = true := by simpa using hin
      simp only [in_range, Bool.and_eq_true, decide_eq_true_eq] at hin'
      have h1 := hab hva hin'.1.1
      have h2 := wrap_time_le (a.2.timestamp - p.to_) (by omega)
      omega)
  refine ⟨_, t, parse_records_of_position _ 0 hpos, ht, ?_, ?_⟩
  · rw [htw]; exact hscan
  · exact hscan

theorem early_stop_same_table_witness :
    ∃ s t, YParser.parse_records
        { YParser.configure [49, 32, 97, 10, 57, 32, 98, 10] 0 5 false 2 with fast_seek := true }
        = .ok s ∧
      YParser.parse_records
        { YParser.configure [49, 32, 97, 10, 57, 32, 98, 10] 0 5 false 2 with fast_seek := false }
        = .ok t ∧
      s.wordMap = t.wordMap ∧
      s.wordMap = tally [49, 32, 97, 10, 57, 32, 98, 10] []
        ((RecordLocation.records [49, 32, 97, 10, 57, 32, 98, 10] 0).filter
          (fun x => in_range 0 5 x.2)) :=
  early_stop_same_table (YParser.configure [49, 32, 97, 10, 57, 32, 98, 10] 0 5 false 2)
    (by decide) (by decide)

/-- The early stop of the scan loop leaves no record in range behind when no record has
a timestamp that exceeds the timestamp of a later record by more than the jitter. -/
theorem early_stop_keeps (p : YParser) (l : List (Nat × WhyRequest))
    (hd : l.Pairwise (fun a b => a.2.timestamp - b.2.timestamp ≤ p.jitter)) :
    l.Pairwise (fun a b => stops_scan p a.2 → in_range p.from_ p.to_ b.2 = false) := by
  refine List.Pairwise.imp ?_ hd
  intro a b hab hst
  obtain ⟨_, _, hgt, hw⟩ := hst
  by_contra hin
  have hin' : in_range p.from_ p.to_ b.2 = true := by simpa using hin
  simp only [in_range, Bool.and_eq_true, decide_eq_true_eq] at hin'
  have h2 := wrap_time_le (a.2.timestamp - p.to_) (by omega)
  omega

/-- The seek of `parse_records` with fast seek, on a non-empty region out of order by
less than the jitter, `jitter >= 0`: it returns a frontier, and every record that starts
before it has a timestamp below `from`. -/
theorem seek_skips_below_from (p : YParser) (hj : 0 ≤ p.jitter) (hne : p.data ≠ [])
    (hd : disorder_within p.data (p.jitter - 1)) :
    ∃ q pre, YParser.position { p with fast_seek := true } = .ok q ∧
      q ≤ p.data.length ∧ is_frontier p.data q ∧
      RecordLocation.records p.data 0 = pre ++ RecordLocation.records p.data q ∧
      ∀ x ∈ pre, x.2.timestamp < p.from_ := by
  by_cases hfind : p.from_ > p.jitter
  · obtain ⟨q, hq, hql, hqf, hpart⟩ :=
      locate_loop_disorder p.data (wrap_time (p.from_ - p.jitter)) (p.jitter - 1) (by omega) hd
    obtain ⟨pre, hpre, hmem⟩ := records_append p.data q hql hqf q 0 (by omega) (Nat.zero_le _)
    refine ⟨q, pre, ?_, hql, hqf, hpre, ?_⟩
    · unfold YParser.position
      simp only
      rw [if_pos ⟨trivial, hfind⟩]
      unfold MappedRecords.locate_reference
      rw [locate_of_mapped p.data _ hne]
      exact hq
    · intro x hx
      have hxm : x ∈ RecordLocation.records p.data 0 := by
        rw [hpre]; exact List.mem_append_left _ hx
      have hst := records_starts p.data p.data.length 0 (by omega) (Nat.zero_le _)
        (Or.inl rfl) x hxm
      have hx1 := hmem x hx
      have hts := (hpart x.1 hst (by omega)).1 hx1.2.1
      rw [← hx1.2.2] at hts
      have hw := wrap_time_le (p.from_ - p.jitter) (by omega)
      omega
  · refine ⟨0, [], ?_, Nat.zero_le _, is_frontier_zero _, rfl, by simp⟩
    apply position_slow
    simp only [gt_iff_lt, true_and]
    exact hfind

/-- The table `parse_records` builds with fast seek is the tally of all valid records in
range, in two cases: `from <= jitter` (no seek) on a region out of order by at most the
jitter; or `jitter >= 0` on a non-empty region out of order by less than the jitter.
The seek skips only records below `from`, and the scan leaves only when every later
record is past `to`. -/
theorem fast_seek_table (p : YParser)
    (h : (p.from_ ≤ p.jitter ∧ disorder_within p.data p.jitter) ∨
      (0 ≤ p.jitter ∧ p.data ≠ [] ∧ disorder_within p.data (p.jitter - 1))) :
    ∃ s, YParser.parse_records { p with fast_seek := true } = .ok s ∧
      s.wordMap = tally p.data p.wordMap
        ((RecordLocation.records p.data 0).filter (fun x => in_range p.from_ p.to_ x.2)) := by
  have hdj : disorder_within p.data p.jitter := by
    rcases h with h | h
    · exact h.2
    · exact disorder_within_mono p.data (p.jitter - 1) p.jitter (by omega) h.2.2
  have key : ∃ q pre, YParser.position { p with fast_seek := true } = .ok q ∧
      RecordLocation.records p.data 0 = pre ++ RecordLocation.records p.data q ∧
      ∀ x ∈ pre, in_range p.from_ p.to_ x.2 = false := by
    rcases h with h | h
    · refine ⟨0, [], ?_, rfl, by simp⟩
      apply position_slow
      simp only [gt_iff_lt, true_and, not_lt]
      exact h.1
    · obtain ⟨q, pre, hq, _, _, hpre, hlow⟩ := seek_skips_below_from p h.1 h.2.1 h.2.2
      refine ⟨q, pre, hq, hpre, ?_⟩
      intro x hx
      have := hlow x hx
      simp only [in_range, Bool.and_eq_false_iff, decide_eq_false_iff_not]
      left; right
      omega
  obtain ⟨q, pre, hq, hpre, hout⟩ := key
  have hfilter : (RecordLocation.records p.data 0).filter (fun x => in_range p.from_ p.to_ x.2) =
      (RecordLocation.records p.data q).filter (fun x => in_range p.from_ p.to_ x.2) := by
    rw [hpre, List.filter_append]
    have : pre.filter (fun x => in_range p.from_ p.to_ x.2) = [] := by
      rw [List.filter_eq_nil_iff]
      intro y hy
      simp [hout y hy]
    rw [this, List.nil_append]
  have hsuffix : (RecordLocation.records p.data q).Pairwise
      (fun a b => a.2.timestamp - b.2.timestamp ≤ p.jitter) := by
    unfold disorder_within at hdj
    rw [hpre] at hdj
    exact (List.pairwise_append.1 hdj).2.1
  have hscan := scan_wordMap { p with fast_seek := true } (RecordLocation.records p.data q)
    { wordMap := p.wordMap, read := 0, skipped := 0, invalid := 0,
      max_stamp := 0, max_jitter := 0 }
    (early_stop_keeps { p with fast_seek := true } _ hsuffix)
  refine ⟨_, parse_records_of_position _ q hq, ?_⟩
  rw [hfilter]; exact hscan

/-- On every non-empty buffer whose records have non-decreasing decoded timestamps in
file order, and on the empty buffer when `from <= jitter`, for every `jitter >= 1`,
`parse_records` with fast seek enabled builds exactly the same frequency table as with
fast seek disabled, the tally of all valid records in `[from, to]`. -/
theorem fast_seek_same_table (p : YParser)
    (hs : (RecordLocation.records p.data 0).Pairwise
      (fun a b => a.2.timestamp ≤ b.2.timestamp))
    (hj : 1 ≤ p.jitter) (hne : p.data ≠ [] ∨ p.from_ ≤ p.jitter) :
    ∃ s t, YParser.parse_records { p with fast_seek := true } = .ok s ∧
      YParser.parse_records { p with fast_seek := false } = .ok t ∧
      s.wordMap = t.wordMap ∧
      s.wordMap = tally p.data p.wordMap
        ((RecordLocation.records p.data 0).filter (fun x => in_range p.from_ p.to_ x.2)) := by
  obtain ⟨t, ht, htw⟩ := parse_records_slow { p with fast_seek := false } rfl
  have h0 := disorder_within_of_sorted p.data hs
  obtain ⟨s, hs', hsw⟩ := fast_seek_table p (by
    rcases hne with h | h
    · exact Or.inr ⟨by omega, h, disorder_within_mono p.data 0 _ (by omega) h0⟩
    · exact Or.inl ⟨h, disorder_within_mono p.data 0 _ (by omega) h0⟩)
  exact ⟨s, t, hs', ht, hsw.trans htw.symm, hsw⟩

/-- C8 on the empty region, whose records are vacuously in non-decreasing order, with
`from = 1000`, `to = 2000` and `jitter = 900`: with fast seek disabled `parse_records`
returns the empty table; with fast seek enabled it seeks, `locate` fails the assertion
of `read_tune`, and no table is returned. -/
theorem fast_seek_fails_on_empty_region :
    (RecordLocation.records [] 0).Pairwise (fun a b => a.2.timestamp ≤ b.2.timestamp) ∧
    (YParser.configure [] 1000 2000 false 900).parse_records.map ScanState.wordMap = .ok [] ∧
    (YParser.configure [] 1000 2000 true 900).position = .error Fault.assertion ∧
    (YParser.configure [] 1000 2000 true 900).parse_records = .error Fault.assertion := by
  decide

/-- C7, as amended: for every non-empty buffer out of order by at most `bound >= 0` (no
record's timestamp exceeds a later record's by more than `bound`; `bound = 0` is a buffer
sorted by timestamp), with fast seek enabled, `from > jitter` and `from - jitter` within
the range of `time_t`, the seek of `parse_records` lands on a record frontier `q` such
that every record starting before `q` has a timestamp `<= from - jitter + bound`, and
every record starting at or after `q` has a timestamp `>= from - jitter - bound` and is
visited by the scan from `q`. So the scan from `q` visits every record whose timestamp
is above `from - jitter + bound`: above `from - jitter` on a sorted buffer, and at least
`from` when the buffer is out of order by less than the jitter. -/
theorem seek_keeps_later_records (p : YParser) (bound : Int) (hb : 0 ≤ bound)
    (hne : p.data ≠ []) (hd : disorder_within p.data bound)
    (hfs : p.fast_seek = true) (hfj : p.from_ > p.jitter)
    (hrep : p.from_ - p.jitter ≤ 9223372036854775807) :
    ∃ q, p.position = .ok q ∧ q ≤ p.data.length ∧ is_frontier p.data q ∧
      (∀ x ∈ RecordLocation.records p.data 0,
        (x.1 < q → x.2.timestamp ≤ p.from_ - p.jitter + bound) ∧
        (q ≤ x.1 → p.from_ - p.jitter - bound ≤ x.2.timestamp ∧
          x ∈ RecordLocation.records p.data q)) ∧
      ∀ x ∈ RecordLocation.records p.data 0, x.2.timestamp > p.from_ - p.jitter + bound →
        q ≤ x.1 ∧ x ∈ RecordLocation.records p.data q := by
  obtain ⟨q, hq, hql, hqf, hpart⟩ :=
    locate_loop_disorder p.data (wrap_time (p.from_ - p.jitter)) bound (by omega) hd
  obtain ⟨pre, hpre, hmem⟩ := records_append p.data q hql hqf q 0 (by omega) (Nat.zero_le _)
  have hw : wrap_time (p.from_ - p.jitter) = p.from_ - p.jitter := by
    unfold wrap_time
    omega
  rw [hw] at hpart
  have hall : ∀ x ∈ RecordLocation.records p.data 0,
      (x.1 < q → x.2.timestamp ≤ p.from_ - p.jitter + bound) ∧
      (q ≤ x.1 → p.from_ - p.jitter - bound ≤ x.2.timestamp ∧
        x ∈ RecordLocation.records p.data q) := by
    intro x hx
    have hm := records_mem p.data p.data.length 0 (by omega) (Nat.zero_le _) x hx
    have hst := records_starts p.data p.data.length 0 (by omega) (Nat.zero_le _)
      (Or.inl rfl) x hx
    obtain ⟨a, b⟩ := hpart x.1 hst hm.2.1
    rw [← hm.2.2] at a b
    refine ⟨a, fun hge => ⟨b hb hge, ?_⟩⟩
    rw [hpre] at hx
    rcases List.mem_append.1 hx with h | h
    · have := (hmem x h).2.1
      omega
    · exact h
  refine ⟨q, ?_, hql, hqf, hall, ?_⟩
  · unfold YParser.position
    rw [if_pos ⟨hfs, hfj⟩]
    unfold MappedRecords.locate_reference
    rw [locate_of_mapped p.data _ hne]
    exact hq
  · intro x hx hgt
    have hge : q ≤ x.1 := by
      by_contra hc
      have := (hall x hx).1 (by omega)
      omega
    exact ⟨hge, ((hall x hx).2 hge).2⟩

theorem seek_keeps_later_records_witness :
    disorder_within [49, 32, 97, 10, 57, 32, 98, 10, 56, 32, 99, 10] 1 ∧
    ∃ q, (YParser.configure [49, 32, 97, 10, 57, 32, 98, 10, 56, 32, 99, 10] 8 9 true 2).position
        = .ok q ∧
      q ≤ [49, 32, 97, 10, 57, 32, 98, 10, 56, 32, 99, 10].length ∧
      is_frontier [49, 32, 97, 10, 57, 32, 98, 10, 56, 32, 99, 10] q ∧
      (∀ x ∈ RecordLocation.records [49, 32, 97, 10, 57, 32, 98, 10, 56, 32, 99, 10] 0,
        (x.1 < q → x.2.timestamp ≤ 8 - 2 + 1) ∧
        (q ≤ x.1 → 8 - 2 - 1 ≤ x.2.timestamp ∧
          x ∈ RecordLocation.records [49, 32, 97, 10, 57, 32, 98, 10, 56, 32, 99, 10] q)) ∧
      ∀ x ∈ RecordLocation.records [49, 32, 97, 10, 57, 32, 98, 10, 56, 32, 99, 10] 0,
        x.2.timestamp > 8 - 2 + 1 →
        q ≤ x.1 ∧ x ∈ RecordLocation.records [49, 32, 97, 10, 57, 32, 98, 10, 56, 32, 99, 10] q :=
  ⟨by decide,
    seek_keeps_later_records
      (YParser.configure [49, 32, 97, 10, 57, 32, 98, 10, 56, 32, 99, 10] 8 9 true 2) 1
      (by decide) (by decide) (by decide) (by decide) (by decide) (by decide)⟩

/-- C7 as stated fails. On the sorted buffer `"5 a\n5 b\n5 c\n"` with `from = 6` and
`jitter = 1` the seek returns offset 4, after a record with timestamp `5 = from - jitter`;
on the buffer `"9 a\n1 b\n1 c\n"`, out of order by 8 with `jitter = 8` and `from = 10`, it
returns offset 12, after the record with timestamp `9 >= from - jitter`. -/
theorem seek_not_earliest :
    ((RecordLocation.records [53, 32, 97, 10, 53, 32, 98, 10, 53, 32, 99, 10] 0).Pairwise
        (fun a b => a.2.timestamp ≤ b.2.timestamp) ∧
      (YParser.configure [53, 32, 97, 10, 53, 32, 98, 10, 53, 32, 99, 10] 6 100 true 1).position
        = .ok 4 ∧
      ¬ ∀ x ∈ RecordLocation.records [53, 32, 97, 10, 53, 32, 98, 10, 53, 32, 99, 10] 0,
        x.2.timestamp ≥ 6 - 1 → 4 ≤ x.1) ∧
    ((RecordLocation.records [57, 32, 97, 10, 49, 32, 98, 10, 49, 32, 99, 10] 0).Pairwise
        (fun a b => a.2.timestamp - b.2.timestamp ≤ 8) ∧
      (YParser.configure [57, 32, 97, 10, 49, 32, 98, 10, 49, 32, 99, 10] 10 100 true 8).position
        = .ok 12 ∧
      ¬ ∀ x ∈ RecordLocation.records [57, 32, 97, 10, 49, 32, 98, 10, 49, 32, 99, 10] 0,
        x.2.timestamp ≥ 10 - 8 → 12 ≤ x.1) := by
  decide

/-! ## The frequency table -/

theorem strncmp_self (a : List UInt8) : ∀ n, strncmp a a n = 0 := by
  induction a with
  | nil => intro n; simp [strncmp]
  | cons c cs ih =>
    intro n
    cases n with
    | zero => simp [strncmp]
    | succ n =>
      unfold strncmp
      simp only [ne_eq, not_true_eq_false, if_false]
      split
      · rfl
      · exact ih n

theorem RefString.eq_self (a : RefString) : RefString.eq a a = true := by
  simp [RefString.eq, strncmp_self]

theorem strncmp_eq_zero (a : List UInt8) (h0 : (0 : UInt8) ∉ a) :
    ∀ (b : List UInt8) (n : Nat), a.length = n → b.length = n → strncmp a b n = 0 → a = b := by
  induction a with
  | nil =>
    intro b n ha hb _
    simp only [List.length_nil] at ha
    rw [← ha] at hb
    exact (List.length_eq_zero.1 hb).symm
  | cons c cs ih =>
    intro b n ha hb hcmp
    cases b with
    | nil => simp at ha hb; omega
    | cons d ds =>
      cases n with
      | zero => simp at ha
      | succ n =>
        unfold strncmp at hcmp
        by_cases hcd : c = d
        · subst hcd
          have hc0 : c ≠ 0 := fun h => h0 (by simp [h])
          simp only [ne_eq, not_true_eq_false, if_false, if_neg hc0] at hcmp
          have := ih (fun h => h0 (List.mem_cons_of_mem _ h)) ds n (by simpa using ha)
            (by simpa using hb) hcmp
          rw [this]
        · simp only [ne_eq, hcd, not_false_eq_true, if_true] at hcmp
          split at hcmp <;> simp at hcmp

/-- On a key without NUL byte, `RefString::operator==` is equality of the bytes. -/
theorem RefString.eq_iff (a b : RefString) (h0 : (0 : UInt8) ∉ a.str) :
    RefString.eq a b = true ↔ a = b := by
  constructor
  · intro h
    simp only [RefString.eq, RefString.len, Bool.and_eq_true, beq_iff_eq] at h
    have := strncmp_eq_zero a.str h0 b.str a.str.length rfl h.1.symm h.2
    cases a; cases b; simp_all
  · intro h
    rw [h]
    exact RefString.eq_self b

/-- The keys of the table after `wordMap[query]++`, when no key of the table holds a NUL
byte: the query is appended unless it is already a key. -/
theorem increment_keys (m : WordMap) (q : RefString)
    (hm : ∀ k ∈ m.map Prod.fst, (0 : UInt8) ∉ k.str) :
    (m.increment q).map Prod.fst =
      if q ∈ m.map Prod.fst then m.map Prod.fst else m.map Prod.fst ++ [q] := by
  induction m with
  | nil => simp [WordMap.increment]
  | cons e rest ih =>
    obtain ⟨k, c⟩ := e
    have hk : (0 : UInt8) ∉ k.str := hm k (by simp)
    have hrest : ∀ k ∈ rest.map Prod.fst, (0 : UInt8) ∉ k.str :=
      fun k' hk' => hm k' (by simp only [List.map_cons, List.mem_cons]; exact Or.inr hk')
    unfold WordMap.increment
    by_cases he : RefString.eq k q = true
    · rw [if_pos he]
      have := (RefString.eq_iff k q hk).1 he
      simp [this]
    · rw [if_neg he]
      have hne : ¬ q = k := fun h => he ((RefString.eq_iff k q hk).2 h.symm)
      simp only [List.map_cons, List.mem_cons, hne, false_or, List.cons_append]
      rw [ih hrest]
      split <;> rfl

theorem tally_keys (data : List UInt8) (qs : List (Nat × WhyRequest))
    (hq : ∀ x ∈ qs, (0 : UInt8) ∉ (x.2.get_raw_query data).str) :
    ∀ m : WordMap, (∀ k ∈ m.map Prod.fst, (0 : UInt8) ∉ k.str) → (m.map Prod.fst).Nodup →
      ((tally data m qs).map Prod.fst).Nodup ∧
      ∀ k, k ∈ (tally data m qs).map Prod.fst ↔
        (k ∈ m.map Prod.fst ∨ k ∈ qs.map (fun x => x.2.get_raw_query data)) := by
  induction qs with
  | nil => intro m _ hnd; simp [tally_nil, hnd]
  | cons x rest ih =>
    intro m hm hnd
    rw [tally_cons]
    have hx := hq x (by simp)
    have hkeys := increment_keys m (x.2.get_raw_query data) hm
    have hm' : ∀ k ∈ (m.increment (x.2.get_raw_query data)).map Prod.fst, (0 : UInt8) ∉ k.str := by
      intro k hk
      rw [hkeys] at hk
      split at hk
      · exact hm k hk
      · rcases List.mem_append.1 hk with h | h
        · exact hm k h
        · simp only [List.mem_singleton] at h
          rw [h]; exact hx
    have hnd' : ((m.increment (x.2.get_raw_query data)).map Prod.fst).Nodup := by
      rw [hkeys]
      split
      · exact hnd
      · next hnot =>
        rw [List.nodup_append]
        refine ⟨hnd, List.nodup_singleton _, ?_⟩
        intro a ha hb
        simp only [List.mem_singleton] at hb
        exact hnot (hb ▸ ha)
    obtain ⟨h1, h2⟩ := ih (fun y hy => hq y (List.mem_cons_of_mem _ hy)) _ hm' hnd'
    refine ⟨h1, ?_⟩
    intro k
    rw [h2 k, hkeys]
    simp only [List.map_cons, List.mem_cons]
    split
    · next hin =>
      constructor
      · rintro (h | h)
        · exact Or.inl h
        · exact Or.inr (Or.inr h)
      · rintro (h | h | h)
        · exact Or.inl h
        · exact Or.inl (h ▸ hin)
        · exact Or.inr h
    · simp only [List.mem_append, List.mem_singleton]
      tauto

theorem get_raw_query_no_nul (data : List UInt8) (h0 : (0 : UInt8) ∉ data) (r : WhyRequest) :
    (0 : UInt8) ∉ (r.get_raw_query data).str := by
  intro h
  unfold WhyRequest.get_raw_query at h
  exact h0 (List.mem_of_mem_drop (List.mem_of_mem_take h))

/-- The number of entries of a tally from the empty table over a region without NUL
byte: the number of distinct raw queries tallied. -/
theorem tally_length (data : List UInt8) (h0 : (0 : UInt8) ∉ data)
    (qs : List (Nat × WhyRequest)) :
    (tally data [] qs).length = (qs.map (fun x => x.2.get_raw_query data)).toFinset.card := by
  obtain ⟨hnd, hmem⟩ := tally_keys data qs (fun x _ => get_raw_query_no_nul data h0 x.2) []
    (by simp) (by simp)
  have e : ((tally data [] qs).map Prod.fst).toFinset =
      (qs.map (fun x => x.2.get_raw_query data)).toFinset := by
    ext k
    simp only [List.mem_toFinset]
    rw [hmem k]
    simp
  rw [← e, List.toFinset_card_of_nodup hnd, List.length_map]

/-- C1, as amended: for every buffer without NUL byte in which every record is valid, and
for every `from`, `to` and `jitter`, after `parse_records` on a fresh parser
`get_distinct_queries()` equals the number of distinct raw query byte-spans among the
records whose timestamp `t` satisfies `from <= t <= to`, in each of three cases: fast
seek is disabled; or `from <= jitter` (no seek is done) and no record's timestamp exceeds
a later record's by more than `jitter`; or `jitter >= 0`, the buffer is not empty and no
record's timestamp exceeds a later record's by `jitter` or more. -/
theorem distinct_queries_count (data : List UInt8) (from_ to_ jitter : Int) (fast_seek : Bool)
    (hv : ∀ x ∈ RecordLocation.records data 0, x.2.valid = true)
    (h0 : (0 : UInt8) ∉ data)
    (hcfg : fast_seek = false ∨
      (from_ ≤ jitter ∧ disorder_within data jitter) ∨
      (0 ≤ jitter ∧ data ≠ [] ∧ disorder_within data (jitter - 1))) :
    ∃ q, (YParser.configure data from_ to_ fast_seek jitter).after_parse = .ok q ∧
      q.get_distinct_queries = (spans_in_range data from_ to_).toFinset.card := by
  have hfilter : (RecordLocation.records data 0).filter (fun x => in_range from_ to_ x.2) =
      (RecordLocation.records data 0).filter
        (fun x => decide (from_ ≤ x.2.timestamp ∧ x.2.timestamp ≤ to_)) := by
    apply List.filter_congr
    intro x hx
    simp [in_range, hv x hx]
  have key : ∃ s, (YParser.configure data from_ to_ fast_seek jitter).parse_records = .ok s ∧
      s.wordMap = tally data []
        ((RecordLocation.records data 0).filter (fun x => in_range from_ to_ x.2)) := by
    cases fast_seek with
    | false => exact parse_records_slow (YParser.configure data from_ to_ false jitter) rfl
    | true =>
      rcases hcfg with h | h
      · exact absurd h (by simp)
      · exact fast_seek_table (YParser.configure data from_ to_ true jitter) h
  obtain ⟨s, hs, hw⟩ := key
  refine ⟨{ YParser.configure data from_ to_ fast_seek jitter with wordMap := s.wordMap }, ?_, ?_⟩
  · unfold YParser.after_parse
    rw [hs]
  · show s.wordMap.length = _
    rw [hw, tally_length data h0, hfilter]
    rfl

/-- C1, as amended, on the buffer `"5 a\n4 b\n9 a\n"`, out of order by 1, with `from = 4`,
`to = 5`, `jitter = 2` and fast seek: the seek is done, and the two records in range are
counted under two keys. -/
theorem distinct_queries_count_witness :
    disorder_within [53, 32, 97, 10, 52, 32, 98, 10, 57, 32, 97, 10] (2 - 1) ∧
    ∃ q, (YParser.configure [53, 32, 97, 10, 52, 32, 98, 10, 57, 32, 97, 10] 4 5 true 2).after_parse
        = .ok q ∧
      q.get_distinct_queries =
        (spans_in_range [53, 32, 97, 10, 52, 32, 98, 10, 57, 32, 97, 10] 4 5).toFinset.card :=
  ⟨by decide,
    distinct_queries_count [53, 32, 97, 10, 52, 32, 98, 10, 57, 32, 97, 10] 4 5 2 true
      (by decide) (by decide) (Or.inr (Or.inr ⟨by decide, by decide, by decide⟩))⟩

/-- C1 as stated fails with fast seek on a buffer out of order by the jitter or more. In
`"9 a\n1 b\n"` every record is valid; with `from = 0`, `to = 5`, `jitter = 0` and fast
seek enabled the scan leaves at the first record, so that no query is counted, while
the record `1 b` lies in range. In `"5 a\n4 b\n"`, out of order by 1, with `from = 5`,
`to = 9`, `jitter = 1` and fast seek enabled the seek returns offset 4, past the record
`5 a`, which lies in range, and no query is counted. In `"12 a\n20 b\n"`, in increasing
order, with `from = 10`, `to = 30`, `jitter = -5` and fast seek enabled the seek for
`from - jitter = 15` returns offset 5, past the record `12 a`, which lies in range, and
one query is counted. -/
theorem distinct_queries_fast_seek_unsorted :
    ((∀ x ∈ RecordLocation.records [57, 32, 97, 10, 49, 32, 98, 10] 0, x.2.valid = true) ∧
      (YParser.configure [57, 32, 97, 10, 49, 32, 98, 10] 0 5 true 0).after_parse.map
        YParser.get_distinct_queries = .ok 0 ∧
      (spans_in_range [57, 32, 97, 10, 49, 32, 98, 10] 0 5).toFinset.card = 1) ∧
    ((∀ x ∈ RecordLocation.records [53, 32, 97, 10, 52, 32, 98, 10] 0, x.2.valid = true) ∧
      disorder_within [53, 32, 97, 10, 52, 32, 98, 10] 1 ∧
      (YParser.configure [53, 32, 97, 10, 52, 32, 98, 10] 5 9 true 1).position = .ok 4 ∧
      (YParser.configure [53, 32, 97, 10, 52, 32, 98, 10] 5 9 true 1).after_parse.map
        YParser.get_distinct_queries = .ok 0 ∧
      (spans_in_range [53, 32, 97, 10, 52, 32, 98, 10] 5 9).toFinset.card = 1) ∧
    ((∀ x ∈ RecordLocation.records [49, 50, 32, 97, 10, 50, 48, 32, 98, 10] 0,
        x.2.valid = true) ∧
      disorder_within [49, 50, 32, 97, 10, 50, 48, 32, 98, 10] (-5 - 1) ∧
      (YParser.configure [49, 50, 32, 97, 10, 50, 48, 32, 98, 10] 10 30 true (-5)).position
        = .ok 5 ∧
      (YParser.configure [49, 50, 32, 97, 10, 50, 48, 32, 98, 10] 10 30 true
        (-5)).after_parse.map YParser.get_distinct_queries = .ok 1 ∧
      (spans_in_range [49, 50, 32, 97, 10, 50, 48, 32, 98, 10] 10 30).toFinset.card = 2) := by
  decide

/-- C2 at the region `nul_buffer`, scanned over `[0, 1000]` without fast seek: the two
valid records in range have raw queries that differ, yet `RefString::operator==` holds
between them and their hashes agree, so that the table counts both under the single key
`nul_query_a`, with count 2. -/
theorem nul_queries_share_entry :
    nul_query_a ≠ nul_query_b ∧
    RefString.eq { str := nul_query_a } { str := nul_query_b } = true ∧
    RefString.hash { str := nul_query_a } = RefString.hash { str := nul_query_b } ∧
    valid_spans_in_range nul_buffer 0 1000 = [{ str := nul_query_a }, { str := nul_query_b }] ∧
    (YParser.configure nul_buffer 0 1000 false 900).parse_records.map ScanState.wordMap =
      .ok [({ str := nul_query_a }, 2)] := by
  decide

/-- C10 at the region `nul_buffer`, scanned over `[0, 1000]` with the default fast seek:
the table holds the key `nul_query_a` with count 2, and one valid record in range has
that raw query; the other record, whose raw query has the same hash, is counted with it. -/
theorem nul_query_count_exceeds :
    ∃ s, (YParser.configure nul_buffer 0 1000 true 900).parse_records = .ok s ∧
      ({ str := nul_query_a }, 2) ∈ s.wordMap ∧
      (valid_spans_in_range nul_buffer 0 1000).count { str := nul_query_a } = 1 ∧
      RefString.hash { str := nul_query_a } = RefString.hash { str := nul_query_b } :=
  ⟨_, rfl, by decide, by decide, by decide⟩

/-! ## Counts of the table on regions without NUL byte -/

theorem count_of_cons (e : RefString × Nat) (rest : WordMap) (k : RefString) :
    WordMap.count_of (e :: rest) k =
      if RefString.eq e.1 k = true then e.2 else WordMap.count_of rest k := by
  unfold WordMap.count_of
  rw [List.find?_cons]
  by_cases h : RefString.eq e.1 k = true
  · simp [h]
  · simp [h]

theorem increment_count_of (m : WordMap) (q k : RefString)
    (hm : ∀ k' ∈ m.map Prod.fst, (0 : UInt8) ∉ k'.str) (hq : (0 : UInt8) ∉ q.str) :
    (m.increment q).count_of k =
      if q = k then wrap_unsigned (m.count_of k + 1) else m.count_of k := by
  induction m with
  | nil =>
    unfold WordMap.increment
    rw [count_of_cons]
    by_cases h : q = k
    · rw [if_pos ((RefString.eq_iff q k hq).2 h), if_pos h]
      rfl
    · rw [if_neg (fun h' => h ((RefString.eq_iff q k hq).1 h')), if_neg h]
  | cons e rest ih =>
    obtain ⟨k0, c⟩ := e
    have hk0 : (0 : UInt8) ∉ k0.str := hm k0 (by simp)
    have hrest : ∀ k' ∈ rest.map Prod.fst, (0 : UInt8) ∉ k'.str :=
      fun k' hk' => hm k' (by simp only [List.map_cons, List.mem_cons]; exact Or.inr hk')
    unfold WordMap.increment
    by_cases he : RefString.eq k0 q = true
    · have e1 := (RefString.eq_iff k0 q hk0).1 he
      rw [if_pos he, count_of_cons, count_of_cons]
      subst e1
      by_cases hk : RefString.eq k0 k = true
      · have e2 := (RefString.eq_iff k0 k hk0).1 hk
        rw [if_pos hk, if_pos hk, if_pos e2]
      · have e2 : ¬ k0 = k := fun h => hk ((RefString.eq_iff k0 k hk0).2 h)
        rw [if_neg hk, if_neg hk, if_neg e2]
    · have e1 : ¬ k0 = q := fun h => he ((RefString.eq_iff k0 q hk0).2 h)
      rw [if_neg he, count_of_cons, count_of_cons, ih hrest]
      by_cases hk : RefString.eq k0 k = true
      · have e2 := (RefString.eq_iff k0 k hk0).1 hk
        have e3 : ¬ q = k := fun h => e1 (e2.trans h.symm)
        rw [if_pos hk, if_pos hk, if_neg e3]
      · rw [if_neg hk, if_neg hk]

theorem increment_no_nul (m : WordMap) (q : RefString)
    (hm : ∀ k ∈ m.map Prod.fst, (0 : UInt8) ∉ k.str) (hq : (0 : UInt8) ∉ q.str) :
    ∀ k ∈ (m.increment q).map Prod.fst, (0 : UInt8) ∉ k.str := by
  intro k hk
  rw [increment_keys m q hm] at hk
  split at hk
  · exact hm k hk
  · rcases List.mem_append.1 hk with h | h
    · exact hm k h
    · simp only [List.mem_singleton] at h
      rw [h]; exact hq

/-- The count the tally leaves for a key: the count it had plus the number of tallied
records with that raw query, as long as no count reaches `2^32`. -/
theorem tally_count_of (data : List UInt8) (h0 : (0 : UInt8) ∉ data) :
    ∀ (l : List (Nat × WhyRequest)) (m : WordMap),
      (∀ k ∈ m.map Prod.fst, (0 : UInt8) ∉ k.str) →
      (∀ k, m.count_of k + (l.map (fun x => x.2.get_raw_query data)).count k < 4294967296) →
      ∀ k, (tally data m l).count_of k =
        m.count_of k + (l.map (fun x => x.2.get_raw_query data)).count k := by
  intro l
  induction l with
  | nil => intro m _ _ k; simp [tally_nil]
  | cons x rest ih =>
    intro m hm hb k
    have hq := get_raw_query_no_nul data h0 x.2
    have hstep : ∀ k', (m.increment (x.2.get_raw_query data)).count_of k' +
        (rest.map (fun x => x.2.get_raw_query data)).count k' =
        m.count_of k' + ((x :: rest).map (fun x => x.2.get_raw_query data)).count k' := by
      intro k'
      have hb' := hb k'
      rw [increment_count_of m _ k' hm hq]
      simp only [List.map_cons, List.count_cons] at hb' ⊢
      by_cases e : x.2.get_raw_query data = k'
      · simp only [e, if_true, beq_self_eq_true] at hb' ⊢
        unfold wrap_unsigned
        omega
      · have e' : (x.2.get_raw_query data == k') = false := by simpa using e
        simp only [e, if_false, e'] at hb' ⊢
        simp
    rw [tally_cons, ih _ (increment_no_nul m _ hm hq) (fun k' => by rw [hstep k']; exact hb k') k]
    exact hstep k

theorem count_of_entry (m : WordMap) (hm : ∀ k ∈ m.map Prod.fst, (0 : UInt8) ∉ k.str)
    (hnd : (m.map Prod.fst).Nodup) : ∀ e ∈ m, m.count_of e.1 = e.2 := by
  induction m with
  | nil => intro e he; cases he
  | cons e0 rest ih =>
    intro e he
    have hk0 : (0 : UInt8) ∉ e0.1.str := hm e0.1 (by simp)
    have hrest : ∀ k' ∈ rest.map Prod.fst, (0 : UInt8) ∉ k'.str :=
      fun k' hk' => hm k' (by simp only [List.map_cons, List.mem_cons]; exact Or.inr hk')
    rw [List.map_cons, List.nodup_cons] at hnd
    rw [count_of_cons]
    rcases List.mem_cons.1 he with h | h
    · rw [h, if_pos (RefString.eq_self e0.1)]
    · have hne : ¬ RefString.eq e0.1 e.1 = true := by
        intro heq
        have := (RefString.eq_iff e0.1 e.1 hk0).1 heq
        exact hnd.1 (this ▸ List.mem_map_of_mem Prod.fst h)
      rw [if_neg hne]
      exact ih hrest hnd.2 e h

/-- The statement of C2 on regions without NUL byte: with fast seek disabled, after one
`parse_records` on a fresh parser over fewer than `2^32` records, the table maps every
byte sequence to the number of valid records in range with that raw query, and holds no
key with count 0. -/
theorem table_counts_without_nul (data : List UInt8) (from_ to_ jitter : Int)
    (h0 : (0 : UInt8) ∉ data)
    (hn : (RecordLocation.records data 0).length < 4294967296) :
    ∃ s, (YParser.configure data from_ to_ false jitter).parse_records = .ok s ∧
      (∀ k, s.wordMap.count_of k = (valid_spans_in_range data from_ to_).count k) ∧
      ∀ e ∈ s.wordMap, e.2 ≠ 0 := by
  obtain ⟨s, hs, hw⟩ := parse_records_slow (YParser.configure data from_ to_ false jitter) rfl
  have hw' : s.wordMap = tally data []
      ((RecordLocation.records data 0).filter (fun x => in_range from_ to_ x.2)) := hw
  have hcount : ∀ k, s.wordMap.count_of k = (valid_spans_in_range data from_ to_).count k := by
    intro k
    rw [hw', tally_count_of data h0 _ [] (by simp) ?_ k]
    · simp [WordMap.count_of, valid_spans_in_range]
    · intro k'
      have h1 := List.count_le_length (a := k')
        (l := ((RecordLocation.records data 0).filter (fun x => in_range from_ to_ x.2)).map
          (fun x => x.2.get_raw_query data))
      have h2 := List.length_filter_le (fun x => in_range from_ to_ x.2)
        (RecordLocation.records data 0)
      simp only [List.length_map] at h1
      simp only [WordMap.count_of, List.find?_nil]
      omega
  refine ⟨s, hs, hcount, ?_⟩
  intro e he
  obtain ⟨hnd, hmem⟩ := tally_keys data
    ((RecordLocation.records data 0).filter (fun x => in_range from_ to_ x.2))
    (fun x _ => get_raw_query_no_nul data h0 x.2) [] (by simp) (by simp)
  rw [← hw'] at hnd hmem
  have hnn : ∀ k ∈ s.wordMap.map Prod.fst, (0 : UInt8) ∉ k.str := by
    intro k hk
    rcases (hmem k).1 hk with h | h
    · simp at h
    · obtain ⟨x, _, rfl⟩ := List.mem_map.1 h
      exact get_raw_query_no_nul data h0 x.2
  have h1 := count_of_entry s.wordMap hnn hnd e he
  have h2 := (hmem e.1).1 (List.mem_map_of_mem Prod.fst he)
  rcases h2 with h2 | h2
  · simp at h2
  · have h3 : 0 < (valid_spans_in_range data from_ to_).count e.1 :=
      List.count_pos_iff.2 h2
    rw [← hcount e.1, h1] at h3
    omega

/-! ## Keys of the table, for every region and configuration -/

theorem increment_keys_subset (m : WordMap) (q k : RefString)
    (hk : k ∈ (m.increment q).map Prod.fst) : k ∈ m.map Prod.fst ∨ k = q := by
  induction m with
  | nil =>
    simp only [WordMap.increment, List.map_cons, List.map_nil, List.mem_singleton] at hk
    exact Or.inr hk
  | cons e rest ih =>
    obtain ⟨k0, c⟩ := e
    unfold WordMap.increment at hk
    split at hk
    · left; simpa using hk
    · simp only [List.map_cons, List.mem_cons] at hk ⊢
      rcases hk with h | h
      · exact Or.inl (Or.inl h)
      · rcases ih h with h' | h'
        · exact Or.inl (Or.inr h')
        · exact Or.inr h'

theorem scan_keys (p : YParser) :
    ∀ (l : List (Nat × WhyRequest)) (s : ScanState),
      ∀ k ∈ (p.scan l s).wordMap.map Prod.fst,
        k ∈ s.wordMap.map Prod.fst ∨
        k ∈ (l.filter (fun x => in_range p.from_ p.to_ x.2)).map
          (fun x => x.2.get_raw_query p.data) := by
  intro l
  induction l with
  | nil => intro s k hk; exact Or.inl hk
  | cons x rest ih =>
    intro s k hk
    obtain ⟨o, record⟩ := x
    unfold YParser.scan at hk
    simp only [] at hk
    have hmono : ∀ k, k ∈ (rest.filter (fun x => in_range p.from_ p.to_ x.2)).map
          (fun x => x.2.get_raw_query p.data) →
        k ∈ (((o, record) :: rest).filter (fun x => in_range p.from_ p.to_ x.2)).map
          (fun x => x.2.get_raw_query p.data) := by
      intro k hk
      rw [List.filter_cons]
      split
      · exact List.mem_cons_of_mem _ hk
      · exact hk
    split at hk
    · rcases ih _ k hk with h | h
      · exact Or.inl h
      · exact Or.inr (hmono k h)
    · split at hk
      · next hv hr =>
        have hin : in_range p.from_ p.to_ record = true := by
          simp only [Bool.not_eq_true, Bool.not_eq_false] at hv
          simp [in_range, hv, hr.1, hr.2]
        rcases ih _ k hk with h | h
        · rcases increment_keys_subset _ _ k h with h' | h'
          · exact Or.inl h'
          · right
            rw [List.filter_cons_of_pos (by simpa using hin), List.map_cons, h']
            exact List.mem_cons_self _ _
        · exact Or.inr (hmono k h)
      · split at hk
        · exact Or.inl hk
        · rcases ih _ k hk with h | h
          · exact Or.inl h
          · exact Or.inr (hmono k h)

/-- The part of C10 that holds for every configuration on every non-empty region, and on
the empty region when no search is done: `parse_records` on a fresh parser returns, and
every key of the table is the raw query of a valid record with
`from <= timestamp <= to`. -/
theorem table_keys_are_spans_in_range (data : List UInt8) (from_ to_ jitter : Int)
    (fast_seek : Bool) (hne : data ≠ [] ∨ ¬ (fast_seek = true ∧ from_ > jitter)) :
    ∃ s, (YParser.configure data from_ to_ fast_seek jitter).parse_records = .ok s ∧
      ∀ e ∈ s.wordMap, e.1 ∈ valid_spans_in_range data from_ to_ := by
  obtain ⟨q, hq, hql, hqf⟩ :=
    position_ok (YParser.configure data from_ to_ fast_seek jitter) hne
  obtain ⟨pre, hpre, _⟩ := records_append data q hql hqf q 0 (by omega) (Nat.zero_le _)
  refine ⟨_, parse_records_of_position _ q hq, ?_⟩
  intro e he
  rcases scan_keys (YParser.configure data from_ to_ fast_seek jitter) _ _ e.1
    (List.mem_map_of_mem Prod.fst he) with h | h
  · simp [YParser.configure, YParser.open_file] at h
  · unfold valid_spans_in_range
    rw [hpre, List.filter_append, List.map_append]
    exact List.mem_append_right _ h

/-! ## The top-K selector -/

theorem push_perm (h : RefStringPriorityQueue) (e : RefStringPriorityPair) :
    (RefStringPriorityQueue.push h e).Perm (e :: h) := by
  induction h with
  | nil => exact List.Perm.refl _
  | cons first rest ih =>
    unfold RefStringPriorityQueue.push
    split
    · exact (List.Perm.cons first ih).trans (List.Perm.swap e first rest)
    · exact List.Perm.refl _

theorem push_length (h : RefStringPriorityQueue) (e : RefStringPriorityPair) :
    (RefStringPriorityQueue.push h e).length = h.length + 1 := by
  simpa using (push_perm h e).length_eq

theorem push_sorted (h : RefStringPriorityQueue) (e : RefStringPriorityPair)
    (hs : h.Pairwise (fun a b => a.2 ≤ b.2)) :
    (RefStringPriorityQueue.push h e).Pairwise (fun a b => a.2 ≤ b.2) := by
  induction h with
  | nil => simp [RefStringPriorityQueue.push]
  | cons first rest ih =>
    obtain ⟨h1, h2⟩ := List.pairwise_cons.1 hs
    unfold RefStringPriorityQueue.push
    by_cases c : RefStringPriorityPairCompare e first = true
    · rw [if_pos c]
      have c' : first.2 < e.2 := by simpa [RefStringPriorityPairCompare] using c
      refine List.pairwise_cons.2 ⟨?_, ih h2⟩
      intro x hx
      rcases List.mem_cons.1 ((push_perm rest e).mem_iff.1 hx) with h | h
      · rw [h]; exact Nat.le_of_lt c'
      · exact h1 x h
    · rw [if_neg c]
      have c' : e.2 ≤ first.2 := by simpa [RefStringPriorityPairCompare] using c
      refine List.pairwise_cons.2 ⟨?_, hs⟩
      intro x hx
      rcases List.mem_cons.1 hx with h | h
      · rw [h]; exact c'
      · exact Nat.le_trans c' (h1 x h)

/-- The selection loop for `top_queries >= 1`: it never reads `top()` on an empty queue,
and leaves the queue with the `min(top_queries, n)` entries of greatest count, in
non-decreasing order, every entry left out having at most the count of every entry
kept. -/
theorem select_loop_spec (k : Nat) (hk : 1 ≤ k) :
    ∀ (rest : List (RefString × Nat)) (heap : RefStringPriorityQueue),
      heap.Pairwise (fun a b => a.2 ≤ b.2) → heap.length ≤ k →
      ∃ heap' dropped, select_loop k rest heap = .ok heap' ∧
        heap'.Pairwise (fun a b => a.2 ≤ b.2) ∧
        heap'.length = min k (heap.length + rest.length) ∧
        (heap' ++ dropped).Perm (heap ++ rest) ∧
        (∀ d ∈ dropped, ∀ x ∈ heap', d.2 ≤ x.2) ∧
        (heap.length = k → ∀ b, (∀ x ∈ heap, b ≤ x.2) → ∀ x ∈ heap', b ≤ x.2) := by
  intro rest
  induction rest with
  | nil =>
    intro heap hs hl
    refine ⟨heap, [], rfl, hs, by simp; omega, by simp, by simp, fun _ b hb => hb⟩
  | cons e rest ih =>
    intro heap hs hl
    unfold select_loop
    by_cases c : heap.length < k
    · rw [if_pos c]
      obtain ⟨heap', dropped, h1, h2, h3, h4, h5, _⟩ :=
        ih (RefStringPriorityQueue.push heap e) (push_sorted heap e hs)
          (by rw [push_length]; omega)
      refine ⟨heap', dropped, h1, h2, ?_, ?_, h5, fun h => by omega⟩
      · rw [h3, push_length]; simp only [List.length_cons]; congr 1; omega
      · refine h4.trans ?_
        refine ((push_perm heap e).append_right rest).trans ?_
        simpa using (@List.perm_middle _ e heap rest).symm
    · rw [if_neg c]
      have hlen : heap.length = k := by omega
      cases heap with
      | nil => simp at hlen; omega
      | cons least tl =>
        obtain ⟨hs1, hs2⟩ := List.pairwise_cons.1 hs
        simp only [RefStringPriorityQueue.top, List.head?_cons]
        by_cases c2 : e.2 ≥ least.2
        · rw [if_pos c2]
          simp only [RefStringPriorityQueue.pop, List.tail_cons]
          have hlen1 : (RefStringPriorityQueue.push tl e).length = k := by
            rw [push_length]; simpa using hlen
          obtain ⟨heap', dropped, h1, h2, h3, h4, h5, h6⟩ :=
            ih (RefStringPriorityQueue.push tl e) (push_sorted tl e hs2) (by omega)
          have hb1 : ∀ b, (∀ x ∈ least :: tl, b ≤ x.2) →
              ∀ x ∈ RefStringPriorityQueue.push tl e, b ≤ x.2 := by
            intro b hb x hx
            rcases List.mem_cons.1 ((push_perm tl e).mem_iff.1 hx) with h | h
            · rw [h]; exact Nat.le_trans (hb least (by simp)) c2
            · exact hb x (List.mem_cons_of_mem _ h)
          refine ⟨heap', least :: dropped, h1, h2, ?_, ?_, ?_, ?_⟩
          · rw [h3, hlen1]; simp only [List.length_cons] at hlen ⊢; omega
          · refine List.perm_middle.trans ?_
            refine (List.Perm.cons least h4).trans ?_
            refine (List.Perm.cons least ((push_perm tl e).append_right rest)).trans ?_
            simpa using (List.Perm.cons least
              (@List.perm_middle _ e tl rest).symm)
          · intro d hd x hx
            rcases List.mem_cons.1 hd with h | h
            · rw [h]
              refine h6 hlen1 least.2 (hb1 least.2 ?_) x hx
              intro y hy
              rcases List.mem_cons.1 hy with h' | h'
              · rw [h']
              · exact hs1 y h'
            · exact h5 d h x hx
          · intro _ b hb
            exact h6 hlen1 b (hb1 b hb)
        · rw [if_neg c2]
          obtain ⟨heap', dropped, h1, h2, h3, h4, h5, h6⟩ := ih (least :: tl) hs (by omega)
          have c2' : e.2 < least.2 := Nat.lt_of_not_le c2
          refine ⟨heap', e :: dropped, h1, h2, ?_, ?_, ?_, ?_⟩
          · rw [h3]; simp only [List.length_cons] at hlen ⊢; omega
          · refine List.perm_middle.trans ?_
            refine (List.Perm.cons e h4).trans ?_
            exact (@List.perm_middle _ e (least :: tl) rest).symm
          · intro d hd x hx
            rcases List.mem_cons.1 hd with h | h
            · rw [h]
              refine h6 hlen e.2 ?_ x hx
              intro y hy
              rcases List.mem_cons.1 hy with h' | h'
              · rw [h']; exact Nat.le_of_lt c2'
              · exact Nat.le_trans (Nat.le_of_lt c2') (hs1 y h')
            · exact h5 d h x hx
          · intro _ b hb
            exact h6 hlen b hb

theorem drain_loop_eq (h : RefStringPriorityQueue) :
    ∀ list, drain_loop h list = list ++ h := by
  induction h with
  | nil => intro list; simp [drain_loop]
  | cons first rest ih => intro list; simp [drain_loop, ih]

theorem emit_loop_list (l : List RefStringPriorityPair) :
    ∀ (h : RefStringPriorityQueue) (out : TopQueries),
      (emit_loop l h out).ordered_list = out.ordered_list ++ l := by
  induction l with
  | nil => intro h out; simp [emit_loop]
  | cons e rest ih => intro h out; simp [emit_loop, ih]

/-- C4: for every frequency table with `n` entries and every `k >= 1`, the list of counts
returned by `get_top_queries(k)` equals the first `min(k, n)` elements of the table's
counts sorted in descending order; the table is the returned entries together with the
entries left out, each of which has a count at most the count of every entry returned;
and no key is returned twice when the keys of the table are distinct. -/
theorem top_queries_are_greatest (wordMap : WordMap) (k : Nat) (hk : 1 ≤ k) :
    ∃ r, get_top_queries wordMap k = .ok r ∧
      r.ordered_list.map Prod.snd =
        ((wordMap.map Prod.snd).insertionSort (· ≥ ·)).take (min k wordMap.length) ∧
      (∃ left_out, (r.ordered_list ++ left_out).Perm wordMap ∧
        ∀ e ∈ left_out, ∀ x ∈ r.ordered_list, e.2 ≤ x.2) ∧
      ((wordMap.map Prod.fst).Nodup → (r.ordered_list.map Prod.fst).Nodup) := by
  obtain ⟨heap, dropped, h1, h2, h3, h4, h5, _⟩ :=
    select_loop_spec k hk wordMap [] List.Pairwise.nil (by simp)
  have hlist : (emit_loop (drain_loop heap []).reverse []
      { ordered_list := [], empty_pops := 0 }).ordered_list = heap.reverse := by
    rw [emit_loop_list, drain_loop_eq]
    simp
  have hperm : (heap.reverse ++ dropped).Perm wordMap := by
    refine ((List.reverse_perm heap).append_right dropped).trans ?_
    simpa using h4
  refine ⟨_, by unfold get_top_queries; rw [h1], ?_, ⟨dropped, ?_, ?_⟩, ?_⟩
  · rw [hlist]
    have hsorted : List.Sorted (· ≥ ·)
        (heap.reverse.map Prod.snd ++ (dropped.map Prod.snd).insertionSort (· ≥ ·)) := by
      unfold List.Sorted
      rw [List.pairwise_append]
      refine ⟨?_, List.sorted_insertionSort (· ≥ ·) _, ?_⟩
      · rw [List.pairwise_map, List.pairwise_reverse]
        exact h2
      · intro a ha b hb
        have hb' := (List.perm_insertionSort (· ≥ ·) (dropped.map Prod.snd)).mem_iff.1 hb
        obtain ⟨x, hx, rfl⟩ := List.mem_map.1 ha
        obtain ⟨d, hd, rfl⟩ := List.mem_map.1 hb'
        exact h5 d hd x (List.mem_reverse.1 hx)
    have hp : (heap.reverse.map Prod.snd ++ (dropped.map Prod.snd).insertionSort (· ≥ ·)).Perm
        ((wordMap.map Prod.snd).insertionSort (· ≥ ·)) := by
      refine List.Perm.trans ?_ (List.perm_insertionSort (· ≥ ·) (wordMap.map Prod.snd)).symm
      refine List.Perm.trans ?_ (hperm.map Prod.snd)
      rw [List.map_append]
      exact List.Perm.append_left _ (List.perm_insertionSort (· ≥ ·) (dropped.map Prod.snd))
    have heq := List.eq_of_perm_of_sorted hp hsorted
      (List.sorted_insertionSort (· ≥ ·) (wordMap.map Prod.snd))
    rw [← heq]
    have hlen : (heap.reverse.map Prod.snd).length = min k wordMap.length := by
      simp [h3]
    rw [← hlen, List.take_left']
    rfl
  · rw [hlist]; exact hperm
  · rw [hlist]
    intro e he x hx
    exact h5 e he x (List.mem_reverse.1 hx)
  · rw [hlist]
    intro hnd
    have := (hperm.map Prod.fst).nodup_iff.2 hnd
    rw [List.map_append] at this
    exact List.Nodup.of_append_left this

theorem top_queries_are_greatest_witness :
    ∃ r, get_top_queries [({ str := [97] }, 2), ({ str := [98] }, 5), ({ str := [99] }, 3)] 2
        = .ok r ∧
      r.ordered_list.map Prod.snd =
        (([({ str := [97] }, 2), ({ str := [98] }, 5), ({ str := [99] }, 3)] :
          WordMap).map Prod.snd |>.insertionSort (· ≥ ·)).take
          (min 2 ([({ str := [97] }, 2), ({ str := [98] }, 5), ({ str := [99] }, 3)] :
            WordMap).length) ∧
      (∃ left_out, (r.ordered_list ++ left_out).Perm
          [({ str := [97] }, 2), ({ str := [98] }, 5), ({ str := [99] }, 3)] ∧
        ∀ e ∈ left_out, ∀ x ∈ r.ordered_list, e.2 ≤ x.2) ∧
      ((([({ str := [97] }, 2), ({ str := [98] }, 5), ({ str := [99] }, 3)] :
          WordMap).map Prod.fst).Nodup → (r.ordered_list.map Prod.fst).Nodup) :=
  top_queries_are_greatest [({ str := [97] }, 2), ({ str := [98] }, 5), ({ str := [99] }, 3)] 2
    (by decide)

/-- C3 at `k = 0`: on every table with at least one entry, the selection loop of
`get_top_queries(0)` reads `min_heap.top()` on the empty queue at the first entry, and
no list is returned. -/
theorem top_queries_zero_reads_empty_top (element : RefString × Nat)
    (rest : List (RefString × Nat)) :
    get_top_queries (element :: rest) 0 = .error Fault.empty_top := by
  simp [get_top_queries, select_loop, RefStringPriorityQueue.top]

/-! ## The codec contract: decoding, `begin` and `end` -/

theorem iterate_reaches_end (data : List UInt8) :
    ∀ n offset, data.length - offset ≤ n → offset ≤ data.length →
      ∃ k, k ≤ data.length - offset ∧ (next_offset data)^[k] offset = data.length ∧
        (RecordLocation.records data offset).length = k := by
  intro n
  induction n with
  | zero =>
    intro offset h1 h2
    have e : offset = data.length := by omega
    exact ⟨0, Nat.zero_le _, by simpa using e, by rw [e, records_end]; rfl⟩
  | succ n ih =>
    intro offset h1 h2
    by_cases e : offset = data.length
    · exact ⟨0, Nat.zero_le _, by simpa using e, by rw [e, records_end]; rfl⟩
    · have hlt : offset < data.length := Nat.lt_of_le_of_ne h2 e
      have hs := next_offset_spec data offset h2
      have hgt := hs.2.2.1 hlt
      obtain ⟨k, hk1, hk2, hk3⟩ := ih (next_offset data offset) (by omega) hs.2.1
      refine ⟨k + 1, by omega, ?_, ?_⟩
      · rw [Function.iterate_succ_apply]; exact hk2
      · rw [records_unfold data offset hlt, List.length_cons, hk3]

/-- C12: for every byte buffer and every offset `<= size`, `get_record` (a total function
of the buffer and the offset) returns a next offset with `offset < next <= size` when
`offset < size`, and `next = size` when `offset = size`; hence forward iteration from the
cursor reaches the buffer end after `k <= size - offset` decode steps, `k` being the
number of records it visits. -/
theorem get_record_advances (data : List UInt8) (offset : Nat) (h : offset ≤ data.length) :
    (offset < data.length →
      offset < (get_record data offset).2.2 ∧ (get_record data offset).2.2 ≤ data.length) ∧
    (offset = data.length → (get_record data offset).2.2 = data.length) ∧
    ∃ k, k ≤ data.length - offset ∧
      (fun o => (get_record data o).2.2)^[k] offset = data.length ∧
      (RecordLocation.records data offset).length = k := by
  have hs := next_offset_spec data offset h
  refine ⟨fun hlt => ⟨hs.2.2.1 hlt, hs.2.1⟩, fun e => ?_, ?_⟩
  · have h1 := hs.1
    have h2 := hs.2.1
    unfold next_offset at h1 h2
    omega
  · exact iterate_reaches_end data (data.length - offset) offset (Nat.le_refl _) h

theorem get_record_advances_witness :
    ((1 : Nat) < [49, 32, 97, 10, 50].length →
      1 < (get_record [49, 32, 97, 10, 50] 1).2.2 ∧
        (get_record [49, 32, 97, 10, 50] 1).2.2 ≤ [49, 32, 97, 10, 50].length) ∧
    (1 = [49, 32, 97, 10, 50].length →
      (get_record [49, 32, 97, 10, 50] 1).2.2 = [49, 32, 97, 10, 50].length) ∧
    ∃ k, k ≤ [49, 32, 97, 10, 50].length - 1 ∧
      (fun o => (get_record [49, 32, 97, 10, 50] o).2.2)^[k] 1 = [49, 32, 97, 10, 50].length ∧
      (RecordLocation.records [49, 32, 97, 10, 50] 1).length = k :=
  get_record_advances [49, 32, 97, 10, 50] 1 (by decide)

/-- C13: for every buffer and every offset `o < size`, the next offset returned by
`get_record` at `o` is one past the first line terminator at index `>= o`, or `size` when
there is none; it is a record frontier and the smallest frontier strictly greater than
`o`. -/
theorem next_offset_first_terminator (data : List UInt8) (o : Nat) (h : o < data.length) :
    ((∃ j, o ≤ j ∧ j < data.length ∧ data.getD j 0 = 10 ∧
        (∀ i, o ≤ i → i < j → data.getD i 0 ≠ 10) ∧ (get_record data o).2.2 = j + 1) ∨
      ((∀ i, o ≤ i → i < data.length → data.getD i 0 ≠ 10) ∧
        (get_record data o).2.2 = data.length)) ∧
    is_frontier data (get_record data o).2.2 ∧
    o < (get_record data o).2.2 ∧
    ∀ f, is_frontier data f → o < f → (get_record data o).2.2 ≤ f := by
  have hs := next_offset_spec data o (Nat.le_of_lt h)
  have hgt := hs.2.2.1 h
  have hfr := next_offset_frontier data o (Nat.le_of_lt h)
  change _ ∧ is_frontier data (next_offset data o) ∧ o < next_offset data o ∧
    ∀ f, is_frontier data f → o < f → next_offset data o ≤ f
  refine ⟨?_, hfr, hgt, ?_⟩
  · rcases hs.2.2.2.2 with h1 | h1
    · left
      refine ⟨next_offset data o - 1, by omega, by have := hs.2.1; omega, h1.2, ?_, ?_⟩
      · intro i hi1 hi2
        exact hs.2.2.2.1 i hi1 (by omega)
      · show next_offset data o = _
        omega
    · right
      exact ⟨h1.2, h1.1⟩
  · intro f hf hof
    rcases hf with h0 | hsz | h10
    · omega
    · rw [hsz]; exact hs.2.1
    · by_contra hc
      exact hs.2.2.2.1 (f - 1) (by omega) (by omega) h10

theorem next_offset_first_terminator_witness :
    ((∃ j, 1 ≤ j ∧ j < [49, 32, 97, 10, 50].length ∧ ([49, 32, 97, 10, 50] : List UInt8).getD j 0 = 10 ∧
        (∀ i, 1 ≤ i → i < j → ([49, 32, 97, 10, 50] : List UInt8).getD i 0 ≠ 10) ∧
        (get_record [49, 32, 97, 10, 50] 1).2.2 = j + 1) ∨
      ((∀ i, 1 ≤ i → i < [49, 32, 97, 10, 50].length →
          ([49, 32, 97, 10, 50] : List UInt8).getD i 0 ≠ 10) ∧
        (get_record [49, 32, 97, 10, 50] 1).2.2 = [49, 32, 97, 10, 50].length)) ∧
    is_frontier [49, 32, 97, 10, 50] (get_record [49, 32, 97, 10, 50] 1).2.2 ∧
    1 < (get_record [49, 32, 97, 10, 50] 1).2.2 ∧
    ∀ f, is_frontier [49, 32, 97, 10, 50] f → 1 < f →
      (get_record [49, 32, 97, 10, 50] 1).2.2 ≤ f :=
  next_offset_first_terminator [49, 32, 97, 10, 50] 1 (by decide)

/-- C16: for every buffer and every offset `<= size`, `WhyRequest::begin` returns the start
of the record containing the offset: the largest `p <= offset` such that `p = 0` or the
byte at `p - 1` is a line terminator; it returns the offset itself when the offset already
is such a record start, and is idempotent. -/
theorem begin_is_record_start (data : List UInt8) (offset : Nat) (_h : offset ≤ data.length) :
    WhyRequest.begin data offset ≤ offset ∧
    (WhyRequest.begin data offset = 0 ∨
      data.getD (WhyRequest.begin data offset - 1) 0 = 10) ∧
    (∀ p, p ≤ offset → (p = 0 ∨ data.getD (p - 1) 0 = 10) → p ≤ WhyRequest.begin data offset) ∧
    ((offset = 0 ∨ data.getD (offset - 1) 0 = 10) → WhyRequest.begin data offset = offset) ∧
    WhyRequest.begin data (WhyRequest.begin data offset) = WhyRequest.begin data offset :=
  ⟨begin_le data offset, begin_starts data offset,
    fun p hp hs => begin_ge_of_starts data p offset hs hp,
    fun hs => begin_of_starts data offset hs,
    begin_of_starts data _ (begin_starts data offset)⟩

theorem begin_is_record_start_witness :
    WhyRequest.begin [49, 32, 97, 10, 50, 32, 98] 6 ≤ 6 ∧
    (WhyRequest.begin [49, 32, 97, 10, 50, 32, 98] 6 = 0 ∨
      ([49, 32, 97, 10, 50, 32, 98] : List UInt8).getD
        (WhyRequest.begin [49, 32, 97, 10, 50, 32, 98] 6 - 1) 0 = 10) ∧
    (∀ p, p ≤ 6 → (p = 0 ∨ ([49, 32, 97, 10, 50, 32, 98] : List UInt8).getD (p - 1) 0 = 10) →
      p ≤ WhyRequest.begin [49, 32, 97, 10, 50, 32, 98] 6) ∧
    (((6 : Nat) = 0 ∨ ([49, 32, 97, 10, 50, 32, 98] : List UInt8).getD (6 - 1) 0 = 10) →
      WhyRequest.begin [49, 32, 97, 10, 50, 32, 98] 6 = 6) ∧
    WhyRequest.begin [49, 32, 97, 10, 50, 32, 98] (WhyRequest.begin [49, 32, 97, 10, 50, 32, 98] 6)
      = WhyRequest.begin [49, 32, 97, 10, 50, 32, 98] 6 :=
  begin_is_record_start [49, 32, 97, 10, 50, 32, 98] 6 (by decide)

/-- C17 at the buffer `"a\nb\n"` and offset 0, inside the first record: `WhyRequest::end`
returns 3, which is one past the start of the next record, while `get_record` at 0 reports
2 as the next offset; 3 is not even a record frontier. -/
theorem end_overshoots_next_record :
    WhyRequest.end_ [97, 10, 98, 10] 0 = 3 ∧
    (get_record [97, 10, 98, 10] (WhyRequest.begin [97, 10, 98, 10] 0)).2.2 = 2 ∧
    ¬ is_frontier [97, 10, 98, 10] 3 := by
  decide

/-! ## The fields `get_record` decodes -/

theorem drop_eq_getD_cons (data : List UInt8) (n : Nat) (h : n < data.length) :
    data.drop n = data.getD n 0 :: data.drop (n + 1) := by
  rw [List.getD_eq_getElem data 0 h]
  exact List.drop_eq_getElem_cons h

theorem run_at_of_pos (p : UInt8 → Bool) (data : List UInt8) (n : Nat) (h : n < data.length)
    (hp : p (data.getD n 0) = true) :
    run_at p data n = data.getD n 0 :: run_at p data (n + 1) := by
  unfold run_at
  rw [drop_eq_getD_cons data n h, List.takeWhile_cons_of_pos hp]

theorem run_at_of_neg (p : UInt8 → Bool) (data : List UInt8) (n : Nat)
    (hp : ¬ (n < data.length ∧ p (data.getD n 0) = true)) : run_at p data n = [] := by
  unfold run_at
  by_cases h : n < data.length
  · rw [drop_eq_getD_cons data n h, List.takeWhile_cons_of_neg (fun hc => hp ⟨h, hc⟩)]
  · rw [List.drop_eq_nil_of_le (by omega)]
    rfl

/-- The loops of `get_record` stop at the end of the maximal run of bytes that satisfy
their test. -/
theorem scan_while_eq (p : UInt8 → Bool) (data : List UInt8) :
    ∀ fuel offset, data.length - offset ≤ fuel →
      scan_while p data fuel offset = offset + (run_at p data offset).length := by
  intro fuel
  induction fuel with
  | zero =>
    intro offset h
    rw [run_at_of_neg p data offset (by omega)]
    rfl
  | succ n ih =>
    intro offset h
    unfold scan_while
    by_cases hc : offset < data.length ∧ p (data.getD offset 0) = true
    · rw [if_pos hc, ih (offset + 1) (by omega), run_at_of_pos p data offset hc.1 hc.2,
        List.length_cons]
      omega
    · rw [if_neg hc, run_at_of_neg p data offset hc]
      rfl

/-- One pass of the timestamp loop on the digit `c`. -/
theorem wrap_time_step (value : Int) (d : Int) :
    wrap_time (wrap_time (wrap_time value * 10) + d) = wrap_time (value * 10 + d) := by
  unfold wrap_time
  omega

theorem decimal_value_cons (c : UInt8) (digits : List UInt8) (value : Nat) :
    List.foldl (fun value c => value * 10 + (c.toNat - 48)) value (c :: digits) =
      List.foldl (fun value c => value * 10 + (c.toNat - 48)) (value * 10 + (c.toNat - 48))
        digits := rfl

/-- The timestamp loop stops at the end of the maximal run of digits and leaves the
decimal value of the run, reduced to the range of `time_t`. -/
theorem scan_timestamp_eq (data : List UInt8) :
    ∀ fuel offset (value : Nat), data.length - offset ≤ fuel →
      scan_timestamp data fuel offset (wrap_time value) =
        (offset + (run_at is_digit data offset).length,
         wrap_time ((List.foldl (fun value c => value * 10 + (c.toNat - 48)) value
           (run_at is_digit data offset) : Nat) : Int)) := by
  intro fuel
  induction fuel with
  | zero =>
    intro offset value h
    rw [run_at_of_neg is_digit data offset (by omega)]
    rfl
  | succ n ih =>
    intro offset value h
    unfold scan_timestamp
    by_cases hc : offset < data.length ∧ data.getD offset 0 ≥ 48 ∧ data.getD offset 0 ≤ 57
    · have hd : is_digit (data.getD offset 0) = true := by
        simp only [is_digit, decide_eq_true_eq]
        exact hc.2
      have h48 : (data.getD offset 0).toNat ≥ 48 := hc.2.1
      have hstep : wrap_time (wrap_time (wrap_time (value : Int) * 10) +
          (((data.getD offset 0).toNat : Int) - 48)) =
          wrap_time ((value * 10 + ((data.getD offset 0).toNat - 48) : Nat) : Int) := by
        rw [wrap_time_step]
        congr 1
        omega
      rw [if_pos hc, hstep, ih (offset + 1) _ (by omega), run_at_of_pos is_digit data offset hc.1 hd,
        List.length_cons, decimal_value_cons, Nat.add_assoc offset 1,
        Nat.add_comm 1 (run_at is_digit data (offset + 1)).length]
    · have hd : ¬ (offset < data.length ∧ is_digit (data.getD offset 0) = true) := by
        intro hh
        apply hc
        refine ⟨hh.1, ?_⟩
        simpa [is_digit] using hh.2
      rw [if_neg hc, run_at_of_neg is_digit data offset hd]
      rfl

theorem wrap_time_zero : wrap_time 0 = 0 := by decide

theorem take_length_takeWhile (p : UInt8 → Bool) (l : List UInt8) :
    l.take (l.takeWhile p).length = l.takeWhile p := by
  induction l with
  | nil => rfl
  | cons c cs ih =>
    rw [List.takeWhile_cons]
    split
    · rw [List.length_cons, List.take_succ_cons, ih]
    · rfl

theorem drop_length_takeWhile (p : UInt8 → Bool) (l : List UInt8) :
    l.drop (l.takeWhile p).length = l.dropWhile p := by
  induction l with
  | nil => rfl
  | cons c cs ih =>
    rw [List.takeWhile_cons, List.dropWhile_cons]
    split
    · rw [List.length_cons, List.drop_succ_cons, ih]
    · rfl

theorem head_takeWhile (p : UInt8 → Bool) (l : List UInt8) (c : UInt8)
    (h : (l.takeWhile p).head? = some c) : l.head? = some c := by
  cases l with
  | nil => simp at h
  | cons d ds =>
    rw [List.takeWhile_cons] at h
    split at h
    · simpa using h
    · simp at h

theorem head_dropWhile (p : UInt8 → Bool) (l : List UInt8) (c : UInt8)
    (h : (l.dropWhile p).head? = some c) : p c = false := by
  have := List.head?_dropWhile_not p l
  rw [h] at this
  exact this

theorem mem_takeWhile_imp (p : UInt8 → Bool) (l : List UInt8) (c : UInt8)
    (h : c ∈ l.takeWhile p) : p c = true := by
  induction l with
  | nil => simp at h
  | cons d ds ih =>
    rw [List.takeWhile_cons] at h
    split at h
    · next hd =>
      rcases List.mem_cons.1 h with e | e
      · rw [e]; exact hd
      · exact ih e
    · simp at h

/-- The offsets `get_record` leaves in the record: the query starts after the run of
digits and the run of spaces and tabs that follows, and runs to the next line terminator
or to the end of the region. -/
theorem record_at_query (data : List UInt8) (offset : Nat) :
    (record_at data offset).query =
      offset + (run_at is_digit data offset).length +
        (run_at is_space data (offset + (run_at is_digit data offset).length)).length ∧
    (record_at data offset).query_size =
      (run_at not_newline data (record_at data offset).query).length := by
  have hts := scan_timestamp_eq data (data.length - offset) offset 0 (Nat.le_refl _)
  have h0 : wrap_time ((0 : Nat) : Int) = 0 := wrap_time_zero
  rw [h0] at hts
  have h1 : (scan_timestamp data (data.length - offset) offset 0).1 =
      offset + (run_at is_digit data offset).length := by
    rw [hts]
  have hq : (record_at data offset).query =
      scan_while is_space data
        (data.length - (scan_timestamp data (data.length - offset) offset 0).1)
        (scan_timestamp data (data.length - offset) offset 0).1 := rfl
  have hsz : (record_at data offset).query_size =
      scan_while not_newline data (data.length - (record_at data offset).query)
        (record_at data offset).query - (record_at data offset).query := rfl
  rw [scan_while_eq is_space data _ _ (Nat.le_refl _), h1] at hq
  rw [scan_while_eq not_newline data _ _ (Nat.le_refl _)] at hsz
  exact ⟨hq, by omega⟩

/-- C15: for every buffer and offset, the raw query span decoded by `get_record` starts at
the first byte after the leading digit run and the following run of spaces and tabs, and
extends up to but excluding the next line terminator (or to the buffer end): it contains
no line terminator, does not start with a space or tab, and the record is valid if and
only if the timestamp is non-zero and the span has non-zero length. -/
theorem raw_query_span (data : List UInt8) (offset : Nat) :
    (get_record data offset).2.1.query =
      offset + (run_at is_digit data offset).length +
        (run_at is_space data (offset + (run_at is_digit data offset).length)).length ∧
    ((get_record data offset).2.1.get_raw_query data).str =
      run_at not_newline data (get_record data offset).2.1.query ∧
    (get_record data offset).2.1.query_size =
      (run_at not_newline data (get_record data offset).2.1.query).length ∧
    (10 : UInt8) ∉ ((get_record data offset).2.1.get_raw_query data).str ∧
    (∀ c, ((get_record data offset).2.1.get_raw_query data).str.head? = some c →
      c ≠ 32 ∧ c ≠ 9) ∧
    ((get_record data offset).2.1.valid = true ↔
      (get_record data offset).2.1.timestamp ≠ 0 ∧
        (get_record data offset).2.1.query_size ≠ 0) := by
  obtain ⟨hq, hsz⟩ := record_at_query data offset
  change (record_at data offset).query = _ ∧
    ((record_at data offset).get_raw_query data).str = _ ∧
    (record_at data offset).query_size = _ ∧
    (10 : UInt8) ∉ ((record_at data offset).get_raw_query data).str ∧
    (∀ c, ((record_at data offset).get_raw_query data).str.head? = some c → c ≠ 32 ∧ c ≠ 9) ∧
    ((record_at data offset).valid = true ↔
      (record_at data offset).timestamp ≠ 0 ∧ (record_at data offset).query_size ≠ 0)
  have hspan : ((record_at data offset).get_raw_query data).str =
      run_at not_newline data (record_at data offset).query := by
    unfold WhyRequest.get_raw_query
    simp only
    rw [hsz]
    exact take_length_takeWhile not_newline _
  refine ⟨hq, hspan, hsz, ?_, ?_, ?_⟩
  · rw [hspan]
    intro hmem
    have := mem_takeWhile_imp not_newline _ _ hmem
    exact absurd this (by decide)
  · intro c hc
    rw [hspan] at hc
    have h1 := head_takeWhile not_newline _ c hc
    rw [hq, ← List.drop_drop] at h1
    unfold run_at at h1
    rw [drop_length_takeWhile] at h1
    have h2 := head_dropWhile is_space _ c h1
    constructor
    · intro e; rw [e] at h2; exact absurd h2 (by decide)
    · intro e; rw [e] at h2; exact absurd h2 (by decide)
  · show ((scan_timestamp data (data.length - offset) offset 0).2 != 0 &&
        (record_at data offset).query_size != 0) = true ↔
      (scan_timestamp data (data.length - offset) offset 0).2 ≠ 0 ∧
        (record_at data offset).query_size ≠ 0
    simp

theorem raw_query_span_witness :
    (get_record [49, 50, 32, 97, 10] 0).2.1.query =
      0 + (run_at is_digit [49, 50, 32, 97, 10] 0).length +
        (run_at is_space [49, 50, 32, 97, 10]
          (0 + (run_at is_digit [49, 50, 32, 97, 10] 0).length)).length ∧
    ((get_record [49, 50, 32, 97, 10] 0).2.1.get_raw_query [49, 50, 32, 97, 10]).str =
      run_at not_newline [49, 50, 32, 97, 10] (get_record [49, 50, 32, 97, 10] 0).2.1.query ∧
    (get_record [49, 50, 32, 97, 10] 0).2.1.query_size =
      (run_at not_newline [49, 50, 32, 97, 10]
        (get_record [49, 50, 32, 97, 10] 0).2.1.query).length ∧
    (10 : UInt8) ∉ ((get_record [49, 50, 32, 97, 10] 0).2.1.get_raw_query
      [49, 50, 32, 97, 10]).str ∧
    (∀ c, ((get_record [49, 50, 32, 97, 10] 0).2.1.get_raw_query
        [49, 50, 32, 97, 10]).str.head? = some c → c ≠ 32 ∧ c ≠ 9) ∧
    ((get_record [49, 50, 32, 97, 10] 0).2.1.valid = true ↔
      (get_record [49, 50, 32, 97, 10] 0).2.1.timestamp ≠ 0 ∧
        (get_record [49, 50, 32, 97, 10] 0).2.1.query_size ≠ 0) :=
  raw_query_span [49, 50, 32, 97, 10] 0

/-! ## The decoded query -/

theorem get_query_loop_append (a b : List UInt8) :
    ∀ s, get_query_loop (a ++ b) s = get_query_loop b (get_query_loop a s) := by
  induction a with
  | nil => intro s; rfl
  | cons c cs ih => intro s; exact ih (get_query_step s c)

/-- The string a pass of the loop appends does not depend on the string so far. -/
theorem get_query_step_str (s : DecodeState) (c : UInt8) :
    get_query_step s c =
      { esc := (get_query_step { s with str := [] } c).esc,
        hex := (get_query_step { s with str := [] } c).hex,
        str := s.str ++ (get_query_step { s with str := [] } c).str } := by
  unfold get_query_step
  simp only []
  split
  · simp
  · split
    · simp
    · split
      · simp
      · split <;> split <;> simp_all

theorem get_query_loop_str (w : List UInt8) :
    ∀ s : DecodeState, get_query_loop w s =
      { esc := (get_query_loop w { s with str := [] }).esc,
        hex := (get_query_loop w { s with str := [] }).hex,
        str := s.str ++ (get_query_loop w { s with str := [] }).str } := by
  induction w with
  | nil => intro s; simp [get_query_loop]
  | cons c cs ih =>
    intro s
    show get_query_loop cs (get_query_step s c) = _
    have h1 := ih (get_query_step s c)
    have h2 := ih (get_query_step { s with str := [] } c)
    have h3 := get_query_step_str s c
    show _ = DecodeState.mk
      (get_query_loop cs (get_query_step { s with str := [] } c)).esc
      (get_query_loop cs (get_query_step { s with str := [] } c)).hex
      (s.str ++ (get_query_loop cs (get_query_step { s with str := [] } c)).str)
    rw [h1, h2]
    have e1 : ({ get_query_step s c with str := [] } : DecodeState) =
        { get_query_step { s with str := [] } c with str := [] } := by
      rw [h3]
    rw [e1]
    have e2 : (get_query_step s c).str = s.str ++ (get_query_step { s with str := [] } c).str := by
      rw [h3]
    rw [e2]
    simp

/-- Outside an escape the value of `hex` has no effect on what is decoded next. -/
theorem get_query_loop_hex (w : List UInt8) :
    ∀ (h1 h2 : Int) (str : List UInt8),
      (get_query_loop w { esc := 0, hex := h1, str := str }).str =
        (get_query_loop w { esc := 0, hex := h2, str := str }).str := by
  induction w with
  | nil => intro h1 h2 str; rfl
  | cons c cs ih =>
    intro h1 h2 str
    show (get_query_loop cs (get_query_step _ c)).str = (get_query_loop cs (get_query_step _ c)).str
    unfold get_query_step
    simp only []
    split
    · exact ih h1 h2 _
    · split
      · rfl
      · simp only [if_true]
        exact ih h1 h2 _

/-- What is decoded after a state outside an escape: the decoded form of the rest. -/
theorem get_query_loop_outside (w : List UInt8) (h : Int) (str : List UInt8) :
    (get_query_loop w { esc := 0, hex := h, str := str }).str = str ++ decode_query w := by
  rw [get_query_loop_hex w h 0 str, get_query_loop_str w]
  rfl

/-- A query without `'%'` is decoded byte by byte, `'+'` as a space. -/
theorem get_query_loop_plain (q : List UInt8) (hq : (37 : UInt8) ∉ q) :
    ∀ (h : Int) (str : List UInt8),
      get_query_loop q { esc := 0, hex := h, str := str } =
        { esc := 0, hex := h, str := str ++ q.map (fun c => if c = 43 then 32 else c) } := by
  induction q with
  | nil => intro h str; simp [get_query_loop]
  | cons c cs ih =>
    intro h str
    have hc : c ≠ 37 := fun e => hq (by simp [e])
    have hcs : (37 : UInt8) ∉ cs := fun e => hq (List.mem_cons_of_mem _ e)
    show get_query_loop cs (get_query_step _ c) = _
    unfold get_query_step
    simp only []
    by_cases h43 : c = 43
    · rw [if_pos h43, ih hcs]
      simp [h43]
    · rw [if_neg h43, if_neg hc, if_pos trivial, ih hcs]
      simp [h43]

theorem is_hex_digit_value (c : UInt8) (h : is_hex_digit c = true) :
    0 ≤ hex_value c ∧ hex_value c ≤ 15 ∧ c ≠ 43 ∧ c ≠ 37 := by
  simp only [is_hex_digit, decide_eq_true_eq] at h
  have h43 : c ≠ 43 := by
    intro e; rw [e] at h; exact absurd h (by decide)
  have h37 : c ≠ 37 := by
    intro e; rw [e] at h; exact absurd h (by decide)
  refine ⟨?_, ?_, h43, h37⟩
  · unfold hex_value
    split
    · next h1 => have : c.toNat ≥ 48 := h1.1; omega
    · split
      · next _ h1 => have : c.toNat ≥ 65 := h1.1; omega
      · split
        · next _ _ h1 => have : c.toNat ≥ 97 := h1.1; omega
        · next n1 n2 n3 => exact absurd h (by tauto)
  · unfold hex_value
    split
    · next h1 => have : c.toNat ≤ 57 := h1.2; omega
    · split
      · next _ h1 => have : c.toNat ≤ 70 := h1.2; omega
      · split
        · next _ _ h1 => have : c.toNat ≤ 102 := h1.2; omega
        · omega

/-- The two passes of the loop after a `'%'`, on bytes other than `'+'` and `'%'`. -/
theorem get_query_escape (c1 c2 : UInt8) (str : List UInt8)
    (h1 : c1 ≠ 43 ∧ c1 ≠ 37) (h2 : c2 ≠ 43 ∧ c2 ≠ 37) :
    get_query_step (get_query_step { esc := 2, hex := 0, str := str } c1) c2 =
      { esc := 0,
        hex := if hex_value c2 ≠ -1 ∧ hex_value c1 ≠ -1 then hex_value c1 * 16 + hex_value c2
          else -1,
        str := if (if hex_value c2 ≠ -1 ∧ hex_value c1 ≠ -1 then
              hex_value c1 * 16 + hex_value c2 else -1) > 0 then
            str ++ [UInt8.ofNat (if hex_value c2 ≠ -1 ∧ hex_value c1 ≠ -1 then
              hex_value c1 * 16 + hex_value c2 else -1).toNat]
          else str } := by
  have e1 : get_query_step { esc := 2, hex := 0, str := str } c1 =
      { esc := 1, hex := hex_value c1, str := str } := by
    unfold get_query_step
    simp only []
    rw [if_neg h1.1, if_neg h1.2, if_neg (by decide)]
    by_cases hv : hex_value c1 = -1
    · simp [hv]
    · simp [hv]
  rw [e1]
  unfold get_query_step
  simp only []
  rw [if_neg h2.1, if_neg h2.2, if_neg (by decide)]
  simp

theorem not_hex_digit_value (c : UInt8) (h : is_hex_digit c = false) : hex_value c = -1 := by
  simp only [is_hex_digit, decide_eq_false_iff_not, not_or] at h
  unfold hex_value
  rw [if_neg h.1, if_neg h.2.1, if_neg h.2.2]

theorem decode_query_plain (q : List UInt8) (hq : (37 : UInt8) ∉ q) :
    decode_query q = q.map (fun c => if c = 43 then 32 else c) := by
  unfold decode_query
  rw [get_query_loop_plain q hq]
  simp

/-- The decoded form of a query without `'%'`, then `'%'`, two bytes other than `'+'` and
`'%'`, then any bytes. -/
theorem decode_query_escape (q w : List UInt8) (c1 c2 : UInt8) (hq : (37 : UInt8) ∉ q)
    (h1 : c1 ≠ 43 ∧ c1 ≠ 37) (h2 : c2 ≠ 43 ∧ c2 ≠ 37) :
    decode_query (q ++ [37, c1, c2] ++ w) =
      decode_query q ++
        (if (if hex_value c2 ≠ -1 ∧ hex_value c1 ≠ -1 then
              hex_value c1 * 16 + hex_value c2 else -1) > 0 then
            [UInt8.ofNat (if hex_value c2 ≠ -1 ∧ hex_value c1 ≠ -1 then
              hex_value c1 * 16 + hex_value c2 else -1).toNat]
          else []) ++ decode_query w := by
  have e37 : ∀ str : List UInt8,
      get_query_loop [37, c1, c2] { esc := 0, hex := 0, str := str } =
        get_query_step (get_query_step { esc := 2, hex := 0, str := str } c1) c2 := by
    intro str
    rfl
  rw [decode_query_plain q hq]
  unfold decode_query
  rw [get_query_loop_append, get_query_loop_append, get_query_loop_plain q hq, e37,
    get_query_escape c1 c2 _ h1 h2, get_query_loop_outside]
  generalize (if hex_value c2 ≠ -1 ∧ hex_value c1 ≠ -1 then
    hex_value c1 * 16 + hex_value c2 else -1) = v
  by_cases hv : v > 0
  · simp [hv, decode_query]
  · simp [hv, decode_query]

theorem ofNat_toNat (c : UInt8) : UInt8.ofNat c.toNat = c := by
  apply UInt8.ext
  have h := UInt8.toNat_lt c
  show c.toNat % 256 = c.toNat
  omega

set_option maxRecDepth 100000 in
/-- On each of the 22 hexadecimal digits, `hex_value` returns the numeric value of the
digit. -/
theorem hex_value_of_digit (c : UInt8) (h : is_hex_digit c = true) :
    hex_value c = (hex_digit_value c : Int) ∧ hex_digit_value c ≤ 15 := by
  have key : ∀ n, n < 256 → is_hex_digit (UInt8.ofNat n) = true →
      hex_value (UInt8.ofNat n) = (hex_digit_value (UInt8.ofNat n) : Int) ∧
        hex_digit_value (UInt8.ofNat n) ≤ 15 := by
    decide
  have h' := key c.toNat (UInt8.toNat_lt c)
  rw [ofNat_toNat] at h'
  exact h' h

/-- C18: for every raw query `q` containing no `'%'` byte, every pair of hexadecimal digits
`X`, `Y` (upper or lower case) and every raw suffix `w`,
`get_query(q ++ '%XY' ++ w) = get_query(q) ++ [the byte 16*hex(X)+hex(Y)] ++ get_query(w)`
when that byte is non-zero, and `get_query(q) ++ get_query(w)` when it is zero, where
`hex` is the numeric value of the digit; outside escapes `'+'` decodes to a space and
every other byte to itself; `"a+b%20c%2Fd%zz"` decodes to `"a b c/d"`, and `"%6a%4A"` to
`"jJ"`. -/
theorem decode_hex_escape (q w : List UInt8) (X Y : UInt8) (hq : (37 : UInt8) ∉ q)
    (hX : is_hex_digit X = true) (hY : is_hex_digit Y = true) :
    decode_query (q ++ [37, X, Y] ++ w) =
      decode_query q ++
        (if 16 * hex_digit_value X + hex_digit_value Y ≠ 0 then
          [UInt8.ofNat (16 * hex_digit_value X + hex_digit_value Y)] else []) ++
        decode_query w ∧
    decode_query q = q.map (fun c => if c = 43 then 32 else c) ∧
    decode_query [97, 43, 98, 37, 50, 48, 99, 37, 50, 70, 100, 37, 122, 122] =
      [97, 32, 98, 32, 99, 47, 100] ∧
    decode_query [37, 54, 97, 37, 52, 65] = [106, 74] := by
  obtain ⟨x0, x15, x43, x37⟩ := is_hex_digit_value X hX
  obtain ⟨y0, y15, y43, y37⟩ := is_hex_digit_value Y hY
  obtain ⟨ex, _⟩ := hex_value_of_digit X hX
  obtain ⟨ey, _⟩ := hex_value_of_digit Y hY
  refine ⟨?_, decode_query_plain q hq, by decide, by decide⟩
  rw [decode_query_escape q w X Y hq ⟨x43, x37⟩ ⟨y43, y37⟩]
  have hc : (hex_value Y ≠ -1 ∧ hex_value X ≠ -1) := ⟨by omega, by omega⟩
  rw [if_pos hc, ex, ey]
  have e : (hex_digit_value X : Int) * 16 + (hex_digit_value Y : Int) =
      ((16 * hex_digit_value X + hex_digit_value Y : Nat) : Int) := by
    push_cast
    omega
  rw [e]
  by_cases hz : 16 * hex_digit_value X + hex_digit_value Y = 0
  · rw [if_neg (by omega), if_neg (by simp [hz])]
  · rw [if_pos (by omega), if_pos hz, Int.toNat_ofNat]

/-- C18 on `"a+" ++ "%2F" ++ "b"` and on `"" ++ "%6a" ++ ""`: the escapes decode to `'/'`
(47) and to `'j'` (106). -/
theorem decode_hex_escape_witness :
    hex_digit_value 50 = 2 ∧ hex_digit_value 70 = 15 ∧
    decode_query ([97, 43] ++ [37, 50, 70] ++ [98]) = decode_query [97, 43] ++ [47] ++
      decode_query [98] ∧
    hex_digit_value 54 = 6 ∧ hex_digit_value 97 = 10 ∧
    decode_query ([] ++ [37, 54, 97] ++ []) = decode_query [] ++ [106] ++ decode_query [] :=
  ⟨by decide, by decide,
    (decode_hex_escape [97, 43] [98] 50 70 (by decide) (by decide) (by decide)).1,
    by decide, by decide,
    (decode_hex_escape [] [] 54 97 (by decide) (by decide) (by decide)).1⟩

/-- C19, as amended: for every raw query `q` containing no `'%'` byte, every two bytes
`c1`, `c2` other than `'+'` and `'%'` of which at least one is not a hexadecimal digit,
and every raw suffix `w`, `get_query(q ++ '%' ++ c1 ++ c2 ++ w) = get_query(q) ++
get_query(w)`: the two bytes after `'%'` are consumed and dropped, and nothing is appended
for them. -/
theorem decode_invalid_escape (q w : List UInt8) (c1 c2 : UInt8) (hq : (37 : UInt8) ∉ q)
    (h1 : c1 ≠ 43 ∧ c1 ≠ 37) (h2 : c2 ≠ 43 ∧ c2 ≠ 37)
    (hbad : is_hex_digit c1 = false ∨ is_hex_digit c2 = false) :
    decode_query (q ++ [37, c1, c2] ++ w) = decode_query q ++ decode_query w := by
  rw [decode_query_escape q w c1 c2 hq h1 h2]
  have hc : ¬ (hex_value c2 ≠ -1 ∧ hex_value c1 ≠ -1) := by
    rintro ⟨a, b⟩
    rcases hbad with h | h
    · exact b (not_hex_digit_value c1 h)
    · exact a (not_hex_digit_value c2 h)
  rw [if_neg hc, if_neg (by decide)]
  simp

theorem decode_invalid_escape_witness :
    decode_query ([97] ++ [37, 122, 50] ++ [98]) = decode_query [97] ++ decode_query [98] :=
  decode_invalid_escape [97] [98] 122 50 (by decide) (by decide) (by decide) (by decide)

/-- C19 as stated fails when one of the two bytes after `'%'` is `'+'` or `'%'`: the loop
handles these two characters before it looks at the escape. `"%+41"` decodes to `" A"`
and `"%4+1"` to `" A"` where the claim gives `"1"`; `"%%41"` decodes to `"A"` where the
claim gives `"1"`, and `"%4%41"` to `"A"` where the claim gives `"41"`. -/
theorem decode_escape_plus_percent :
    (is_hex_digit 43 = false ∧
      decode_query ([] ++ [37, 43, 52] ++ [49]) = [32, 65] ∧
      decode_query [] ++ decode_query [49] = [49]) ∧
    (is_hex_digit 37 = false ∧
      decode_query ([] ++ [37, 37, 52] ++ [49]) = [65] ∧
      decode_query [] ++ decode_query [49] = [49]) ∧
    (decode_query ([] ++ [37, 52, 43] ++ [49]) = [32, 65] ∧
      decode_query [] ++ decode_query [49] = [49]) ∧
    (decode_query ([] ++ [37, 52, 37] ++ [52, 49]) = [65] ∧
      decode_query [] ++ decode_query [52, 49] = [52, 49]) := by
  decide

/-! ## One record per line -/

theorem count_drop_none (data : List UInt8) :
    ∀ n cur, data.length - cur ≤ n →
      (∀ i, cur ≤ i → i < data.length → data.getD i 0 ≠ 10) →
      (data.drop cur).count 10 = 0 := by
  intro n
  induction n with
  | zero =>
    intro cur h _
    rw [List.drop_eq_nil_of_le (by omega)]
    rfl
  | succ n ih =>
    intro cur h hno
    by_cases hc : cur < data.length
    · rw [drop_eq_getD_cons data cur hc, List.count_cons_of_ne (Ne.symm (hno cur (Nat.le_refl _) hc))]
      exact ih (cur + 1) (by omega) (fun i hi1 hi2 => hno i (by omega) hi2)
    · rw [List.drop_eq_nil_of_le (by omega)]
      rfl

theorem count_drop_first (data : List UInt8) (j : Nat) (hj : j < data.length)
    (h10 : data.getD j 0 = 10) :
    ∀ n cur, j - cur ≤ n → cur ≤ j →
      (∀ i, cur ≤ i → i < j → data.getD i 0 ≠ 10) →
      (data.drop cur).count 10 = (data.drop (j + 1)).count 10 + 1 := by
  intro n
  induction n with
  | zero =>
    intro cur h1 h2 _
    have e : cur = j := by omega
    rw [e, drop_eq_getD_cons data j hj, h10, List.count_cons_self]
  | succ n ih =>
    intro cur h1 h2 hno
    by_cases e : cur = j
    · rw [e, drop_eq_getD_cons data j hj, h10, List.count_cons_self]
    · rw [drop_eq_getD_cons data cur (by omega),
        List.count_cons_of_ne (Ne.symm (hno cur (Nat.le_refl _) (by omega)))]
      exact ih (cur + 1) (by omega) (by omega) (fun i hi1 hi2 => hno i (by omega) hi2)

/-- The number of records visited from a cursor: one per line terminator from the cursor
on, and one more for a last line without terminator. -/
theorem records_length (data : List UInt8) :
    ∀ n cur, data.length - cur ≤ n → cur ≤ data.length →
      (RecordLocation.records data cur).length =
        (data.drop cur).count 10 +
          (if cur < data.length ∧ data.getD (data.length - 1) 0 ≠ 10 then 1 else 0) := by
  intro n
  induction n with
  | zero =>
    intro cur h1 h2
    have e : cur = data.length := by omega
    rw [e, records_end, List.drop_eq_nil_of_le (Nat.le_refl _), if_neg (by omega)]
    rfl
  | succ n ih =>
    intro cur h1 h2
    by_cases e : cur = data.length
    · rw [e, records_end, List.drop_eq_nil_of_le (Nat.le_refl _), if_neg (by omega)]
      rfl
    · have hlt : cur < data.length := Nat.lt_of_le_of_ne h2 e
      have hs := next_offset_spec data cur h2
      have hgt := hs.2.2.1 hlt
      rw [records_unfold data cur hlt, List.length_cons,
        ih (next_offset data cur) (by omega) hs.2.1]
      rcases hs.2.2.2.2 with hA | hB
      · have hcount := count_drop_first data (next_offset data cur - 1) (by have := hs.2.1; omega)
          hA.2 (next_offset data cur - 1 - cur) cur (Nat.le_refl _) (by omega)
          (fun i hi1 hi2 => hs.2.2.2.1 i hi1 (by omega))
        have e1 : next_offset data cur - 1 + 1 = next_offset data cur := by omega
        rw [e1] at hcount
        rw [hcount]
        by_cases hn : next_offset data cur < data.length
        · by_cases hl : data.getD (data.length - 1) 0 ≠ 10
          · rw [if_pos ⟨hn, hl⟩, if_pos ⟨hlt, hl⟩]
          · rw [if_neg (fun h => hl h.2), if_neg (fun h => hl h.2)]
        · have e2 : next_offset data cur = data.length := by have := hs.2.1; omega
          have hl : ¬ data.getD (data.length - 1) 0 ≠ 10 := by
            rw [← e2]; exact fun h => h hA.2
          rw [if_neg (fun h => hn h.1), if_neg (fun h => hl h.2)]
      · have hcount := count_drop_none data (data.length - cur) cur (Nat.le_refl _) hB.2
        have hl : data.getD (data.length - 1) 0 ≠ 10 := hB.2 _ (by omega) (by omega)
        rw [hcount, hB.1, List.drop_eq_nil_of_le (Nat.le_refl _), if_neg (by omega),
          if_pos ⟨hlt, hl⟩]
        rfl

theorem getLast_eq_getD (data : List UInt8) (h : data ≠ []) :
    data.getLast? = some (data.getD (data.length - 1) 0) := by
  have hpos : 0 < data.length := List.length_pos.2 h
  rw [List.getLast?_eq_getElem?, List.getD_eq_getElem data 0 (by omega),
    List.getElem?_eq_getElem (by omega)]

/-- C20: for every buffer, iterating from `begin()` (offset 0) to the end visits exactly
one record per line: the number of records visited equals the number of line terminators
in the buffer, plus one when the buffer is non-empty and its last byte is not a line
terminator; so a non-empty buffer without line terminator is read as exactly one record,
and an empty buffer yields zero records and, when `parse_records` iterates from `begin()`
(with the default configuration, and whenever `fast_seek && from > jitter` is false), a
distinct count of 0. -/
theorem one_record_per_line (data : List UInt8) :
    (RecordLocation.records data 0).length =
      data.count 10 + (if data ≠ [] ∧ data.getLast? ≠ some 10 then 1 else 0) ∧
    (data ≠ [] → (10 : UInt8) ∉ data → (RecordLocation.records data 0).length = 1) ∧
    RecordLocation.records [] 0 = [] ∧
    (YParser.open_file []).position = .ok 0 ∧
    (YParser.open_file []).after_parse.map YParser.get_distinct_queries = .ok 0 ∧
    ∀ (from_ to_ jitter : Int) (fast_seek : Bool), ¬ (fast_seek = true ∧ from_ > jitter) →
      (YParser.configure [] from_ to_ fast_seek jitter).position = .ok 0 ∧
      (YParser.configure [] from_ to_ fast_seek jitter).after_parse.map
        YParser.get_distinct_queries = .ok 0 := by
  have hlen := records_length data data.length 0 (by omega) (Nat.zero_le _)
  rw [List.drop_zero] at hlen
  have hmain : (RecordLocation.records data 0).length =
      data.count 10 + (if data ≠ [] ∧ data.getLast? ≠ some 10 then 1 else 0) := by
    rw [hlen]
    by_cases hne : data = []
    · subst hne; rfl
    · have hpos : 0 < data.length := List.length_pos.2 hne
      rw [getLast_eq_getD data hne]
      by_cases hl : data.getD (data.length - 1) 0 = 10
      · rw [if_neg (fun h => h.2 hl), if_neg (fun h => h.2 (by rw [hl]))]
      · rw [if_pos ⟨hpos, hl⟩, if_pos ⟨hne, fun h => hl (Option.some.inj h)⟩]
  refine ⟨hmain, ?_, rfl, by decide, by decide, ?_⟩
  · intro hne hno
    have hlast : data.getLast? ≠ some 10 := fun hlast => hno (List.mem_of_mem_getLast? hlast)
    rw [hmain, List.count_eq_zero_of_not_mem hno, if_pos ⟨hne, hlast⟩]
  · intro from_ to_ jitter fast_seek hseek
    have hpos : (YParser.configure [] from_ to_ fast_seek jitter).position = .ok 0 :=
      position_slow _ hseek
    refine ⟨hpos, ?_⟩
    unfold YParser.after_parse
    rw [parse_records_of_position _ 0 hpos]
    rfl

theorem one_record_per_line_witness :
    (RecordLocation.records [49, 32, 97] 0).length =
      ([49, 32, 97] : List UInt8).count 10 +
        (if ([49, 32, 97] : List UInt8) ≠ [] ∧ ([49, 32, 97] : List UInt8).getLast? ≠ some 10
          then 1 else 0) ∧
    (([49, 32, 97] : List UInt8) ≠ [] → (10 : UInt8) ∉ ([49, 32, 97] : List UInt8) →
      (RecordLocation.records [49, 32, 97] 0).length = 1) ∧
    RecordLocation.records [] 0 = [] ∧
    (YParser.configure [] 0 9 true 900).position = .ok 0 ∧
    (YParser.configure [] 0 9 true 900).after_parse.map YParser.get_distinct_queries = .ok 0 :=
  ⟨(one_record_per_line [49, 32, 97]).1, (one_record_per_line [49, 32, 97]).2.1,
    (one_record_per_line [49, 32, 97]).2.2.1,
    (one_record_per_line [49, 32, 97]).2.2.2.2.2 0 9 900 true (by decide)⟩

/-! ## Running the aggregation again -/

/-- The table the scan loop builds: the tally of the records it counts. -/
theorem scan_tally (p : YParser) :
    ∀ (l : List (Nat × WhyRequest)) (s : ScanState),
      (p.scan l s).wordMap =
        tally p.data s.wordMap (counted p.from_ p.to_ p.fast_seek p.jitter l) := by
  intro l
  induction l with
  | nil => intro s; rfl
  | cons x rest ih =>
    intro s
    obtain ⟨o, record⟩ := x
    unfold YParser.scan counted
    simp only []
    split
    · exact ih _
    · split
      · rw [tally_cons]
        exact ih _
      · split
        · rfl
        · exact ih _

theorem increment_cons (key : RefString) (count : Nat) (rest : WordMap) (q : RefString) :
    WordMap.increment ((key, count) :: rest) q =
      if RefString.eq key q = true then (key, wrap_unsigned (count + 1)) :: rest
      else (key, count) :: WordMap.increment rest q := rfl

/-- The loop of `WhyRequest::end` stops at the first offset from `offset` on that is the
end of the region or follows a line terminator. -/
theorem end_scan_spec (data : List UInt8) :
    ∀ fuel offset, data.length - offset ≤ fuel → offset ≤ data.length →
      offset ≤ end_scan data fuel offset ∧ end_scan data fuel offset ≤ data.length ∧
      (end_scan data fuel offset = data.length ∨
        (end_scan data fuel offset ≠ 0 ∧ data.getD (end_scan data fuel offset - 1) 0 = 10)) ∧
      ∀ i, offset ≤ i → i < end_scan data fuel offset → (i = 0 ∨ data.getD (i - 1) 0 ≠ 10) := by
  intro fuel
  induction fuel with
  | zero =>
    intro offset h1 h2
    have e : offset = data.length := by omega
    simp only [end_scan]
    exact ⟨Nat.le_refl _, h2, Or.inl e, fun i hi1 hi2 => by omega⟩
  | succ n ih =>
    intro offset h1 h2
    unfold end_scan
    by_cases hc : offset < data.length ∧ (offset = 0 ∨ data.getD (offset - 1) 0 ≠ 10)
    · rw [if_pos hc]
      obtain ⟨a, b, c, d⟩ := ih (offset + 1) (by omega) hc.1
      refine ⟨by omega, b, c, ?_⟩
      intro i hi1 hi2
      rcases Nat.eq_or_lt_of_le hi1 with e | l
      · rw [← e]; exact hc.2
      · exact d i l hi2
    · rw [if_neg hc]
      refine ⟨Nat.le_refl _, h2, ?_, fun i hi1 hi2 => by omega⟩
      by_cases hs : offset = data.length
      · exact Or.inl hs
      · right
        have hlt : offset < data.length := Nat.lt_of_le_of_ne h2 hs
        have h3 : ¬ (offset = 0 ∨ data.getD (offset - 1) 0 ≠ 10) := fun h => hc ⟨hlt, h⟩
        simp only [not_or, ne_eq, not_not] at h3
        exact h3

/-- From an offset strictly inside a record (not its first byte) whose line terminator is
not the last byte of the region, `WhyRequest::end` returns one more than the start of the
next record. -/
theorem end_overshoots (data : List UInt8) (o : Nat) (h : o < data.length)
    (hin : WhyRequest.begin data o < o)
    (hnext : next_offset data (WhyRequest.begin data o) < data.length) :
    WhyRequest.end_ data o = next_offset data (WhyRequest.begin data o) + 1 := by
  have hb := begin_inside data o
  have hs := next_offset_spec data (WhyRequest.begin data o) (by omega)
  obtain ⟨e1, e2, e3, e4⟩ := end_scan_spec data (data.length - o) o (Nat.le_refl _) (Nat.le_of_lt h)
  have hfe : is_frontier data (end_scan data (data.length - o) o) := by
    rcases e3 with h1 | h1
    · exact Or.inr (Or.inl h1)
    · exact Or.inr (Or.inr h1.2)
  have hge := next_offset_le_frontier data (WhyRequest.begin data o)
    (end_scan data (data.length - o) o) (by omega) e2 hfe
  have h10 : data.getD (next_offset data (WhyRequest.begin data o) - 1) 0 = 10 := by
    rcases hs.2.2.2.2 with h1 | h1
    · exact h1.2
    · omega
  have hno : o < next_offset data (WhyRequest.begin data o) := by
    by_contra hc
    have hgt := hs.2.2.1 (by omega)
    exact hb (next_offset data (WhyRequest.begin data o) - 1) (by omega) (by omega) h10
  have hle : end_scan data (data.length - o) o ≤ next_offset data (WhyRequest.begin data o) := by
    by_contra hc
    rcases e4 (next_offset data (WhyRequest.begin data o)) (by omega) (by omega) with h0 | h1
    · omega
    · exact h1 h10
  unfold WhyRequest.end_
  simp only []
  rw [if_pos (by omega)]
  omega

/-! ## The key of the table: the equality and the hash of `RefString` -/

/-- On keys without a NUL byte, keys that `RefString::operator==` holds between have the
same hash. -/
theorem hash_eq_of_eq (a b : RefString) (h0 : 0 ∉ a.str) (h : RefString.eq a b = true) :
    RefString.hash a = RefString.hash b := by
  rw [(RefString.eq_iff a b h0).1 h]

/-- C21 at the keys `a\0b` and `a\0c`: the two have the same length and differ in the byte
at position 2, yet `RefString::operator==` holds between them in both directions, the
comparison by `strncmp` ending at the NUL byte at position 1. -/
theorem refstring_eq_stops_at_nul :
    RefString.len { str := [97, 0, 98] } = RefString.len { str := [97, 0, 99] } ∧
    ([97, 0, 98] : List UInt8).getD 2 0 ≠ ([97, 0, 99] : List UInt8).getD 2 0 ∧
    RefString.eq { str := [97, 0, 98] } { str := [97, 0, 99] } = true ∧
    RefString.eq { str := [97, 0, 99] } { str := [97, 0, 98] } = true := by
  decide

/-- C22 at the keys `a\0b` and `a\0c`: `RefString::operator==` holds between them, and
`RefString::hash()` gives them different values. -/
theorem refstring_eq_hash_differs :
    RefString.eq { str := [97, 0, 98] } { str := [97, 0, 99] } = true ∧
    RefString.hash { str := [97, 0, 98] } ≠ RefString.hash { str := [97, 0, 99] } := by
  decide

/-! ## The queue of `get_top_queries`: `top()` and `pop()` -/

/-- With `top_queries >= 1` the selection loop ends without a read of `top()` on an empty
queue, whatever the table. -/
theorem select_loop_ok (k : Nat) (hk : 1 ≤ k) (wordMap : WordMap) :
    ∃ min_heap, select_loop k wordMap [] = .ok min_heap := by
  obtain ⟨heap, _, h, _⟩ := select_loop_spec k hk wordMap [] List.Pairwise.nil (Nat.zero_le _)
  exact ⟨heap, h⟩

theorem emit_loop_empty_pops (l : List RefStringPriorityPair) :
    ∀ (out : TopQueries), (emit_loop l [] out).empty_pops = out.empty_pops + l.length := by
  induction l with
  | nil => intro out; simp [emit_loop]
  | cons e rest ih =>
    intro out
    simp only [emit_loop, RefStringPriorityQueue.pop, List.tail_nil, List.isEmpty_nil, if_true,
      List.length_cons]
    rw [ih]
    simp only []
    omega

/-- C28 at `k = 0`: on every table with at least one entry, the selection loop finds the
test `min_heap.size() < top_queries` false at the first entry, with the queue empty, and
reads `min_heap.top()` there. -/
theorem select_loop_zero_reads_top (element : RefString × Nat)
    (rest : List (RefString × Nat)) :
    ¬ (([] : RefStringPriorityQueue).length < 0) ∧
    RefStringPriorityQueue.top [] = none ∧
    select_loop 0 (element :: rest) [] = .error Fault.empty_top := by
  simp [select_loop, RefStringPriorityQueue.top]

/-- Whenever `get_top_queries` returns a list, the loop that emits it has called
`min_heap.pop()` on the empty queue once for each element of the list. -/
theorem top_queries_empty_pops (wordMap : WordMap) (k : Nat) (r : TopQueries)
    (h : get_top_queries wordMap k = .ok r) : r.empty_pops = r.ordered_list.length := by
  unfold get_top_queries at h
  cases hs : select_loop k wordMap [] with
  | error e => rw [hs] at h; cases h
  | ok heap =>
    rw [hs] at h
    simp only [Except.ok.injEq] at h
    rw [← h, emit_loop_empty_pops, emit_loop_list]
    simp

/-- C29 at the table of the one key `a` with count 1 and `k = 1`: the selection loop
leaves the entry in the queue, the drain loop empties the queue with one `pop()`, and
the loop that emits the list of one element calls `min_heap.pop()` once more, on the
empty queue. -/
theorem emit_loop_pops_empty_queue :
    select_loop 1 [({ str := [97] }, 1)] [] = .ok [({ str := [97] }, 1)] ∧
    drain_loop [({ str := [97] }, 1)] [] = [({ str := [97] }, 1)] ∧
    emit_loop [({ str := [97] }, 1)] [] { ordered_list := [], empty_pops := 0 } =
      { ordered_list := [({ str := [97] }, 1)], empty_pops := 1 } ∧
    get_top_queries [({ str := [97] }, 1)] 1 =
      .ok { ordered_list := [({ str := [97] }, 1)], empty_pops := 1 } := by
  decide

/-! ## The binary search, pass by pass -/

theorem locate_passes_zero (data : List UInt8) (compare : WhyRequest → Int) (left right : Nat) :
    MappedRecords.locate_passes data compare 0 left right = [] := rfl

theorem locate_passes_succ (data : List UInt8) (compare : WhyRequest → Int)
    (fuel left right : Nat) :
    MappedRecords.locate_passes data compare (fuel + 1) left right =
      if left = right then []
      else
        { left := left, right := right, middle := WhyRequest.begin data ((left + right) / 2),
          position := next_offset data (WhyRequest.begin data ((left + right) / 2)) } ::
          (if compare (record_at data (WhyRequest.begin data ((left + right) / 2))) > 0 then
            MappedRecords.locate_passes data compare fuel left
              (WhyRequest.begin data ((left + right) / 2))
          else if compare (record_at data (WhyRequest.begin data ((left + right) / 2))) < 0 then
            MappedRecords.locate_passes data compare fuel
              (next_offset data (WhyRequest.begin data ((left + right) / 2))) right
          else []) := rfl

/-- The passes of the loop of `locate` from frontiers `left <= right <= size`: there are at
most `right - left` of them; each meets its assertions, within `[left, right]`; the
first is at `left` and `right`; and from each to the next `right - left` decreases. -/
theorem locate_passes_spec (data : List UInt8) (compare : WhyRequest → Int) :
    ∀ fuel left right, left ≤ right → right ≤ data.length →
      is_frontier data left → is_frontier data right →
      (MappedRecords.locate_passes data compare fuel left right).length ≤ right - left ∧
      (∀ pass ∈ MappedRecords.locate_passes data compare fuel left right,
        pass.asserted data ∧ left ≤ pass.left ∧ pass.right ≤ right ∧
        pass.right - pass.left ≤ right - left) ∧
      List.Chain' (fun a b : LocatePass => b.right - b.left < a.right - a.left)
        (MappedRecords.locate_passes data compare fuel left right) := by
  intro fuel
  induction fuel with
  | zero =>
    intro left right _ _ _ _
    rw [locate_passes_zero]
    simp
  | succ n ih =>
    intro left right hlr hr hfl hfr
    rw [locate_passes_succ]
    by_cases e : left = right
    · rw [if_pos e]; simp
    · rw [if_neg e]
      have hlt' : left < right := Nat.lt_of_le_of_ne hlr e
      have hls : left < data.length := by omega
      have hmid1 : left ≤ (left + right) / 2 := by omega
      have hmid2 : (left + right) / 2 < right := by omega
      have hstl : starts_record data left := by
        rcases hfl with h | h | h
        · exact Or.inl h
        · omega
        · exact Or.inr h
      have hm1 := begin_ge_of_starts data left ((left + right) / 2) hstl hmid1
      have hm2 := begin_le data ((left + right) / 2)
      have hm3 := begin_starts data ((left + right) / 2)
      generalize WhyRequest.begin data ((left + right) / 2) = middle at hm1 hm2 hm3
      have hmr : middle < right := by omega
      have hsp := next_offset_spec data middle (by omega)
      have hpos1 := hsp.2.2.1 (by omega)
      have hpos2 := next_offset_le_frontier data middle right hmr hr hfr
      have hposf := next_offset_frontier data middle (by omega)
      have hmf := starts_is_frontier data middle hm3
      generalize next_offset data middle = position at hpos1 hpos2 hposf
      have hfirst : LocatePass.asserted data
          { left := left, right := right, middle := middle, position := position } :=
        ⟨hfl, hfr, hlr, hr, hls, hlt', Nat.le_of_lt (Nat.lt_of_lt_of_le hmid2 hr), hm1,
          Nat.le_of_lt hmr, hmr, Nat.lt_succ_of_le hm1, hmf, hposf,
          Nat.lt_of_le_of_lt hm1 hpos1, hpos2⟩
      by_cases c1 : compare (record_at data middle) > 0
      · rw [if_pos c1]
        obtain ⟨h1, h2, h3⟩ := ih left middle hm1 (by omega) hfl hmf
        refine ⟨by simp only [List.length_cons]; omega, ?_, ?_⟩
        · intro pass hp
          rcases List.mem_cons.1 hp with hp | hp
          · subst hp; exact ⟨hfirst, Nat.le_refl _, Nat.le_refl _, Nat.le_refl _⟩
          · obtain ⟨a, b, c, d⟩ := h2 pass hp
            exact ⟨a, b, by omega, by omega⟩
        · refine List.Chain'.cons' h3 ?_
          intro y hy
          obtain ⟨_, b, c, d⟩ := h2 y (List.mem_of_mem_head? hy)
          show y.right - y.left < right - left
          omega
      · rw [if_neg c1]
        by_cases c2 : compare (record_at data middle) < 0
        · rw [if_pos c2]
          obtain ⟨h1, h2, h3⟩ := ih position right hpos2 hr hposf hfr
          refine ⟨by simp only [List.length_cons]; omega, ?_, ?_⟩
          · intro pass hp
            rcases List.mem_cons.1 hp with hp | hp
            · subst hp; exact ⟨hfirst, Nat.le_refl _, Nat.le_refl _, Nat.le_refl _⟩
            · obtain ⟨a, b, c, d⟩ := h2 pass hp
              exact ⟨a, by omega, c, by omega⟩
          · refine List.Chain'.cons' h3 ?_
            intro y hy
            obtain ⟨_, b, c, d⟩ := h2 y (List.mem_of_mem_head? hy)
            show y.right - y.left < right - left
            omega
        · rw [if_neg c2]
          refine ⟨by simp only [List.length_cons, List.length_nil]; omega, ?_, by simp⟩
          intro pass hp
          rcases List.mem_cons.1 hp with hp | hp
          · subst hp; exact ⟨hfirst, Nat.le_refl _, Nat.le_refl _, Nat.le_refl _⟩
          · cases hp

/-- Loop tests beyond `right - left + 1` add no pass: the passes of the loop are the
same under every bound above `right - left`. -/
theorem locate_passes_fuel (data : List UInt8) (compare : WhyRequest → Int) :
    ∀ fuel1 fuel2 left right, left ≤ right → right ≤ data.length →
      is_frontier data left → is_frontier data right →
      right - left < fuel1 → right - left < fuel2 →
      MappedRecords.locate_passes data compare fuel1 left right =
        MappedRecords.locate_passes data compare fuel2 left right := by
  intro fuel1
  induction fuel1 with
  | zero => intro fuel2 left right _ _ _ _ h; omega
  | succ n ih =>
    intro fuel2 left right hlr hr hfl hfr hf1 hf2
    cases fuel2 with
    | zero => omega
    | succ m =>
      rw [locate_passes_succ, locate_passes_succ]
      by_cases e : left = right
      · rw [if_pos e, if_pos e]
      · rw [if_neg e, if_neg e]
        have hlt' : left < right := Nat.lt_of_le_of_ne hlr e
        have hmid1 : left ≤ (left + right) / 2 := by omega
        have hstl : starts_record data left := by
          rcases hfl with h | h | h
          · exact Or.inl h
          · omega
          · exact Or.inr h
        have hm1 := begin_ge_of_starts data left ((left + right) / 2) hstl hmid1
        have hm2 := begin_le data ((left + right) / 2)
        have hm3 := begin_starts data ((left + right) / 2)
        generalize WhyRequest.begin data ((left + right) / 2) = middle at hm1 hm2 hm3
        have hmr : middle < right := by omega
        have hsp := next_offset_spec data middle (by omega)
        have hpos1 := hsp.2.2.1 (by omega)
        have hpos2 := next_offset_le_frontier data middle right hmr hr hfr
        have hposf := next_offset_frontier data middle (by omega)
        have hmf := starts_is_frontier data middle hm3
        congr 1
        by_cases c1 : compare (record_at data middle) > 0
        · rw [if_pos c1, if_pos c1]
          exact ih m left middle hm1 (by omega) hfl hmf (by omega) (by omega)
        · rw [if_neg c1, if_neg c1]
          by_cases c2 : compare (record_at data middle) < 0
          · rw [if_pos c2, if_pos c2]
            exact ih m (next_offset data middle) right hpos2 hr hposf hfr (by omega) (by omega)
          · rw [if_neg c2, if_neg c2]

/-- The offset the loop of `locate` returns, read off its passes: `left` when there is no
pass, and after the last pass its candidate when the comparison there is not
negative, the frontier after the candidate when it is. -/
theorem locate_loop_of_passes (data : List UInt8) (compare : WhyRequest → Int) :
    ∀ fuel left right, right - left < fuel → left ≤ right → right ≤ data.length →
      is_frontier data left → is_frontier data right →
      MappedRecords.locate_loop data compare fuel left right =
        .ok (match (MappedRecords.locate_passes data compare fuel left right).getLast? with
          | none => left
          | some pass =>
            if compare (record_at data pass.middle) < 0 then pass.position else pass.middle) := by
  intro fuel
  induction fuel with
  | zero => intro left right h; omega
  | succ n ih =>
    intro left right hfuel hlr hr hfl hfr
    rw [locate_passes_succ]
    unfold MappedRecords.locate_loop
    by_cases e : left = right
    · rw [if_pos e, if_pos e]; rfl
    · have hlt' : left < right := Nat.lt_of_le_of_ne hlr e
      have hls : left < data.length := by omega
      have hmid1 : left ≤ (left + right) / 2 := by omega
      have hmid2 : (left + right) / 2 < right := by omega
      have hstl : starts_record data left := by
        rcases hfl with h | h | h
        · exact Or.inl h
        · omega
        · exact Or.inr h
      have hbeg : MappedRecords.begin data ((left + right) / 2) =
          .ok (WhyRequest.begin data ((left + right) / 2)) := by
        unfold MappedRecords.begin
        rw [if_pos (by omega)]
      have hm1 := begin_ge_of_starts data left ((left + right) / 2) hstl hmid1
      have hm2 := begin_le data ((left + right) / 2)
      have hm3 := begin_starts data ((left + right) / 2)
      generalize WhyRequest.begin data ((left + right) / 2) = middle at hbeg hm1 hm2 hm3
      have hmr : middle < right := by omega
      have hsp := next_offset_spec data middle (by omega)
      have hpos1 := hsp.2.2.1 (by omega)
      have hpos2 := next_offset_le_frontier data middle right hmr hr hfr
      have hposf := next_offset_frontier data middle (by omega)
      have hmf := starts_is_frontier data middle hm3
      rw [if_neg e, if_neg (by omega), if_neg (by omega), if_neg (by omega), hbeg, if_neg e]
      simp only []
      rw [if_neg (by omega)]
      by_cases c1 : compare (record_at data middle) > 0
      · rw [if_pos c1, if_neg (by omega), if_pos c1,
          ih left middle (by omega) hm1 (by omega) hfl hmf]
        cases hps : MappedRecords.locate_passes data compare n left middle with
        | nil =>
          have hlm : left = middle := by
            by_contra hne
            cases n with
            | zero => omega
            | succ k => rw [locate_passes_succ, if_neg hne] at hps; cases hps
          simp only [List.getLast?_nil, List.getLast?_singleton]
          rw [if_neg (by omega)]
          exact congrArg _ hlm
        | cons q qs =>
          rw [List.getLast?_cons_cons]
      · rw [if_neg c1, if_neg c1]
        by_cases c2 : compare (record_at data middle) < 0
        · rw [if_pos c2, if_neg (by omega), if_pos c2,
            ih (next_offset data middle) right (by omega) hpos2 hr hposf hfr]
          cases hps : MappedRecords.locate_passes data compare n (next_offset data middle) right with
          | nil =>
            simp only [List.getLast?_nil, List.getLast?_singleton]
            rw [if_pos c2]
          | cons q qs =>
            rw [List.getLast?_cons_cons, List.getLast?_eq_getLast (q :: qs) (List.cons_ne_nil q qs)]
        · rw [if_neg c2, if_neg c2]
          simp only [List.getLast?_singleton]
          rw [if_neg c2]

/-- C23: for every buffer and every comparison function, the binary search loop started
with `left = 0` and `right = size` returns within `size + 1` loop tests, and more tests
change neither the result nor the passes; the loop body runs at most `size` times; in
each pass the candidate `middle` is below `right` and the frontier `position` after it
is above `left`, so that either update makes `right - left` smaller; and from each pass
to the next `right - left` decreases. -/
theorem locate_terminates (data : List UInt8) (compare : WhyRequest → Int) :
    (∃ p, MappedRecords.locate_loop data compare (data.length + 1) 0 data.length = .ok p) ∧
    (∀ fuel, data.length < fuel →
      MappedRecords.locate_loop data compare fuel 0 data.length =
        MappedRecords.locate_loop data compare (data.length + 1) 0 data.length ∧
      MappedRecords.locate_passes data compare fuel 0 data.length =
        MappedRecords.locate_passes data compare (data.length + 1) 0 data.length) ∧
    (MappedRecords.locate_passes data compare (data.length + 1) 0 data.length).length ≤
      data.length ∧
    (∀ pass ∈ MappedRecords.locate_passes data compare (data.length + 1) 0 data.length,
      pass.middle < pass.right ∧ pass.left < pass.position ∧
      pass.middle - pass.left < pass.right - pass.left ∧
      pass.right - pass.position < pass.right - pass.left) ∧
    List.Chain' (fun a b : LocatePass => b.right - b.left < a.right - a.left)
      (MappedRecords.locate_passes data compare (data.length + 1) 0 data.length) := by
  obtain ⟨h1, h2, h3⟩ := locate_passes_spec data compare (data.length + 1) 0 data.length
    (Nat.zero_le _) (Nat.le_refl _) (is_frontier_zero data) (is_frontier_length data)
  obtain ⟨p, hp, _⟩ := locate_loop_frontier data compare
  refine ⟨⟨p, hp⟩, ?_, h1, ?_, h3⟩
  · intro fuel hf
    have e := locate_passes_fuel data compare fuel (data.length + 1) 0 data.length
      (Nat.zero_le _) (Nat.le_refl _) (is_frontier_zero data) (is_frontier_length data)
      (by omega) (by omega)
    refine ⟨?_, e⟩
    rw [locate_loop_of_passes data compare fuel 0 data.length (by omega) (Nat.zero_le _)
        (Nat.le_refl _) (is_frontier_zero data) (is_frontier_length data),
      locate_loop_of_passes data compare (data.length + 1) 0 data.length (by omega)
        (Nat.zero_le _) (Nat.le_refl _) (is_frontier_zero data) (is_frontier_length data), e]
  · intro pass hpass
    obtain ⟨⟨_, _, _, _, _, _, _, a, _, b, _, _, _, c, d⟩, _⟩ := h2 pass hpass
    exact ⟨b, c, by omega, by omega⟩

/-- C23 on the region `1 a\n2 b\n` searched for the timestamp 2: two passes. -/
theorem locate_terminates_witness :
    (MappedRecords.locate_passes [49, 32, 97, 10, 50, 32, 98, 10]
      (reference_compare (WhyRequest.of_time 2)) 9 0 8).length ≤ 8 :=
  (locate_terminates [49, 32, 97, 10, 50, 32, 98, 10]
    (reference_compare (WhyRequest.of_time 2))).2.2.1

/-- C24: for every buffer and every comparison function, the binary search loop started
with `left = 0` and `right = size` returns an offset, a record frontier, none of its
assertions failing, and in every pass through the loop body `left` and `right` are
record frontiers with `left <= right <= size`, `left < size` and `left < right`; the
midpoint is within the region, as `MappedRecords::begin` asserts; the candidate
satisfies `left <= middle <= right`, `middle < right` and `left < middle + 1` and is a
record frontier; and the frontier after the candidate, which `left` becomes on `less`,
is a record frontier not past `right`. -/
theorem locate_assertions_hold (data : List UInt8) (compare : WhyRequest → Int) :
    (∃ p, MappedRecords.locate_loop data compare (data.length + 1) 0 data.length = .ok p ∧
      p ≤ data.length ∧ is_frontier data p) ∧
    ∀ pass ∈ MappedRecords.locate_passes data compare (data.length + 1) 0 data.length,
      is_frontier data pass.left ∧ is_frontier data pass.right ∧
      pass.left ≤ pass.right ∧ pass.right ≤ data.length ∧
      pass.left < data.length ∧ pass.left < pass.right ∧
      (pass.left + pass.right) / 2 ≤ data.length ∧
      pass.left ≤ pass.middle ∧ pass.middle ≤ pass.right ∧ pass.middle < pass.right ∧
      pass.left < pass.middle + 1 ∧
      is_frontier data pass.middle ∧ is_frontier data pass.position ∧
      pass.left < pass.position ∧ pass.position ≤ pass.right := by
  refine ⟨locate_loop_frontier data compare, ?_⟩
  intro pass hpass
  exact ((locate_passes_spec data compare (data.length + 1) 0 data.length
    (Nat.zero_le _) (Nat.le_refl _) (is_frontier_zero data) (is_frontier_length data)).2.1
    pass hpass).1

/-- C24 on the region `1 a\n2 b\n` searched for the timestamp 2, at the first pass:
`left = 0`, `right = 8`, the midpoint 4 is a record start, and the next frontier is 8. -/
theorem locate_assertions_hold_witness :
    is_frontier [49, 32, 97, 10, 50, 32, 98, 10] 0 ∧
    is_frontier [49, 32, 97, 10, 50, 32, 98, 10] 8 ∧
    0 ≤ 8 ∧ 8 ≤ [49, 32, 97, 10, 50, 32, 98, 10].length ∧
    0 < [49, 32, 97, 10, 50, 32, 98, 10].length ∧ 0 < 8 ∧
    (0 + 8) / 2 ≤ [49, 32, 97, 10, 50, 32, 98, 10].length ∧
    0 ≤ 4 ∧ 4 ≤ 8 ∧ 4 < 8 ∧ 0 < 4 + 1 ∧
    is_frontier [49, 32, 97, 10, 50, 32, 98, 10] 4 ∧
    is_frontier [49, 32, 97, 10, 50, 32, 98, 10] 8 ∧ 0 < 8 ∧ 8 ≤ 8 :=
  (locate_assertions_hold [49, 32, 97, 10, 50, 32, 98, 10]
    (reference_compare (WhyRequest.of_time 2))).2
    { left := 0, right := 8, middle := 4, position := 8 } (by decide)

/-! ## Framing: realignment and iteration from a frontier -/

/-- C25: for every buffer, every record start `o < size` (`o = 0` or the byte at `o - 1`
is a line terminator) and every offset `p` with `o <= p < n`, where `n` is the next
offset that `get_record` gives at `o`, `WhyRequest::begin(p)` is `o`. -/
theorem begin_realigns_interior (data : List UInt8) (o p : Nat) (ho : o < data.length)
    (hs : o = 0 ∨ data.getD (o - 1) 0 = 10) (h1 : o ≤ p) (h2 : p < next_offset data o) :
    WhyRequest.begin data p = o :=
  Nat.le_antisymm
    (starts_le_of_lt_next data o (WhyRequest.begin data p) (Nat.le_of_lt ho)
      (begin_starts data p) (Nat.lt_of_le_of_lt (begin_le data p) h2))
    (begin_ge_of_starts data o p hs h1)

/-- C25 on the region `1 a\n2 b\n`: the record at 4 ends at 8, and offset 6 realigns to 4. -/
theorem begin_realigns_interior_witness :
    next_offset [49, 32, 97, 10, 50, 32, 98, 10] 4 = 8 ∧
    WhyRequest.begin [49, 32, 97, 10, 50, 32, 98, 10] 6 = 4 :=
  ⟨by decide, begin_realigns_interior [49, 32, 97, 10, 50, 32, 98, 10] 4 6 (by decide)
    (by decide) (by decide) (by decide)⟩

/-- C26: for every buffer and every record frontier `p <= size`, the iteration from the
cursor at `p` yields the records that the iteration from offset 0 yields at starts
`>= p`, with the same fields and in the same order: the iteration from 0 is records
that start before `p` followed by the iteration from `p`; each record yielded is the one
decoded at its start; and the iteration from `size` yields nothing. -/
theorem records_from_frontier (data : List UInt8) (p : Nat) (hp : p ≤ data.length)
    (hpf : p = 0 ∨ p = data.length ∨ data.getD (p - 1) 0 = 10) :
    RecordLocation.records data p =
      (RecordLocation.records data 0).filter (fun x => decide (p ≤ x.1)) ∧
    (∃ pre, RecordLocation.records data 0 = pre ++ RecordLocation.records data p ∧
      ∀ x ∈ pre, x.1 < p) ∧
    (∀ x ∈ RecordLocation.records data p, p ≤ x.1 ∧ x.2 = record_at data x.1) ∧
    RecordLocation.records data data.length = [] := by
  obtain ⟨pre, e, hpre⟩ := records_append data p hp hpf p 0 (by omega) (Nat.zero_le _)
  have hmem := records_mem data (data.length - p) p (Nat.le_refl _) hp
  refine ⟨?_, ⟨pre, e, fun x hx => (hpre x hx).2.1⟩, fun x hx => ⟨(hmem x hx).1, (hmem x hx).2.2⟩,
    records_end data⟩
  rw [e, List.filter_append]
  have e1 : pre.filter (fun x => decide (p ≤ x.1)) = [] := by
    rw [List.filter_eq_nil_iff]
    intro x hx
    have := (hpre x hx).2.1
    simp only [decide_eq_true_eq]
    omega
  have e2 : (RecordLocation.records data p).filter (fun x => decide (p ≤ x.1)) =
      RecordLocation.records data p := by
    rw [List.filter_eq_self]
    intro x hx
    simpa using (hmem x hx).1
  rw [e1, e2, List.nil_append]

/-- C26 on the region `1 a\n2 b\n` from the frontier 4: the one record at 4. -/
theorem records_from_frontier_witness :
    RecordLocation.records [49, 32, 97, 10, 50, 32, 98, 10] 4 =
      (RecordLocation.records [49, 32, 97, 10, 50, 32, 98, 10] 0).filter
        (fun x => decide (4 ≤ x.1)) ∧
    RecordLocation.records [49, 32, 97, 10, 50, 32, 98, 10] 4 =
      [(4, { valid := true, timestamp := 2, query := 6, query_size := 1 })] :=
  ⟨(records_from_frontier [49, 32, 97, 10, 50, 32, 98, 10] 4 (by decide) (by decide)).1,
    by decide⟩

/-! ## The counters of `parse_records` -/

/-- The counter `read` grows by the number of records the scan loop counts. -/
theorem scan_read (p : YParser) :
    ∀ (l : List (Nat × WhyRequest)) (s : ScanState),
      (p.scan l s).read = s.read + (counted p.from_ p.to_ p.fast_seek p.jitter l).length := by
  intro l
  induction l with
  | nil => intro s; rfl
  | cons x rest ih =>
    intro s
    obtain ⟨o, record⟩ := x
    unfold YParser.scan counted
    simp only []
    split
    · rw [ih]
    · split
      · rw [ih]; simp only [List.length_cons]; omega
      · split
        · rfl
        · rw [ih]

/-- The three counters together grow by the number of records the scan loop meets before
it leaves. -/
theorem scan_classified (p : YParser) :
    ∀ (l : List (Nat × WhyRequest)) (s : ScanState),
      (p.scan l s).read + (p.scan l s).skipped + (p.scan l s).invalid =
        s.read + s.skipped + s.invalid + (classified p l).length := by
  intro l
  induction l with
  | nil => intro s; rfl
  | cons x rest ih =>
    intro s
    obtain ⟨o, record⟩ := x
    unfold YParser.scan classified
    simp only []
    by_cases hv : ¬ record.valid = true
    · rw [if_pos hv, List.takeWhile_cons_of_pos
        (by simp only [decide_eq_true_eq]; exact fun h => hv h.2.1), ih]
      simp only [classified, List.length_cons]
      omega
    · rw [if_neg hv]
      by_cases hr : record.timestamp ≥ p.from_ ∧ record.timestamp ≤ p.to_
      · rw [if_pos hr, List.takeWhile_cons_of_pos
          (by simp only [decide_eq_true_eq]; exact fun h => absurd hr.2 (not_le.2 h.2.2.1)), ih]
        simp only [classified, List.length_cons]
        omega
      · rw [if_neg hr]
        by_cases hb : p.fast_seek = true ∧ record.timestamp > p.to_ ∧
            wrap_time (record.timestamp - p.to_) > p.jitter
        · rw [if_pos hb, List.takeWhile_cons_of_neg
            (by simp only [decide_eq_true_eq, not_not]
                exact ⟨hb.1, not_not.1 hv, hb.2.1, hb.2.2⟩)]
          rfl
        · rw [if_neg hb, List.takeWhile_cons_of_pos
            (by simp only [decide_eq_true_eq]; exact fun h => hb ⟨h.1, h.2.2.1, h.2.2.2⟩), ih]
          simp only [classified, List.length_cons]
          omega

theorem counted_length_le (from_ to_ : Int) (fast_seek : Bool) (jitter : Int) :
    ∀ l : List (Nat × WhyRequest), (counted from_ to_ fast_seek jitter l).length ≤ l.length := by
  intro l
  induction l with
  | nil => exact Nat.le_refl _
  | cons x rest ih =>
    unfold counted
    split
    · exact Nat.le_succ_of_le ih
    · split
      · exact Nat.succ_le_succ ih
      · split
        · exact Nat.zero_le _
        · exact Nat.le_succ_of_le ih

theorem total_nil : WordMap.total [] = 0 := rfl

theorem total_cons (key : RefString) (count : Nat) (rest : WordMap) :
    WordMap.total ((key, count) :: rest) = count + WordMap.total rest := by
  simp [WordMap.total]

/-- While the sum of the counts stays below `2^32`, `wordMap[query]++` adds one to it. -/
theorem total_increment (m : WordMap) (q : RefString) (h : m.total + 1 < 4294967296) :
    (m.increment q).total = m.total + 1 := by
  induction m with
  | nil =>
    unfold WordMap.increment
    rw [total_cons, total_nil]
    rfl
  | cons e rest ih =>
    obtain ⟨key, count⟩ := e
    rw [total_cons] at h
    rw [increment_cons]
    split
    · rw [total_cons, total_cons]
      unfold wrap_unsigned
      omega
    · rw [total_cons, total_cons, ih (by omega)]
      omega

theorem total_tally (data : List UInt8) :
    ∀ (l : List (Nat × WhyRequest)) (m : WordMap), m.total + l.length < 4294967296 →
      (tally data m l).total = m.total + l.length := by
  intro l
  induction l with
  | nil => intro m _; rfl
  | cons x rest ih =>
    intro m h
    simp only [List.length_cons] at h
    rw [tally_cons, ih _ (by rw [total_increment m _ (by omega)]; omega),
      total_increment m _ (by omega)]
    simp only [List.length_cons]
    omega

/-! ## A file of `2^32` equal lines -/

theorem record_at_valid (data : List UInt8) (offset : Nat) :
    (record_at data offset).valid =
      ((record_at data offset).timestamp != 0 && (record_at data offset).query_size != 0) := rfl

theorem record_at_timestamp (data : List UInt8) (offset : Nat) :
    (record_at data offset).timestamp =
      wrap_time (decimal_value (run_at is_digit data offset)) := by
  have hts := scan_timestamp_eq data (data.length - offset) offset 0 (Nat.le_refl _)
  have h0 : wrap_time ((0 : Nat) : Int) = 0 := wrap_time_zero
  rw [h0] at hts
  show (scan_timestamp data (data.length - offset) offset 0).2 = _
  rw [hts]
  rfl

theorem getD_drop (data : List UInt8) (o i : Nat) :
    data.getD (o + i) 0 = (data.drop o).getD i 0 := by
  simp [List.getD_eq_getElem?_getD, List.getElem?_drop]

theorem drop_succ_of_drop {data : List UInt8} {o : Nat} {c : UInt8} {rest : List UInt8}
    (h : data.drop o = c :: rest) : data.drop (o + 1) = rest := by
  have e : data.drop (o + 1) = (data.drop o).drop 1 := by
    rw [List.drop_drop]
  rw [e, h]
  rfl

/-- The record decoded where a line `1 a` starts: valid, with timestamp 1 and raw query
`a`, and followed by the record four bytes on. -/
theorem record_at_line (data : List UInt8) (o : Nat) (rest : List UInt8)
    (h : data.drop o = 49 :: 32 :: 97 :: 10 :: rest) :
    (record_at data o).valid = true ∧ (record_at data o).timestamp = 1 ∧
    (record_at data o).get_raw_query data = { str := [97] } ∧
    next_offset data o = o + 4 := by
  have h1 := drop_succ_of_drop h
  have h2 := drop_succ_of_drop h1
  have h3 := drop_succ_of_drop h2
  have hlen : data.length - o = rest.length + 4 := by
    have := congrArg List.length h
    simpa using this
  have hd : run_at is_digit data o = [49] := by
    unfold run_at
    rw [h, List.takeWhile_cons_of_pos (by decide), List.takeWhile_cons_of_neg (by decide)]
  have hsp : run_at is_space data (o + 1) = [32] := by
    unfold run_at
    rw [h1, List.takeWhile_cons_of_pos (by decide), List.takeWhile_cons_of_neg (by decide)]
  have hq : run_at not_newline data (o + 1 + 1) = [97] := by
    unfold run_at
    rw [h2, List.takeWhile_cons_of_pos (by decide), List.takeWhile_cons_of_neg (by decide)]
  have hts : (record_at data o).timestamp = 1 := by
    rw [record_at_timestamp, hd]
    decide
  obtain ⟨hquery, hsize⟩ := record_at_query data o
  rw [hd] at hquery
  simp only [List.length_singleton] at hquery
  rw [hsp] at hquery
  simp only [List.length_singleton] at hquery
  rw [hquery, hq] at hsize
  simp only [List.length_singleton] at hsize
  refine ⟨?_, hts, ?_, ?_⟩
  · rw [record_at_valid, hts, hsize]
    rfl
  · unfold WhyRequest.get_raw_query
    rw [hquery, hsize, h2]
    rfl
  · have g0 : data.getD (o + 0) 0 = 49 := by rw [getD_drop, h]; rfl
    have g1 : data.getD (o + 1) 0 = 32 := by rw [getD_drop, h]; rfl
    have g2 : data.getD (o + 2) 0 = 97 := by rw [getD_drop, h]; rfl
    have g3 : data.getD (o + 3) 0 = 10 := by rw [getD_drop, h]; rfl
    obtain ⟨s1, s2, s3, s4, s5⟩ := next_offset_spec data o (by omega)
    have hle : next_offset data o ≤ o + 4 := by
      by_contra hc
      exact s4 (o + 3) (by omega) (by omega) g3
    rcases s5 with ⟨a, b⟩ | ⟨_, b⟩
    · by_contra hne
      have hcases : next_offset data o - 1 = o + 0 ∨ next_offset data o - 1 = o + 1 ∨
          next_offset data o - 1 = o + 2 := by omega
      rcases hcases with e | e | e
      · rw [e, g0] at b; exact absurd b (by decide)
      · rw [e, g1] at b; exact absurd b (by decide)
      · rw [e, g2] at b; exact absurd b (by decide)
    · exact absurd g3 (b (o + 3) (by omega) (by omega))

theorem repeated_lines_length (n : Nat) : (repeated_lines n).length = 4 * n := by
  induction n with
  | zero => rfl
  | succ n ih =>
    unfold repeated_lines
    rw [List.length_append, ih]
    simp only [List.length_cons, List.length_nil]
    omega

theorem repeated_lines_drop :
    ∀ n k, k ≤ n → (repeated_lines n).drop (4 * k) = repeated_lines (n - k) := by
  intro n
  induction n with
  | zero =>
    intro k hk
    have e : k = 0 := by omega
    subst e
    rfl
  | succ n ih =>
    intro k hk
    cases k with
    | zero => rfl
    | succ k =>
      have e : 4 * (k + 1) = 4 + 4 * k := by omega
      have e2 : n + 1 - (k + 1) = n - k := by omega
      rw [e, e2, ← ih k (by omega)]
      show ([49, 32, 97, 10] ++ repeated_lines n).drop (4 + 4 * k) = _
      rw [← List.drop_drop]
      rfl

/-- The iteration over the file of `n` lines `1 a`, from the start of line `k`: one valid
record per line left, each with timestamp 1 and raw query `a`. -/
theorem repeated_lines_records (n : Nat) :
    ∀ j k, k + j = n →
      (RecordLocation.records (repeated_lines n) (4 * k)).length = j ∧
      ∀ x ∈ RecordLocation.records (repeated_lines n) (4 * k),
        x.2.valid = true ∧ x.2.timestamp = 1 ∧
        x.2.get_raw_query (repeated_lines n) = { str := [97] } := by
  intro j
  induction j with
  | zero =>
    intro k hk
    have e : 4 * k = (repeated_lines n).length := by rw [repeated_lines_length]; omega
    rw [e, records_end]
    exact ⟨rfl, fun x hx => by cases hx⟩
  | succ j ih =>
    intro k hk
    have hlen := repeated_lines_length n
    have hdrop : (repeated_lines n).drop (4 * k) =
        49 :: 32 :: 97 :: 10 :: repeated_lines (n - k - 1) := by
      rw [repeated_lines_drop n k (by omega)]
      have e : n - k = (n - k - 1) + 1 := by omega
      rw [e]
      rfl
    obtain ⟨r1, r2, r3, r4⟩ := record_at_line (repeated_lines n) (4 * k) _ hdrop
    rw [records_unfold (repeated_lines n) (4 * k) (by omega), r4]
    have e4 : 4 * k + 4 = 4 * (k + 1) := by omega
    rw [e4]
    obtain ⟨i1, i2⟩ := ih (k + 1) (by omega)
    refine ⟨by rw [List.length_cons, i1], ?_⟩
    intro x hx
    rcases List.mem_cons.1 hx with hx | hx
    · subst hx
      exact ⟨r1, r2, r3⟩
    · exact i2 x hx

theorem counted_all (from_ to_ : Int) (fast_seek : Bool) (jitter : Int) :
    ∀ l : List (Nat × WhyRequest),
      (∀ x ∈ l, x.2.valid = true ∧ x.2.timestamp ≥ from_ ∧ x.2.timestamp ≤ to_) →
      counted from_ to_ fast_seek jitter l = l := by
  intro l
  induction l with
  | nil => intro _; rfl
  | cons x rest ih =>
    intro h
    have hx := h x (List.mem_cons_self _ _)
    unfold counted
    rw [if_neg (by simp [hx.1]), if_pos hx.2, ih (fun y hy => h y (List.mem_cons_of_mem _ hy))]

/-- The tally of records that all have the raw query `key`, on the table of that one key:
the count grows by their number, modulo `2^32`. -/
theorem tally_same (data : List UInt8) (key : RefString) :
    ∀ (l : List (Nat × WhyRequest)) (count : Nat),
      (∀ x ∈ l, x.2.get_raw_query data = key) →
      tally data [(key, wrap_unsigned count)] l = [(key, wrap_unsigned (count + l.length))] := by
  intro l
  induction l with
  | nil => intro count _; rfl
  | cons x rest ih =>
    intro count h
    rw [tally_cons, h x (List.mem_cons_self _ _), increment_cons, if_pos (RefString.eq_self key),
      ih (wrap_unsigned count + 1) (fun y hy => h y (List.mem_cons_of_mem _ hy))]
    simp only [List.length_cons]
    unfold wrap_unsigned
    congr 2
    omega

/-- The run of `parse_records` with the default configuration over the file of `n >= 1`
lines `1 a`: `n` records read, and the one key `a` with the count `n` modulo `2^32`. -/
theorem repeated_lines_parse (n : Nat) (hn : 1 ≤ n) :
    ∃ s, (YParser.open_file (repeated_lines n)).parse_records = .ok s ∧
      s.read = n ∧ s.wordMap = [({ str := [97] }, wrap_unsigned n)] := by
  refine ⟨_, parse_records_of_position _ 0 (position_slow _ (by simp [YParser.open_file])), ?_, ?_⟩
  · rw [scan_read]
    have hrec := repeated_lines_records n n 0 (by omega)
    rw [Nat.mul_zero] at hrec
    obtain ⟨h1, h2⟩ := hrec
    rw [counted_all _ _ _ _ _ (fun x hx => by
      obtain ⟨a, b, _⟩ := h2 x hx
      refine ⟨a, ?_, ?_⟩
      · rw [b]; simp [YParser.open_file]
      · rw [b]; simp [YParser.open_file])]
    show 0 + _ = n
    rw [show (YParser.open_file (repeated_lines n)).data = repeated_lines n from rfl]
    omega
  · rw [scan_tally]
    have hrec := repeated_lines_records n n 0 (by omega)
    rw [Nat.mul_zero] at hrec
    obtain ⟨h1, h2⟩ := hrec
    rw [counted_all _ _ _ _ _ (fun x hx => by
      obtain ⟨a, b, _⟩ := h2 x hx
      refine ⟨a, ?_, ?_⟩
      · rw [b]; simp [YParser.open_file]
      · rw [b]; simp [YParser.open_file])]
    show tally (repeated_lines n) [] (RecordLocation.records (repeated_lines n) 0) = _
    cases hl : RecordLocation.records (repeated_lines n) (4 * 0) with
    | nil => rw [hl] at h1; simp at h1; omega
    | cons x rest =>
      rw [hl] at h1 h2
      rw [tally_cons, (h2 x (List.mem_cons_self _ _)).2.2]
      have e := tally_same (repeated_lines n) { str := [97] } rest 1
        (fun y hy => (h2 y (List.mem_cons_of_mem _ hy)).2.2)
      simp only [List.length_cons] at h1
      rw [show 1 + rest.length = n by omega] at e
      exact e

/-- The counters of `parse_records` on a fresh parser, when the region is not empty or no
search is done: the run returns; `read`, `skipped` and `invalid` together count the
records the scan loop meets before it leaves; and while fewer than `2^32` records are
counted, `read` is the sum of the counts. -/
theorem parse_records_classifies (p : YParser) (hw : p.wordMap = [])
    (hne : p.data ≠ [] ∨ ¬ (p.fast_seek = true ∧ p.from_ > p.jitter)) :
    ∃ position s, p.position = .ok position ∧ p.parse_records = .ok s ∧
      position ≤ p.data.length ∧ is_frontier p.data position ∧
      s.read + s.skipped + s.invalid =
        (classified p (RecordLocation.records p.data position)).length ∧
      s.read ≤ (RecordLocation.records p.data position).length ∧
      (s.read < 4294967296 → s.read = s.wordMap.total) := by
  obtain ⟨q, hq, hle, hf⟩ := position_ok p hne
  refine ⟨q, _, hq, parse_records_of_position p q hq, hle, hf, ?_, ?_, ?_⟩
  · rw [scan_classified]
    simp only []
    omega
  · rw [scan_read]
    have := counted_length_le p.from_ p.to_ p.fast_seek p.jitter (RecordLocation.records p.data q)
    simp only []
    omega
  · rw [scan_read, scan_tally]
    simp only [hw]
    intro h
    rw [total_tally _ _ _ (by rw [total_nil]; omega), total_nil]

/-- C27 on the file of `2^32` lines `1 a`, parsed with the default configuration: the run
reads `2^32` records, and the count of the one key `a` has wrapped to 0, so that the
sum of the counts of the table is 0. -/
theorem read_exceeds_counts :
    ∃ s, (YParser.open_file (repeated_lines 4294967296)).parse_records = .ok s ∧
      s.read = 4294967296 ∧ s.wordMap = [({ str := [97] }, 0)] ∧
      s.wordMap.total = 0 ∧ s.read ≠ s.wordMap.total := by
  obtain ⟨s, h1, h2, h3⟩ := repeated_lines_parse 4294967296 (by omega)
  have e : wrap_unsigned 4294967296 = 0 := by unfold wrap_unsigned; omega
  rw [e] at h3
  have ht : s.wordMap.total = 0 := by rw [h3]; rfl
  exact ⟨s, h1, h2, h3, ht, by rw [h2, ht]; omega⟩

/-- C27, as amended: for every non-empty buffer and every configuration, and for the
empty buffer when `fast_seek && from > jitter` is false, `parse_records` on a fresh parser
returns with `read + skipped + invalid` equal to the number of records the scan loop
visits from the seek position, not counting the record at which it leaves early; and
when the buffer holds fewer than `2^32` records, `read` equals the sum of all counts in
the frequency table. -/
theorem parse_records_counters (data : List UInt8) (from_ to_ jitter : Int) (fast_seek : Bool)
    (hne : data ≠ [] ∨ ¬ (fast_seek = true ∧ from_ > jitter)) :
    ∃ position s,
      (YParser.configure data from_ to_ fast_seek jitter).position = .ok position ∧
      (YParser.configure data from_ to_ fast_seek jitter).parse_records = .ok s ∧
      s.read + s.skipped + s.invalid =
        (classified (YParser.configure data from_ to_ fast_seek jitter)
          (RecordLocation.records data position)).length ∧
      ((RecordLocation.records data 0).length < 4294967296 → s.read = s.wordMap.total) := by
  obtain ⟨position, s, h1, h2, h3, h4, h5, h6, h7⟩ :=
    parse_records_classifies (YParser.configure data from_ to_ fast_seek jitter) rfl hne
  refine ⟨position, s, h1, h2, h5, fun hn => h7 ?_⟩
  obtain ⟨pre, e, _⟩ := records_append data position h3 h4 position 0 (by omega)
    (Nat.zero_le _)
  have hl : (RecordLocation.records data position).length ≤
      (RecordLocation.records data 0).length := by
    rw [e, List.length_append]
    omega
  exact Nat.lt_of_le_of_lt (Nat.le_trans h6 hl) hn

/-- C27, as amended, on the file `5 a\nxx\n6 a\n9999 b\n` scanned over `[6, 10]` with fast
seek: the first record is skipped, the second is invalid, the third is read, and the
scan leaves at the fourth; the table holds the key `a` with count 1. -/
theorem parse_records_counters_witness :
    (RecordLocation.records
      [53, 32, 97, 10, 120, 120, 10, 54, 32, 97, 10, 57, 57, 57, 57, 32, 98, 10] 0).length <
      4294967296 ∧
    (YParser.configure
      [53, 32, 97, 10, 120, 120, 10, 54, 32, 97, 10, 57, 57, 57, 57, 32, 98, 10]
      6 10 true 900).parse_records =
      .ok { wordMap := [({ str := [97] }, 1)], read := 1, skipped := 1, invalid := 1,
            max_stamp := 6, max_jitter := 0 } ∧
    ∃ position s,
      (YParser.configure
        [53, 32, 97, 10, 120, 120, 10, 54, 32, 97, 10, 57, 57, 57, 57, 32, 98, 10]
        6 10 true 900).position = .ok position ∧
      (YParser.configure
        [53, 32, 97, 10, 120, 120, 10, 54, 32, 97, 10, 57, 57, 57, 57, 32, 98, 10]
        6 10 true 900).parse_records = .ok s ∧
      s.read + s.skipped + s.invalid =
        (classified (YParser.configure
          [53, 32, 97, 10, 120, 120, 10, 54, 32, 97, 10, 57, 57, 57, 57, 32, 98, 10]
          6 10 true 900)
          (RecordLocation.records
            [53, 32, 97, 10, 120, 120, 10, 54, 32, 97, 10, 57, 57, 57, 57, 32, 98, 10]
            position)).length ∧
      s.read = s.wordMap.total := by
  refine ⟨by decide, by decide, ?_⟩
  obtain ⟨position, s, h1, h2, h3, h4⟩ := parse_records_counters
    [53, 32, 97, 10, 120, 120, 10, 54, 32, 97, 10, 57, 57, 57, 57, 32, 98, 10] 6 10 900 true
    (Or.inl (by decide))
  exact ⟨position, s, h1, h2, h3, h4 (by decide)⟩

end WhyParser
